import Mathlib

/-!
Verification of `src/dd/_cudd_addendum.c` (excerpts from CUDD's
`cuddBridge.c` and `cuddCompose.c`): cross-context BDD transfer
(`Cudd_bddTransfer`, `cuddBddTransfer`, `cuddBddTransferRecur`) and
variable permutation (`Cudd_bddPermute`, `cuddBddPermuteRecur`).

The data model is a shallow embedding of the CUDD pointer graph:

* An `Edge` is a node identity plus a polarity ("complement") bit.
  Identity `0` is reserved for the constant-one node, so `⟨0, false⟩`
  is logical true and `⟨0, true⟩` logical false.
* A manager (`Mgr`) owns an association list of nodes, a per-node
  reference counter, the per-variable projection nodes (`vars`), the
  `reordered` flag, the timeout bookkeeping, and explicit allocation
  budgets used to exercise the out-of-memory failure paths.

The CUDD collaborators that are *not* part of the analyzed source
(`cuddBddIteRecur`, `cuddUniqueInter`, the `st` hash-table utility,
the `DdHashTable` utility, reference increment/decrement) are modelled
from the spec's contracts for them; every such definition carries a
`Modelled from the spec:` doc comment.  The five functions of the
source file are translated line by line.
-/

set_option autoImplicit false

namespace CuddAddendum

/-- A complement edge: node identity plus polarity bit.  Identity 0 is the
constant-one node `DD_ONE`. -/
structure Edge where
  id : Nat
  neg : Bool
deriving DecidableEq, Repr

/-- The data of one internal (non-constant) node: branching variable index
and the two child edges. -/
structure NodeData where
  var : Nat
  t : Edge
  e : Edge
deriving DecidableEq, Repr

/-- The constant-one edge, `DD_ONE(dd)`. -/
def oneE : Edge := ⟨0, false⟩

/-- The constant-zero edge, `Cudd_Not(DD_ONE(dd))`. -/
def zeroE : Edge := ⟨0, true⟩

/-- `Cudd_Not`: flip the polarity of an edge. -/
def Cudd_Not (e : Edge) : Edge := ⟨e.id, !e.neg⟩

/-- `Cudd_NotCond(f, c)`: complement `f` iff `c` holds. -/
def Cudd_NotCond (e : Edge) (c : Bool) : Edge := if c then Cudd_Not e else e

/-- A manager context (`DdManager`).  Nodes live in an append-only
association list from identity to node data; `nextId` is the next fresh
identity; `size` is the number of variables; `vars i` is the identity of
the projection node of variable `i` (`manager->vars[i]`); `ref` is the
per-identity reference counter; `reordered` is the flag toggled by a
dynamic-reordering pass; `reorderPlan` is an oracle telling the
composition primitive when a reordering pass fires; `budget` is the
node/heap allocation budget (an allocation fails exactly when it is 0);
`tblBudget` seeds the budget of freshly created transient caches;
`errorTimeout` models `errorCode == CUDD_TIMEOUT_EXPIRED`; `hasHandler`
models `timeoutHandler != NULL`; `timeoutCalls` counts invocations of the
registered timeout callback. -/
structure Mgr where
  nodes : List (Nat × NodeData)
  nextId : Nat
  size : Nat
  vars : Nat → Nat
  ref : Nat → Nat
  reordered : Bool
  reorderPlan : List Bool
  budget : Nat
  tblBudget : Nat
  errorTimeout : Bool
  hasHandler : Bool
  timeoutCalls : Nat

/-- Look a node identity up in a node list. -/
def findN (ns : List (Nat × NodeData)) (i : Nat) : Option NodeData :=
  (ns.find? (fun p => p.1 = i)).map (·.2)

/-- Look a node identity up in the manager's unique table. -/
def findNode (m : Mgr) (i : Nat) : Option NodeData :=
  findN m.nodes i

/-- Look a (variable, then-edge, else-edge) triple up in the manager's
unique table, returning the identity of a node with that data. -/
def findData (m : Mgr) (v : Nat) (t e : Edge) : Option Nat :=
  (m.nodes.find? (fun p => p.2 = ⟨v, t, e⟩)).map (·.1)

/-- An edge is alive in a manager: the constant, or a stored node. -/
def inMgr (m : Mgr) (e : Edge) : Prop :=
  e.id = 0 ∨ (findNode m e.id).isSome

instance (m : Mgr) (e : Edge) : Decidable (inMgr m e) := by
  unfold inMgr; infer_instance

/-- Well-formedness of a stored node: nonzero identity below `nextId`,
variable index within the manager's size, children strictly smaller
(the DAG is acyclic and bottom-up), children alive, canonical
complement-edge form (then-edge regular), and reducedness (distinct
children). -/
def goodNode (m : Mgr) (k : Nat) (nd : NodeData) : Prop :=
  k ≠ 0 ∧ k < m.nextId ∧ nd.var < m.size ∧
  nd.t.id < k ∧ nd.e.id < k ∧
  inMgr m nd.t ∧ inMgr m nd.e ∧
  nd.t.neg = false ∧ nd.t ≠ nd.e

instance (m : Mgr) (k : Nat) (nd : NodeData) : Decidable (goodNode m k nd) := by
  unfold goodNode; infer_instance

/-- Well-formed manager: positive `nextId`, every stored node good, and
the unique table really is unique (no two entries share an identity or a
data triple). -/
def wfM (m : Mgr) : Prop :=
  1 ≤ m.nextId ∧
  (∀ p ∈ m.nodes, goodNode m p.1 p.2) ∧
  m.nodes.Pairwise (fun p q => p.1 ≠ q.1 ∧ p.2 ≠ q.2)

instance (m : Mgr) : Decidable (wfM m) := by
  unfold wfM; infer_instance

/-- Closure of a bare node list: children are strictly smaller and
themselves present (or constant).  This is the part of `wfM` that
evaluation depends on. -/
def closedN (ns : List (Nat × NodeData)) : Prop :=
  ∀ p ∈ ns,
    p.2.t.id < p.1 ∧ p.2.e.id < p.1 ∧
    (p.2.t.id = 0 ∨ (findN ns p.2.t.id).isSome) ∧
    (p.2.e.id = 0 ∨ (findN ns p.2.e.id).isSome)

/-- The projection nodes of a manager are present and well formed:
`vars i` points to a node branching on `i` with constant children. -/
def varsOk (m : Mgr) : Prop :=
  ∀ i < m.size, findNode m (m.vars i) = some ⟨i, oneE, zeroE⟩ ∧ m.vars i ≠ 0

instance (m : Mgr) : Decidable (varsOk m) := by
  unfold varsOk; infer_instance

/-- A variable map is total on the manager: every index below `size` is
sent below `size`. -/
def permutOk (m : Mgr) (permut : Nat → Nat) : Prop :=
  ∀ i < m.size, permut i < m.size

instance (m : Mgr) (p : Nat → Nat) : Decidable (permutOk m p) := by
  unfold permutOk; infer_instance

/-- Fuel-indexed evaluation of an edge over a node list, under an
assignment.  When the list is closed and acyclic (children strictly
smaller), fuel `e.id` is always enough, so the fuel is invisible in
practice; see `evalL_fuel`. -/
def evalL (ns : List (Nat × NodeData)) (a : Nat → Bool) : Nat → Edge → Bool
  | 0, e => !e.neg
  | fuel+1, e =>
    if e.id = 0 then !e.neg
    else
      match findN ns e.id with
      | none => !e.neg
      | some nd =>
        let v := if a nd.var then evalL ns a fuel nd.t else evalL ns a fuel nd.e
        if e.neg then !v else v

/-- Evaluation of an edge: the Boolean function it denotes, applied to an
assignment of the variables. -/
def eEval (m : Mgr) (a : Nat → Bool) (e : Edge) : Bool := evalL m.nodes a e.id e

/-- `cuddRef(n)` (spec §6 "explicit reference increment/decrement
operations"). Modelled from the spec: bump the reference count of the
regular node behind the edge. -/
def cuddRef (m : Mgr) (e : Edge) : Mgr :=
  { m with ref := fun j => if j = e.id then m.ref j + 1 else m.ref j }

/-- `cuddDeref(n)` / `Cudd_RecursiveDeref(dd, n)` /
`Cudd_IterDerefBdd(dd, n)`.  Modelled from the spec: release one
reference of the regular node behind the edge.  (The recursive reclaiming
of nodes whose count hits zero belongs to the external garbage collector,
which the spec scopes out; at the level of the claims all three calls
release exactly the one count that a matching `cuddRef` acquired.) -/
def cuddDeref (m : Mgr) (e : Edge) : Mgr :=
  { m with ref := fun j => if j = e.id then m.ref j - 1 else m.ref j }

/-- Allocate a fresh node for a data triple, consuming one unit of the
manager's allocation budget. -/
def allocNode (m : Mgr) (i : Nat) (t e : Edge) : Mgr :=
  { m with
    nodes := m.nodes ++ [(m.nextId, ⟨i, t, e⟩)],
    nextId := m.nextId + 1,
    budget := m.budget - 1 }

/-- Modelled from the spec: `cuddUniqueInter(dd, index, t, e)` — look the
triple up in the unique table, or allocate a fresh node for it.
Allocation fails (returns `none`, CUDD's NULL) when the budget is
exhausted.  Reference counts are untouched. -/
def cuddUniqueInter (m : Mgr) (i : Nat) (t e : Edge) : Mgr × Option Edge :=
  match findData m i t e with
  | some k => (m, some ⟨k, false⟩)
  | none =>
    if m.budget = 0 then (m, none)
    else (allocNode m i t e, some ⟨m.nextId, false⟩)

/-- Construct-or-reuse the node `(i, t', e')` after the polarity of the
top variable has been resolved: apply the standard reduction (`t' = e'`),
canonicalize the complement edge so the stored then-edge is regular
(pushing the polarity into the returned edge), and go through the unique
table. -/
def iteCanon (m : Mgr) (i : Nat) (t' e' : Edge) : Mgr × Option Edge :=
  if t' = e' then (m, some t')
  else
    match findData m i (Cudd_NotCond t' t'.neg) (Cudd_NotCond e' t'.neg) with
    | some k => (m, some ⟨k, t'.neg⟩)
    | none =>
      if m.budget = 0 then (m, none)
      else (allocNode m i (Cudd_NotCond t' t'.neg) (Cudd_NotCond e' t'.neg),
            some ⟨m.nextId, t'.neg⟩)

/-- The reordering-free core of the if-then-else composition primitive:
resolve the polarity of the projection-node edge `v` (swapping the
branches if it is complemented), then construct canonically.  `v` must
be a projection-node edge (both call sites pass one). -/
def iteCore (m : Mgr) (v t e : Edge) : Mgr × Option Edge :=
  match findNode m v.id with
  | none => (m, none)
  | some nd =>
    if nd.t = oneE ∧ nd.e = zeroE then
      if v.neg then iteCanon m nd.var e t else iteCanon m nd.var t e
    else (m, none)

/-- Modelled from the spec: `cuddBddIteRecur(dd, v, t, e)` — the
context's if-then-else composition primitive.  It consults the
reordering oracle (spec §4.1 step 6: the single call that may trigger a
dynamic-reordering pass; when the pass fires the primitive raises the
`reordered` flag and fails), then runs `iteCore`.  Reference counts are
untouched. -/
def cuddBddIteRecur (m0 : Mgr) (v t e : Edge) : Mgr × Option Edge :=
  if m0.reorderPlan.headD false then
    ({ m0 with reorderPlan := m0.reorderPlan.tail, reordered := true }, none)
  else iteCore { m0 with reorderPlan := m0.reorderPlan.tail } v t e

/-! ### The `st` hash table used by the transfer (spec §6, "associative
cache utility": create, point-identity-keyed insert/lookup, and an
exhaustive enumerate-and-clear operation used during teardown). -/

/-- The transient `st_table` cache of `cuddBddTransfer`: association list
from (regular) source node identity to destination edge, plus its own
allocation budget. -/
structure STTable where
  entries : List (Nat × Edge)
  budget : Nat
deriving Repr

/-- Modelled from the spec: `st_init_table` — allocate an empty table.
The allocation draws on the destination manager's budget. -/
def st_init_table (m : Mgr) : Mgr × Option STTable :=
  if m.budget = 0 then (m, none)
  else ({ m with budget := m.budget - 1 }, some ⟨[], m.tblBudget⟩)

/-- Modelled from the spec: `st_lookup` keyed by node identity. -/
def st_lookup (t : STTable) (k : Nat) : Option Edge :=
  (t.entries.find? (fun p => p.1 = k)).map (·.2)

/-- Modelled from the spec: `st_add_direct` — insert, failing with
`ST_OUT_OF_MEM` (here `none`) when the table's budget is exhausted. -/
def st_add_direct (t : STTable) (k : Nat) (v : Edge) : Option STTable :=
  if t.budget = 0 then none
  else some ⟨t.entries ++ [(k, v)], t.budget - 1⟩

/-- Modelled from the spec: `st_init_gen` — allocate a generator over the
table.  The allocation draws on the manager budget and can fail, in which
case `cuddBddTransfer` takes its `goto failure` path. -/
def st_init_gen (m : Mgr) : Mgr × Bool :=
  if m.budget = 0 then (m, false)
  else ({ m with budget := m.budget - 1 }, true)

/-- The `while (st_gen …) Cudd_RecursiveDeref(ddD, value);` teardown loop
of `cuddBddTransfer`: release the reference held by every cached value. -/
def stDrain (m : Mgr) (t : STTable) : Mgr :=
  t.entries.foldl (fun m p => cuddDeref m p.2) m

/-- How many references a transfer cache's entry list holds on node
identity `i` (one per entry whose value edge points at `i`). -/
def refsOfT (es : List (Nat × Edge)) (i : Nat) : Nat :=
  (es.filter (fun p => p.2.id = i)).length

/-- How many references a transfer cache holds on node identity `i`. -/
def tblRefsT (t : STTable) (i : Nat) : Nat := refsOfT t.entries i

/-! ### The `DdHashTable` used by the permutation. -/

/-- The transient `DdHashTable` cache of `Cudd_bddPermute`: association
list from node identity to (value edge, remaining-referrer count), plus
its own allocation budget. -/
structure DdHT where
  entries : List (Nat × Edge × Nat)
  budget : Nat
deriving Repr

/-- Modelled from the spec: `cuddHashTableInit(manager, 1, 2)` — allocate
an empty computed table, drawing on the manager's budget. -/
def cuddHashTableInit (m : Mgr) : Mgr × Option DdHT :=
  if m.budget = 0 then (m, none)
  else ({ m with budget := m.budget - 1 }, some ⟨[], m.tblBudget⟩)

/-- Walk the entry list for a key: on a hit return the value, the
decremented count, and the updated list (the entry is evicted once its
count reaches zero — §4.2 step 6: "evictable once all referrers have
been served"). -/
def htLook (l : List (Nat × Edge × Nat)) (k : Nat) :
    Option (Edge × Nat × List (Nat × Edge × Nat)) :=
  match l with
  | [] => none
  | p :: rest =>
    if p.1 = k then
      let c' := p.2.2 - 1
      some (p.2.1, c', if c' = 0 then rest else (p.1, p.2.1, c') :: rest)
    else
      match htLook rest k with
      | none => none
      | some (v, c', l') => some (v, c', p :: l')

/-- Modelled from the spec: `cuddHashTableLookup1` — look the key up;
on a hit decrement the entry's count, and once it reaches zero evict the
entry and release the reference the cache held on the value. -/
def cuddHashTableLookup1 (m : Mgr) (t : DdHT) (k : Nat) :
    Mgr × DdHT × Option Edge :=
  match htLook t.entries k with
  | none => (m, t, none)
  | some (v, c', l') =>
    let m := if c' = 0 then cuddDeref m v else m
    (m, ⟨l', t.budget⟩, some v)

/-- Modelled from the spec: `cuddHashTableInsert1` — insert the value
with the given count, taking a reference on the value for the cache
(released on eviction or teardown); fails when the table's budget is
exhausted. -/
def cuddHashTableInsert1 (m : Mgr) (t : DdHT) (k : Nat) (v : Edge) (c : Nat) :
    Mgr × Option DdHT :=
  if t.budget = 0 then (m, none)
  else (cuddRef m v, some ⟨t.entries ++ [(k, v, c)], t.budget - 1⟩)

/-- Modelled from the spec: `cuddHashTableQuit` — teardown, releasing the
reference held on every remaining cached value. -/
def cuddHashTableQuit (m : Mgr) (t : DdHT) : Mgr :=
  t.entries.foldl (fun m p => cuddDeref m p.2.1) m

/-- How many references a permutation cache's entry list holds on node
identity `i`. -/
def refsOfH (es : List (Nat × Edge × Nat)) (i : Nat) : Nat :=
  (es.filter (fun p => p.2.1.id = i)).length

/-- How many references a permutation cache holds on node identity `i`. -/
def tblRefsH (t : DdHT) (i : Nat) : Nat := refsOfH t.entries i

/-- Ghost record of one computed-table interaction of
`cuddBddPermuteRecur`: which key was consulted/inserted and the value of
`N->ref` the code read when deciding to do so (for inserts, also the
stored count). -/
inductive CacheEv where
  | lookup (key : Nat) (refc : Nat)
  | insert (key : Nat) (refc : Nat) (stored : Nat)
deriving DecidableEq, Repr

/-! ### The translated source functions. -/

/-- `cuddBddTransferRecur(ddS, ddD, f, table)` — the recursive step of
`Cudd_bddTransfer`, translated from the source.  `fuel` bounds the
recursion depth (the C recursion terminates because the operand DAG is
acyclic; under `wfM ddS` fuel `f.id + 1` is always sufficient).  Returns
the destination manager, the updated cache, and the result (or `none`
for CUDD's NULL). -/
def cuddBddTransferRecur (ddS : Mgr) :
    Nat → Mgr → STTable → Edge → Mgr × STTable × Option Edge
  | 0, ddD, tbl, _ => (ddD, tbl, none)
  | fuel+1, ddD, tbl, f =>
    -- comple = Cudd_IsComplement(f); trivial case: constants
    if f.id = 0 then (ddD, tbl, some (Cudd_NotCond oneE f.neg))
    else
      -- f is made regular; check the cache
      match st_lookup tbl f.id with
      | some res => (ddD, tbl, some (Cudd_NotCond res f.neg))
      | none =>
        match findNode ddS f.id with
        | none => (ddD, tbl, none)
        | some nd =>
          -- recursive step on cuddT(f)
          match cuddBddTransferRecur ddS fuel ddD tbl nd.t with
          | (ddD, tbl, none) => (ddD, tbl, none)
          | (ddD, tbl, some t) =>
            let ddD := cuddRef ddD t
            -- recursive step on cuddE(f)
            match cuddBddTransferRecur ddS fuel ddD tbl nd.e with
            | (ddD, tbl, none) => (cuddDeref ddD t, tbl, none)
            | (ddD, tbl, some e) =>
              let ddD := cuddRef ddD e
              -- var = cuddUniqueInter(ddD, index, one, zero)
              match cuddUniqueInter ddD nd.var oneE zeroE with
              | (ddD, none) => (cuddDeref (cuddDeref ddD t) e, tbl, none)
              | (ddD, some var) =>
                -- res = cuddBddIteRecur(ddD, var, t, e)
                match cuddBddIteRecur ddD var t e with
                | (ddD, none) => (cuddDeref (cuddDeref ddD t) e, tbl, none)
                | (ddD, some res) =>
                  let ddD := cuddRef ddD res
                  let ddD := cuddDeref (cuddDeref ddD t) e
                  match st_add_direct tbl f.id res with
                  | none => (cuddDeref ddD res, tbl, none)
                  | some tbl => (ddD, tbl, some (Cudd_NotCond res f.neg))

/-- `cuddBddTransfer(ddS, ddD, f)` — one attempt of the transfer,
translated from the source: create the cache, run the recursion,
protect the result, drain the cache (also on failure, to avoid leaks in
case of reordering), unprotect and return.  The extra `Bool` is a ghost
observation: `false` exactly when the `st_init_gen` allocation failed and
the `goto failure` path skipped the drain. -/
def cuddBddTransfer (ddS ddD : Mgr) (f : Edge) : Mgr × Option Edge × Bool :=
  match st_init_table ddD with
  | (ddD, none) => (ddD, none, true)
  | (ddD, some tbl) =>
    match cuddBddTransferRecur ddS (f.id + 1) ddD tbl f with
    | (ddD, tbl, res) =>
      let ddD := match res with | some r => cuddRef ddD r | none => ddD
      match st_init_gen ddD with
      | (ddD, false) => (ddD, none, false)   -- goto failure: no drain
      | (ddD, true) =>
        let ddD := stDrain ddD tbl
        let ddD := match res with | some r => cuddDeref ddD r | none => ddD
        (ddD, res, true)

/-- The `do { … } while (ddDestination->reordered == 1)` retry loop of
`Cudd_bddTransfer`: clear the flag, attempt, and retry while the flag is
found set.  `fuel` bounds the number of attempts; `reorderPlan.length + 1`
is always sufficient (each retried attempt consumed the oracle entry that
fired). -/
def transferLoop (ddS : Mgr) (f : Edge) : Nat → Mgr → Mgr × Option Edge × Bool
  | 0, ddD => (ddD, none, true)
  | fuel+1, ddD =>
    match cuddBddTransfer ddS { ddD with reordered := false } f with
    | (ddD, res, dr) =>
      if ddD.reordered then
        match transferLoop ddS f fuel ddD with
        | (ddD, res, dr') => (ddD, res, dr && dr')
      else (ddD, res, dr)

/-- The timeout notification step shared by both exported entry points:
`if (errorCode == CUDD_TIMEOUT_EXPIRED && timeoutHandler) timeoutHandler(…)`.
Invoking the registered callback is modelled by bumping `timeoutCalls`. -/
def timeoutNote (m : Mgr) : Mgr :=
  if m.errorTimeout ∧ m.hasHandler then
    { m with timeoutCalls := m.timeoutCalls + 1 }
  else m

/-- `Cudd_bddTransfer(ddSource, ddDestination, f)` — the exported entry
point, translated from the source: retry loop, then the timeout
notification (`timeoutHandler` invoked iff
`errorCode == CUDD_TIMEOUT_EXPIRED` and a handler is registered), then
return the result unchanged.  The extra `Bool` is the ghost
all-attempts-drained observation of `cuddBddTransfer`. -/
def Cudd_bddTransfer (ddS ddD : Mgr) (f : Edge) : Mgr × Option Edge × Bool :=
  match transferLoop ddS f (ddD.reorderPlan.length + 1) ddD with
  | (ddD, res, dr) => (timeoutNote ddD, res, dr)

/-- The fallthrough part of `cuddBddPermuteRecur` reached when the
computed table did not answer (either because the reference-count guard
skipped the lookup or because the lookup missed): split and recur on the
children through `recur` (instantiated with the recursion one fuel level
down), compose through the projection node of the permuted index, and
insert the result into the computed table when the re-read reference
count differs from 1.  `evs` carries the ghost cache events recorded so
far. -/
def permuteKids (permut : Nat → Nat)
    (recur : Mgr → DdHT → Edge → Mgr × DdHT × Option Edge × List CacheEv)
    (nd : NodeData) (node : Edge) (m : Mgr) (tbl : DdHT)
    (evs : List CacheEv) : Mgr × DdHT × Option Edge × List CacheEv :=
  -- split and recur on the children
  match recur m tbl nd.t with
  | (m, tbl, none, evsT) => (m, tbl, none, evs ++ evsT)
  | (m, tbl, some T, evsT) =>
    let m := cuddRef m T
    match recur m tbl nd.e with
    | (m, tbl, none, evsE) => (cuddDeref m T, tbl, none, evs ++ evsT ++ evsE)
    | (m, tbl, some E, evsE) =>
      let m := cuddRef m E
      let evs := evs ++ evsT ++ evsE
      -- index = permut[N->index]; res = cuddBddIteRecur(manager, manager->vars[index], T, E)
      match cuddBddIteRecur m ⟨m.vars (permut nd.var), false⟩ T E with
      | (m, none) => (cuddDeref (cuddDeref m T) E, tbl, none, evs)
      | (m, some res) =>
        let m := cuddRef m res
        let m := cuddDeref (cuddDeref m T) E
        -- if (N->ref != 1) insert with saturating-decremented fanout
        let nRef2 := m.ref node.id
        if nRef2 ≠ 1 then
          let fanout := nRef2 - 1
          let evs := evs ++ [CacheEv.insert node.id nRef2 fanout]
          match cuddHashTableInsert1 m tbl node.id res fanout with
          | (m, none) => (cuddDeref m res, tbl, none, evs)
          | (m, some tbl) =>
            (cuddDeref m res, tbl, some (Cudd_NotCond res node.neg), evs)
        else
          (cuddDeref m res, tbl, some (Cudd_NotCond res node.neg), evs)

/-- `cuddBddPermuteRecur(manager, table, node, permut)` — the recursive
step of `Cudd_bddPermute`, translated from the source.  `fuel` bounds the
recursion depth (fuel `node.id + 1` suffices under `wfM`).  Besides the
manager, cache and result, it returns the ghost list of computed-table
interactions (`CacheEv`), recording the value of `N->ref` each guard
read. -/
def cuddBddPermuteRecur (permut : Nat → Nat) :
    Nat → Mgr → DdHT → Edge → Mgr × DdHT × Option Edge × List CacheEv
  | 0, m, tbl, _ => (m, tbl, none, [])
  | fuel+1, m, tbl, node =>
    -- N = Cudd_Regular(node); terminal case
    if node.id = 0 then (m, tbl, some node, [])
    else
      match findNode m node.id with
      | none => (m, tbl, none, [])
      | some nd =>
        -- if (N->ref != 1 && (res = cuddHashTableLookup1(table,N)) != NULL)
        if m.ref node.id ≠ 1 then
          match cuddHashTableLookup1 m tbl node.id with
          | (m1, tb1, some res) =>
            (m1, tb1, some (Cudd_NotCond res node.neg),
             [CacheEv.lookup node.id (m.ref node.id)])
          | (m1, tb1, none) =>
            permuteKids permut (cuddBddPermuteRecur permut fuel) nd node m1 tb1
              [CacheEv.lookup node.id (m.ref node.id)]
        else
          permuteKids permut (cuddBddPermuteRecur permut fuel) nd node m tbl []

/-- One attempt of `Cudd_bddPermute`'s `do { … }` body, translated from
the source: clear the flag, allocate the computed table (an allocation
failure makes the whole call `return(NULL)` — third component `true`),
run the recursion, protect a non-null result, dispose of the cache. -/
def permuteOnce (permut : Nat → Nat) (node : Edge) (m : Mgr) :
    Mgr × Option Edge × Bool :=
  let m : Mgr := { m with reordered := false }
  match cuddHashTableInit m with
  | (m, none) => (m, none, true)
  | (m, some tbl) =>
    match cuddBddPermuteRecur permut (node.id + 1) m tbl node with
    | (m, tbl, res, _) =>
      let m := match res with | some r => cuddRef m r | none => m
      let m := cuddHashTableQuit m tbl
      (m, res, false)

/-- The `do { … } while (manager->reordered == 1)` loop of
`Cudd_bddPermute`.  The third component marks the early `return(NULL)`
taken when the computed-table allocation failed. -/
def permuteLoop (permut : Nat → Nat) (node : Edge) :
    Nat → Mgr → Mgr × Option Edge × Bool
  | 0, m => (m, none, false)
  | fuel+1, m =>
    match permuteOnce permut node m with
    | (m, res, true) => (m, res, true)
    | (m, res, false) =>
      if m.reordered then permuteLoop permut node fuel m else (m, res, false)

/-- `Cudd_bddPermute(manager, node, permut)` — the exported entry point,
translated from the source: retry loop (with the early `return(NULL)` on
computed-table allocation failure, which skips both the final `cuddDeref`
and the timeout notification), then `cuddDeref` of a non-null result,
then the timeout notification, then return the result unchanged. -/
def Cudd_bddPermute (m : Mgr) (node : Edge) (permut : Nat → Nat) :
    Mgr × Option Edge :=
  match permuteLoop permut node (m.reorderPlan.length + 1) m with
  | (m, none, true) => (m, none)
  | (m, res, _) =>
    let m := match res with | some r => cuddDeref m r | none => m
    (timeoutNote m, res)

/-! ### Extension relations between manager states. -/

/-- How one attempt of either operation may change the destination
manager: nodes are only appended, the variable structure and the
timeout bookkeeping are untouched, the reordering oracle is only
consumed, the `reordered` flag is only ever raised, and raising it
consumes at least one oracle entry (`fire`). -/
structure MExt (m m' : Mgr) : Prop where
  nds : ∃ l, m'.nodes = m.nodes ++ l
  nid : m.nextId ≤ m'.nextId
  sz : m'.size = m.size
  vrs : m'.vars = m.vars
  plan : m'.reorderPlan.length ≤ m.reorderPlan.length
  tmo : m'.errorTimeout = m.errorTimeout
  hnd : m'.hasHandler = m.hasHandler
  calls : m'.timeoutCalls = m.timeoutCalls
  tb : m'.tblBudget = m.tblBudget
  reord : m.reordered = true → m'.reordered = true
  fire : m'.reordered = true →
    m.reordered = true ∨ m'.reorderPlan.length < m.reorderPlan.length

/-- How a whole retry loop may change the manager: like `MExt` but with
no constraint on the `reordered` flag (the loop clears it before every
attempt). -/
structure LExt (m m' : Mgr) : Prop where
  nds : ∃ l, m'.nodes = m.nodes ++ l
  nid : m.nextId ≤ m'.nextId
  sz : m'.size = m.size
  vrs : m'.vars = m.vars
  tmo : m'.errorTimeout = m.errorTimeout
  hnd : m'.hasHandler = m.hasHandler
  calls : m'.timeoutCalls = m.timeoutCalls
  tb : m'.tblBudget = m.tblBudget

/-- Soundness of a transfer cache: every entry's value edge is alive in
the destination and denotes the same Boolean function as the (regular)
source node it is keyed by. -/
def TSound (ddS ddD : Mgr) (tbl : STTable) : Prop :=
  ∀ p ∈ tbl.entries,
    inMgr ddD p.2 ∧ ∀ a, eEval ddD a p.2 = eEval ddS a ⟨p.1, false⟩

/-- Soundness of a permutation cache: every entry's key and value edge
are alive, and the value denotes the keyed node's function with the
variables composed through the permutation. -/
def PSound (m : Mgr) (permut : Nat → Nat) (tbl : DdHT) : Prop :=
  ∀ p ∈ tbl.entries,
    inMgr m p.2.1 ∧ inMgr m ⟨p.1, false⟩ ∧
    ∀ a, eEval m a p.2.1 = eEval m (fun i => a (permut i)) ⟨p.1, false⟩

/-- The guard discipline `cuddBddPermuteRecur` follows on its computed
table, as recorded by the ghost events: the cache is consulted only when
the `N->ref` value read by the guard differs from 1, and an insert
stores the saturating-decremented value of the `N->ref` re-read at
insert time. -/
def evGuardOk : CacheEv → Prop
  | .lookup _ r => r ≠ 1
  | .insert _ r c => r ≠ 1 ∧ c = r - 1

instance (ev : CacheEv) : Decidable (evGuardOk ev) := by
  cases ev <;> simp only [evGuardOk] <;> infer_instance

/-- One attempt of the transfer, as the retry loop of `Cudd_bddTransfer`
launches it: flag cleared, then `cuddBddTransfer`. -/
def transferOnce (ddS : Mgr) (f : Edge) (ddD : Mgr) : Mgr × Option Edge × Bool :=
  cuddBddTransfer ddS { ddD with reordered := false } f

/-- A transfer attempt that was retried: it came back with the
`reordered` flag raised (its result is discarded by the loop). -/
def failedAttemptT (ddS : Mgr) (f : Edge) (d d' : Mgr) : Prop :=
  ∃ r dr, transferOnce ddS f d = (d', r, dr) ∧ d'.reordered = true

/-- A permutation attempt that was retried: it completed (no early
return) with the `reordered` flag raised. -/
def failedAttemptP (permut : Nat → Nat) (node : Edge) (d d' : Mgr) : Prop :=
  ∃ r, permuteOnce permut node d = (d', r, false) ∧ d'.reordered = true

/-- `k` steps of a relation, chained. -/
def chainR (R : Mgr → Mgr → Prop) : Nat → Mgr → Mgr → Prop
  | 0, m, m' => m' = m
  | k+1, m, m' => ∃ mm, R m mm ∧ chainR R k mm m'

/-- Two manager states that agree on everything except possibly the
reference counters. -/
def sameButRef (m m' : Mgr) : Prop := ∃ f, m' = { m with ref := f }

/-! ### Concrete fixtures used by the witnesses and counterexamples. -/

/-- A source manager holding `f = (v0 ∧ v1) ∨ v2` (the spec's §8
concrete scenario) at node 3, with `v2` at node 1 and `v1 ∨ v2` at
node 2. -/
def srcM : Mgr :=
  { nodes := [(1, ⟨2, oneE, zeroE⟩), (2, ⟨1, oneE, ⟨1, false⟩⟩),
              (3, ⟨0, ⟨2, false⟩, ⟨1, false⟩⟩)],
    nextId := 4, size := 3, vars := fun _ => 0,
    ref := fun i => if i = 3 then 1 else 0,
    reordered := false, reorderPlan := [], budget := 20, tblBudget := 20,
    errorTimeout := false, hasHandler := false, timeoutCalls := 0 }

/-- An empty destination manager with a comfortable budget. -/
def dstM : Mgr :=
  { nodes := [], nextId := 1, size := 3, vars := fun _ => 0,
    ref := fun _ => 0,
    reordered := false, reorderPlan := [], budget := 20, tblBudget := 20,
    errorTimeout := false, hasHandler := false, timeoutCalls := 0 }

/-- The destination manager whose budget runs out exactly at the
`st_init_gen` allocation when node 1 of `srcM` is transferred into it
(1 for `st_init_table`, 1 for `cuddUniqueInter`, none left for the
generator). -/
def dstGenFail : Mgr := { dstM with budget := 2 }

/-- A destination manager whose transfer cache cannot accept any entry
(`st_add_direct` always reports `ST_OUT_OF_MEM`). -/
def dstNoCache : Mgr := { dstM with tblBudget := 0 }

/-- A manager holding `v0 ∧ v1` at node 3, with projection nodes
`vars 0 = 1` and `vars 1 = 2`. -/
def prmM : Mgr :=
  { nodes := [(1, ⟨0, oneE, zeroE⟩), (2, ⟨1, oneE, zeroE⟩),
              (3, ⟨0, ⟨2, false⟩, zeroE⟩)],
    nextId := 4, size := 2, vars := fun i => i + 1,
    ref := fun i => if 1 ≤ i ∧ i ≤ 3 then 1 else 0,
    reordered := false, reorderPlan := [], budget := 20, tblBudget := 20,
    errorTimeout := false, hasHandler := false, timeoutCalls := 0 }

/-- `prmM` with an exhausted allocation budget, a pending timeout
condition and a registered handler (to observe `Cudd_bddPermute`'s early
return path). -/
def prmNoMem : Mgr :=
  { prmM with budget := 0, errorTimeout := true, hasHandler := true }

/-- `prmM` with a pending timeout condition and a registered handler. -/
def prmTmo : Mgr := { prmM with errorTimeout := true, hasHandler := true }

/-- The permutation swapping variables 0 and 1. -/
def swapP : Nat → Nat := fun i => if i = 0 then 1 else if i = 1 then 0 else i

/-- A manager holding only the projection node of variable 0, with one
external reference on it. -/
def oneVarM : Mgr :=
  { nodes := [(1, ⟨0, oneE, zeroE⟩)],
    nextId := 2, size := 1, vars := fun _ => 1,
    ref := fun i => if i = 1 then 1 else 0,
    reordered := false, reorderPlan := [], budget := 20, tblBudget := 20,
    errorTimeout := false, hasHandler := false, timeoutCalls := 0 }

/-- A manager holding `v0 ∨ v1` at node 3 (then-child the constant,
else-child the projection of `v1`) with two external references on the
shared projection node 2 of `v1`, plus projection nodes. -/
def shrM : Mgr :=
  { nodes := [(1, ⟨0, oneE, zeroE⟩), (2, ⟨1, oneE, zeroE⟩),
              (3, ⟨0, oneE, ⟨2, false⟩⟩)],
    nextId := 4, size := 2, vars := fun i => i + 1,
    ref := fun i => if i = 2 then 2 else if i = 1 ∨ i = 3 then 1 else 0,
    reordered := false, reorderPlan := [], budget := 20, tblBudget := 20,
    errorTimeout := false, hasHandler := false, timeoutCalls := 0 }

/-- The identity variable map. -/
def idP : Nat → Nat := fun i => i

/-- `dstM` with a pending timeout condition and a registered handler. -/
def dstTmo : Mgr := { dstM with errorTimeout := true, hasHandler := true }

/-- `dstM` with a reordering oracle that fires once (the first attempt is
retried). -/
def dstRe : Mgr := { dstM with reorderPlan := [true] }

/-- `prmM` with a reordering oracle that fires once. -/
def prmRe : Mgr := { prmM with reorderPlan := [true] }

/-- A manager holding `v0 ∨ v1` at node 3 whose transient permutation
cache cannot accept any entry (`tblBudget` is 0): node 3 has two
referrers, so the recursion attempts — and fails — the cache insert. -/
def c9M : Mgr :=
  { nodes := [(1, ⟨0, oneE, zeroE⟩), (2, ⟨1, oneE, zeroE⟩),
              (3, ⟨0, oneE, ⟨2, false⟩⟩)],
    nextId := 4, size := 2, vars := fun i => i + 1,
    ref := fun i => if i = 3 then 2 else if i = 1 ∨ i = 2 then 1 else 0,
    reordered := false, reorderPlan := [], budget := 20, tblBudget := 0,
    errorTimeout := false, hasHandler := false, timeoutCalls := 0 }

/-! ## Basic lemmas: lookup, evaluation, extension. -/

/-- A successful lookup is stable under appending nodes. -/
theorem findN_append_left {ns : List (Nat × NodeData)} {i : Nat} {d : NodeData}
    (h : findN ns i = some d) (l : List (Nat × NodeData)) :
    findN (ns ++ l) i = some d := by
  unfold findN at *
  rw [List.find?_append]
  cases hf : ns.find? (fun p => p.1 = i) with
  | none => rw [hf] at h; simp at h
  | some p => rw [hf] at h; simpa [Option.or] using h

/-- Lookup skips a prefix none of whose keys match. -/
theorem findN_append_right {ns : List (Nat × NodeData)} {i : Nat}
    (h : ∀ p ∈ ns, p.1 ≠ i) (l : List (Nat × NodeData)) :
    findN (ns ++ l) i = findN l i := by
  unfold findN
  rw [List.find?_append]
  have : ns.find? (fun p => p.1 = i) = none := by
    rw [List.find?_eq_none]; intro p hp; simpa using h p hp
  rw [this, Option.none_or]

/-- A successful `findN` comes from a member with that key. -/
theorem mem_of_findN {ns : List (Nat × NodeData)} {i : Nat} {d : NodeData}
    (h : findN ns i = some d) : (i, d) ∈ ns := by
  unfold findN at h
  cases hf : ns.find? (fun p => p.1 = i) with
  | none => rw [hf] at h; simp at h
  | some p =>
    obtain ⟨p1, p2⟩ := p
    rw [hf] at h
    have hk : p1 = i := by simpa using List.find?_some hf
    have hd : p2 = d := Option.some.inj h
    have hm := List.mem_of_find?_eq_some hf
    rw [← hk, ← hd]
    exact hm

/-- In a list with pairwise-distinct keys and data, every member is what
lookup by key finds, and what lookup by its data finds. -/
theorem findN_of_mem_list {ns : List (Nat × NodeData)}
    (hp : ns.Pairwise (fun p q => p.1 ≠ q.1 ∧ p.2 ≠ q.2)) {k : Nat}
    {nd : NodeData} (h : (k, nd) ∈ ns) :
    findN ns k = some nd ∧
    (ns.find? (fun p => p.2 = nd)).map (·.1) = some k := by
  induction ns with
  | nil => cases h
  | cons q ql ih =>
    rcases List.mem_cons.mp h with h | h
    · rw [← h]
      constructor
      · simp [findN]
      · simp
    · have hr := (List.pairwise_cons.mp hp).1 _ h
      have ihr := ih (List.pairwise_cons.mp hp).2 h
      constructor
      · unfold findN at *
        rw [@List.find?_cons_of_neg _ (fun p => decide (p.1 = k)) q ql
              (by simpa using hr.1)]
        exact ihr.1
      · rw [@List.find?_cons_of_neg _ (fun p => decide (p.2 = nd)) q ql
              (by simpa using hr.2)]
        exact ihr.2

/-- In a well-formed manager, every member is what lookup by key finds. -/
theorem findNode_of_mem {m : Mgr} (hw : wfM m) {k : Nat} {nd : NodeData}
    (h : (k, nd) ∈ m.nodes) : findNode m k = some nd :=
  (findN_of_mem_list hw.2.2 h).1

/-- A successful data lookup comes from a member. -/
theorem mem_of_findData {m : Mgr} {v : Nat} {t e : Edge} {k : Nat}
    (h : findData m v t e = some k) : (k, (⟨v, t, e⟩ : NodeData)) ∈ m.nodes := by
  unfold findData at h
  cases hf : m.nodes.find? (fun p => p.2 = ⟨v, t, e⟩) with
  | none => rw [hf] at h; simp at h
  | some p =>
    obtain ⟨p1, p2⟩ := p
    rw [hf] at h
    have hk : p2 = ⟨v, t, e⟩ := by simpa using List.find?_some hf
    have hd : p1 = k := by simpa using h
    have hm := List.mem_of_find?_eq_some hf
    rw [← hd, ← hk]
    exact hm

/-- In a well-formed manager, every member is what lookup by data finds. -/
theorem findData_of_mem {m : Mgr} (hw : wfM m) {k : Nat} {nd : NodeData}
    (h : (k, nd) ∈ m.nodes) : findData m nd.var nd.t nd.e = some k :=
  (findN_of_mem_list hw.2.2 h).2

/-- A failed data lookup means no member carries the data. -/
theorem findData_none {m : Mgr} {v : Nat} {t e : Edge}
    (h : findData m v t e = none) : ∀ p ∈ m.nodes, p.2 ≠ ⟨v, t, e⟩ := by
  unfold findData at h
  intro p hp
  cases hf : m.nodes.find? (fun p => p.2 = ⟨v, t, e⟩) with
  | none => exact fun hc => by simpa [hc] using List.find?_eq_none.mp hf p hp
  | some q => rw [hf] at h; simp at h

/-- Every node found in a well-formed manager is good. -/
theorem good_of_findNode {m : Mgr} (hw : wfM m) {k : Nat} {nd : NodeData}
    (h : findNode m k = some nd) : goodNode m k nd :=
  hw.2.1 _ (mem_of_findN h)

/-- Well-formedness gives closure of the node list. -/
theorem closedN_of_wf {m : Mgr} (hw : wfM m) : closedN m.nodes := by
  intro p hp
  obtain ⟨-, -, -, ht, he, hit, hie, -, -⟩ := hw.2.1 p hp
  exact ⟨ht, he, hit, hie⟩

/-- An alive edge of a well-formed manager has identity below `nextId`. -/
theorem inMgr_lt_nextId {m : Mgr} (hw : wfM m) {e : Edge} (h : inMgr m e) :
    e.id < m.nextId := by
  rcases h with h | h
  · have := hw.1; omega
  · obtain ⟨nd, hnd⟩ := Option.isSome_iff_exists.mp h
    exact (good_of_findNode hw hnd).2.1

/-- Accessor for `closedN` through a lookup. -/
theorem closedN_get {ns : List (Nat × NodeData)} (hc : closedN ns) {i : Nat}
    {nd : NodeData} (h : findN ns i = some nd) :
    nd.t.id < i ∧ nd.e.id < i ∧
    (nd.t.id = 0 ∨ (findN ns nd.t.id).isSome) ∧
    (nd.e.id = 0 ∨ (findN ns nd.e.id).isSome) :=
  hc _ (mem_of_findN h)

/-! ### Fuel and extension stability of evaluation. -/

/-- Evaluation does not depend on the fuel, as long as the fuel covers
the edge's identity (children are strictly smaller in a closed list). -/
theorem evalL_fuel {ns : List (Nat × NodeData)} (hc : closedN ns)
    (a : Nat → Bool) :
    ∀ fu1 : Nat, ∀ e : Edge, ∀ fu2 : Nat,
      (e.id = 0 ∨ (findN ns e.id).isSome) →
      e.id ≤ fu1 → e.id ≤ fu2 → evalL ns a fu1 e = evalL ns a fu2 e := by
  intro fu1
  induction fu1 with
  | zero =>
    intro e fu2 halive h1 h2
    have : e.id = 0 := Nat.le_zero.mp h1
    cases fu2 with
    | zero => rfl
    | succ k => simp [evalL, this]
  | succ fu ih =>
    intro e fu2 halive h1 h2
    by_cases h0 : e.id = 0
    · cases fu2 with
      | zero => simp [evalL, h0]
      | succ k => simp [evalL, h0]
    · have hs : (findN ns e.id).isSome := by tauto
      obtain ⟨nd, hnd⟩ := Option.isSome_iff_exists.mp hs
      cases fu2 with
      | zero => omega
      | succ k =>
        obtain ⟨hlt, hle, hat, hae⟩ := closedN_get hc hnd
        simp only [evalL, h0, if_false, hnd]
        rw [ih nd.t fu hat (by omega) (by omega),
            ih nd.e fu hae (by omega) (by omega),
            ih nd.t k hat (by omega) (by omega),
            ih nd.e k hae (by omega) (by omega)]

/-- Evaluation of an alive edge is stable under appending nodes. -/
theorem evalL_append {ns : List (Nat × NodeData)} (hc : closedN ns)
    (l : List (Nat × NodeData)) (a : Nat → Bool) :
    ∀ fuel : Nat, ∀ e : Edge,
      (e.id = 0 ∨ (findN ns e.id).isSome) →
      evalL (ns ++ l) a fuel e = evalL ns a fuel e := by
  intro fuel
  induction fuel with
  | zero => intro e _; rfl
  | succ fu ih =>
    intro e halive
    by_cases h0 : e.id = 0
    · simp [evalL, h0]
    · have hs : (findN ns e.id).isSome := by tauto
      obtain ⟨nd, hnd⟩ := Option.isSome_iff_exists.mp hs
      obtain ⟨-, -, hat, hae⟩ := closedN_get hc hnd
      simp only [evalL, h0, if_false, hnd, findN_append_left hnd l]
      rw [ih nd.t hat, ih nd.e hae]

/-- Evaluation of an edge alive in `m` is unchanged in any extension. -/
theorem eEval_mext {m m' : Mgr} (hx : MExt m m') (hw : wfM m) {e : Edge}
    (he : inMgr m e) (a : Nat → Bool) : eEval m' a e = eEval m a e := by
  obtain ⟨l, hl⟩ := hx.nds
  unfold eEval
  rw [hl]
  exact evalL_append (closedN_of_wf hw) l a e.id e he

/-- Evaluation of a constant edge. -/
theorem eEval_const (m : Mgr) (a : Nat → Bool) (b : Bool) :
    eEval m a ⟨0, b⟩ = !b := rfl

/-- Complementing an edge negates its evaluation. -/
theorem evalL_not (ns : List (Nat × NodeData)) (a : Nat → Bool)
    (fuel : Nat) (e : Edge) :
    evalL ns a fuel (Cudd_Not e) = !(evalL ns a fuel e) := by
  obtain ⟨i, b⟩ := e
  cases fuel with
  | zero => cases b <;> simp [evalL, Cudd_Not]
  | succ fu =>
    by_cases h0 : i = 0
    · cases b <;> simp [evalL, Cudd_Not, h0]
    · show evalL ns a (fu + 1) ⟨i, !b⟩ = !evalL ns a (fu + 1) ⟨i, b⟩
      simp only [evalL, h0, if_false]
      cases hnd : findN ns i with
      | none => cases b <;> simp
      | some nd => cases b <;> simp

/-- Complementing an edge negates its evaluation (manager form). -/
theorem eEval_not (m : Mgr) (a : Nat → Bool) (e : Edge) :
    eEval m a (Cudd_Not e) = !(eEval m a e) :=
  evalL_not m.nodes a e.id e

/-- Evaluation of a conditional complement. -/
theorem eEval_notCond (m : Mgr) (a : Nat → Bool) (e : Edge) (b : Bool) :
    eEval m a (Cudd_NotCond e b) = if b then !(eEval m a e) else eEval m a e := by
  cases b <;> simp [Cudd_NotCond, eEval_not]

/-- Unfolding evaluation at a node of a well-formed manager. -/
theorem eEval_node {m : Mgr} (hw : wfM m) {k : Nat} {nd : NodeData}
    (h : findNode m k = some nd) (a : Nat → Bool) (b : Bool) :
    eEval m a ⟨k, b⟩ =
      (if b then
        !(if a nd.var then eEval m a nd.t else eEval m a nd.e)
       else
        (if a nd.var then eEval m a nd.t else eEval m a nd.e)) := by
  have hk0 : k ≠ 0 := (good_of_findNode hw h).1
  have hc := closedN_of_wf hw
  obtain ⟨hlt1, hlt2, hit, hie⟩ := closedN_get hc h
  obtain ⟨k0, rfl⟩ : ∃ k0, k = k0 + 1 := ⟨k - 1, by omega⟩
  show evalL m.nodes a (k0 + 1) ⟨k0 + 1, b⟩ = _
  simp only [evalL]
  rw [if_neg (by simp : ¬((⟨k0 + 1, b⟩ : Edge).id = 0))]
  rw [show findN m.nodes (Edge.mk (k0+1) b).id = some nd from h]
  show (if b then !(if a nd.var then evalL m.nodes a k0 nd.t else evalL m.nodes a k0 nd.e)
        else (if a nd.var then evalL m.nodes a k0 nd.t else evalL m.nodes a k0 nd.e)) = _
  rw [evalL_fuel hc a k0 nd.t nd.t.id hit (by omega) (le_refl _),
      evalL_fuel hc a k0 nd.e nd.e.id hie (by omega) (le_refl _)]
  rfl

/-! ### Extension algebra and reference-only updates. -/

/-- `MExt` is reflexive. -/
theorem mextRefl (m : Mgr) : MExt m m :=
  ⟨⟨[], by simp⟩, le_refl _, rfl, rfl, le_refl _, rfl, rfl, rfl, rfl,
   fun h => h, fun h => Or.inl h⟩

/-- `MExt` is transitive. -/
theorem mextTrans {m1 m2 m3 : Mgr} (h1 : MExt m1 m2) (h2 : MExt m2 m3) :
    MExt m1 m3 := by
  obtain ⟨l1, hl1⟩ := h1.nds
  obtain ⟨l2, hl2⟩ := h2.nds
  refine ⟨⟨l1 ++ l2, by rw [hl2, hl1, List.append_assoc]⟩,
          le_trans h1.nid h2.nid, h2.sz.trans h1.sz, h2.vrs.trans h1.vrs,
          le_trans h2.plan h1.plan, h2.tmo.trans h1.tmo, h2.hnd.trans h1.hnd,
          h2.calls.trans h1.calls, h2.tb.trans h1.tb,
          fun h => h2.reord (h1.reord h), ?_⟩
  intro h3
  rcases h2.fire h3 with h | h
  · rcases h1.fire h with h' | h'
    · exact Or.inl h'
    · exact Or.inr (lt_of_le_of_lt h2.plan h')
  · exact Or.inr (lt_of_lt_of_le h h1.plan)

/-- A pure reference-counter update is an extension. -/
theorem MExt_refOnly (m : Mgr) (f : Nat → Nat) : MExt m { m with ref := f } :=
  ⟨⟨[], by simp⟩, le_refl _, rfl, rfl, le_refl _, rfl, rfl, rfl, rfl,
   fun h => h, fun h => Or.inl h⟩

/-- `sameButRef` states are extensions of each other. -/
theorem MExt_of_sameButRef {m m' : Mgr} (h : sameButRef m m') : MExt m m' := by
  obtain ⟨f, rfl⟩ := h; exact MExt_refOnly m f

/-- `sameButRef` is reflexive. -/
theorem sbrRefl (m : Mgr) : sameButRef m m := ⟨m.ref, rfl⟩

/-- `sameButRef` is transitive. -/
theorem sbrTrans {m1 m2 m3 : Mgr} (h1 : sameButRef m1 m2)
    (h2 : sameButRef m2 m3) : sameButRef m1 m3 := by
  obtain ⟨f, rfl⟩ := h1; obtain ⟨g, rfl⟩ := h2; exact ⟨g, rfl⟩

/-- `cuddRef` only touches the reference counters. -/
theorem sameButRef_cuddRef (m : Mgr) (e : Edge) : sameButRef m (cuddRef m e) :=
  ⟨_, rfl⟩

/-- `cuddDeref` only touches the reference counters. -/
theorem sameButRef_cuddDeref (m : Mgr) (e : Edge) : sameButRef m (cuddDeref m e) :=
  ⟨_, rfl⟩

/-- A cache teardown only touches the reference counters. -/
theorem sameButRef_foldDeref {α : Type} (g : α → Edge) :
    ∀ (es : List α) (m : Mgr), sameButRef m (es.foldl (fun m p => cuddDeref m (g p)) m)
  | [], m => sbrRefl m
  | p :: es, m =>
    sbrTrans (sameButRef_cuddDeref m (g p))
      (sameButRef_foldDeref g es (cuddDeref m (g p)))

/-- `stDrain` only touches the reference counters. -/
theorem sameButRef_stDrain (m : Mgr) (t : STTable) : sameButRef m (stDrain m t) :=
  sameButRef_foldDeref (fun p : Nat × Edge => p.2) t.entries m

/-- `cuddHashTableQuit` only touches the reference counters. -/
theorem sameButRef_quit (m : Mgr) (t : DdHT) : sameButRef m (cuddHashTableQuit m t) :=
  sameButRef_foldDeref (fun p : Nat × Edge × Nat => p.2.1) t.entries m

/-- Pointwise action of `cuddRef`. -/
theorem cuddRef_ref (m : Mgr) (e : Edge) (i : Nat) :
    (cuddRef m e).ref i = (if i = e.id then m.ref i + 1 else m.ref i) := rfl

/-- Pointwise action of `cuddDeref`. -/
theorem cuddDeref_ref (m : Mgr) (e : Edge) (i : Nat) :
    (cuddDeref m e).ref i = (if i = e.id then m.ref i - 1 else m.ref i) := rfl

/-- An alive edge stays alive in any extension. -/
theorem inMgr_mext {m m' : Mgr} (hx : MExt m m') {e : Edge} (h : inMgr m e) :
    inMgr m' e := by
  rcases h with h | h
  · exact Or.inl h
  · obtain ⟨nd, hnd⟩ := Option.isSome_iff_exists.mp h
    obtain ⟨l, hl⟩ := hx.nds
    right
    rw [show findNode m' e.id = findN m'.nodes e.id from rfl, hl,
        findN_append_left hnd l]
    rfl

/-- A found node is still found in any extension. -/
theorem findNode_mext {m m' : Mgr} (hx : MExt m m') {i : Nat} {nd : NodeData}
    (h : findNode m i = some nd) : findNode m' i = some nd := by
  obtain ⟨l, hl⟩ := hx.nds
  rw [show findNode m' i = findN m'.nodes i from rfl, hl, findN_append_left h l]

/-- The projection-node structure survives any extension. -/
theorem varsOk_mext {m m' : Mgr} (hx : MExt m m') (h : varsOk m) : varsOk m' := by
  intro i hi
  rw [hx.sz] at hi
  obtain ⟨h1, h2⟩ := h i hi
  exact ⟨by rw [hx.vrs]; exact findNode_mext hx h1, by rw [hx.vrs]; exact h2⟩

/-- Totality of a variable map survives any extension. -/
theorem permutOk_mext {m m' : Mgr} (hx : MExt m m') {p : Nat → Nat}
    (h : permutOk m p) : permutOk m' p := by
  intro i hi
  rw [hx.sz] at hi ⊢
  exact h i hi

/-- Soundness of a transfer cache survives destination extension. -/
theorem TSound_mext {ddS m m' : Mgr} (hx : MExt m m') (hw : wfM m)
    {tbl : STTable} (h : TSound ddS m tbl) : TSound ddS m' tbl := by
  intro p hp
  obtain ⟨h1, h2⟩ := h p hp
  exact ⟨inMgr_mext hx h1, fun a => by rw [eEval_mext hx hw h1]; exact h2 a⟩

/-- Soundness of a permutation cache survives extension. -/
theorem PSound_mext {m m' : Mgr} (hx : MExt m m') (hw : wfM m)
    {permut : Nat → Nat} {tbl : DdHT} (h : PSound m permut tbl) :
    PSound m' permut tbl := by
  intro p hp
  obtain ⟨h1, h1k, h2⟩ := h p hp
  refine ⟨inMgr_mext hx h1, inMgr_mext hx h1k, fun a => ?_⟩
  rw [eEval_mext hx hw h1, eEval_mext hx hw h1k]
  exact h2 a

/-! ### Reference-count arithmetic of the caches. -/

/-- Appending one entry to a transfer cache adds one held reference. -/
theorem refsOfT_append (es : List (Nat × Edge)) (k : Nat) (v : Edge) (i : Nat) :
    refsOfT (es ++ [(k, v)]) i =
      refsOfT es i + (if v.id = i then 1 else 0) := by
  unfold refsOfT
  rw [List.filter_append]
  by_cases h : v.id = i <;> simp [h]

/-- Appending one entry to a permutation cache adds one held reference. -/
theorem refsOfH_append (es : List (Nat × Edge × Nat)) (k : Nat) (v : Edge)
    (c : Nat) (i : Nat) :
    refsOfH (es ++ [(k, v, c)]) i =
      refsOfH es i + (if v.id = i then 1 else 0) := by
  unfold refsOfH
  rw [List.filter_append]
  by_cases h : v.id = i <;> simp [h]

/-- Pointwise action of a teardown fold on the counters. -/
theorem foldDeref_ref {α : Type} (g : α → Edge) :
    ∀ (es : List α) (m : Mgr) (i : Nat),
      (es.foldl (fun m p => cuddDeref m (g p)) m).ref i =
        m.ref i - ((es.filter (fun p => (g p).id = i)).length)
  | [], m, i => by simp
  | p :: es, m, i => by
    show (es.foldl (fun m p => cuddDeref m (g p)) (cuddDeref m (g p))).ref i = _
    rw [foldDeref_ref g es (cuddDeref m (g p)) i, cuddDeref_ref]
    simp only [List.filter_cons]
    by_cases h : (g p).id = i
    · subst h
      rw [if_pos rfl, if_pos (by simp)]
      rw [List.length_cons]
      omega
    · rw [if_neg (fun hh => h hh.symm), if_neg (by simpa using h)]

/-- Pointwise action of `stDrain`. -/
theorem stDrain_ref (m : Mgr) (t : STTable) (i : Nat) :
    (stDrain m t).ref i = m.ref i - tblRefsT t i :=
  foldDeref_ref (fun p : Nat × Edge => p.2) t.entries m i

/-- Pointwise action of `cuddHashTableQuit`. -/
theorem quit_ref (m : Mgr) (t : DdHT) (i : Nat) :
    (cuddHashTableQuit m t).ref i = m.ref i - tblRefsH t i :=
  foldDeref_ref (fun p : Nat × Edge × Nat => p.2.1) t.entries m i

/-! ### Specifications of the construction primitives. -/

/-- Allocation is an extension. -/
theorem MExt_alloc (m : Mgr) (i : Nat) (t e : Edge) :
    MExt m (allocNode m i t e) :=
  ⟨⟨[(m.nextId, ⟨i, t, e⟩)], rfl⟩, Nat.le_succ _, rfl, rfl, le_refl _, rfl, rfl,
   rfl, rfl, fun h => h, fun h => Or.inl h⟩

/-- Allocation of a canonical, fresh triple preserves well-formedness,
and the fresh node is found at the old `nextId`. -/
theorem wf_alloc {m : Mgr} (hw : wfM m) {i : Nat} {t e : Edge}
    (hi : i < m.size) (ht : inMgr m t) (he : inMgr m e)
    (htn : t.neg = false) (hne : t ≠ e)
    (hfresh : findData m i t e = none) :
    wfM (allocNode m i t e) ∧
    findNode (allocNode m i t e) m.nextId = some ⟨i, t, e⟩ := by
  have hkeys : ∀ p ∈ m.nodes, p.1 ≠ m.nextId := by
    intro p hp hk
    have := (hw.2.1 p hp).2.1
    omega
  have hfind : findNode (allocNode m i t e) m.nextId = some ⟨i, t, e⟩ := by
    show findN (m.nodes ++ [(m.nextId, ⟨i, t, e⟩)]) m.nextId = _
    rw [findN_append_right hkeys]
    simp [findN]
  refine ⟨⟨by have := hw.1; show 1 ≤ m.nextId + 1; omega, ?_, ?_⟩, hfind⟩
  · intro p hp
    rcases List.mem_append.mp hp with hp | hp
    · obtain ⟨g1, g2, g3, g4, g5, g6, g7, g8, g9⟩ := hw.2.1 p hp
      exact ⟨g1, by show p.1 < m.nextId + 1; omega, g3, g4, g5,
             inMgr_mext (MExt_alloc m i t e) g6,
             inMgr_mext (MExt_alloc m i t e) g7, g8, g9⟩
    · have hp' : p = (m.nextId, (⟨i, t, e⟩ : NodeData)) := by simpa using hp
      subst hp'
      refine ⟨by have := hw.1; omega, by show m.nextId < m.nextId + 1; omega,
              hi, inMgr_lt_nextId hw ht, inMgr_lt_nextId hw he,
              inMgr_mext (MExt_alloc m i t e) ht,
              inMgr_mext (MExt_alloc m i t e) he, htn, hne⟩
  · rw [show (allocNode m i t e).nodes = m.nodes ++ [(m.nextId, ⟨i, t, e⟩)] from rfl,
        List.pairwise_append]
    refine ⟨hw.2.2, by simp, ?_⟩
    intro p hp q hq
    have hq' : q = (m.nextId, (⟨i, t, e⟩ : NodeData)) := by simpa using hq
    subst hq'
    exact ⟨hkeys p hp, findData_none hfresh p hp⟩

/-- `cuddUniqueInter` is an extension that keeps the counters, flags and
oracle untouched. -/
theorem uniq_frame (m : Mgr) (i : Nat) (t e : Edge) :
    MExt m (cuddUniqueInter m i t e).1 ∧
    (cuddUniqueInter m i t e).1.ref = m.ref ∧
    (cuddUniqueInter m i t e).1.reordered = m.reordered ∧
    (cuddUniqueInter m i t e).1.reorderPlan = m.reorderPlan := by
  unfold cuddUniqueInter
  cases hf : findData m i t e with
  | some k => exact ⟨mextRefl m, rfl, rfl, rfl⟩
  | none =>
    by_cases hb : m.budget = 0
    · rw [if_pos hb]; exact ⟨mextRefl m, rfl, rfl, rfl⟩
    · rw [if_neg hb]; exact ⟨MExt_alloc m i t e, rfl, rfl, rfl⟩

/-- Successful `cuddUniqueInter(dd, i, one, zero)` returns a regular
edge to the projection node of `i`, preserving well-formedness. -/
theorem uniq_sound {m : Mgr} (hw : wfM m) {i : Nat} (hi : i < m.size) :
    wfM (cuddUniqueInter m i oneE zeroE).1 ∧
    ∀ r, (cuddUniqueInter m i oneE zeroE).2 = some r →
      r.neg = false ∧ r.id ≠ 0 ∧
      findNode (cuddUniqueInter m i oneE zeroE).1 r.id = some ⟨i, oneE, zeroE⟩ := by
  unfold cuddUniqueInter
  cases hf : findData m i oneE zeroE with
  | some k =>
    have hm := mem_of_findData hf
    refine ⟨hw, ?_⟩
    intro r hr
    cases hr
    exact ⟨rfl, (hw.2.1 _ hm).1, findNode_of_mem hw hm⟩
  | none =>
    by_cases hb : m.budget = 0
    · rw [if_pos hb]; exact ⟨hw, by intro r hr; cases hr⟩
    · rw [if_neg hb]
      obtain ⟨hwa, hfa⟩ := wf_alloc hw hi (Or.inl rfl) (Or.inl rfl)
        rfl (by simp [oneE, zeroE]) hf
      refine ⟨hwa, ?_⟩
      intro r hr
      cases hr
      have := hw.1
      exact ⟨rfl, by show m.nextId ≠ 0; omega, hfa⟩

/-- Evaluation of the constant one. -/
theorem eEval_one (m : Mgr) (a : Nat → Bool) : eEval m a oneE = true := rfl

/-- Evaluation of the constant zero. -/
theorem eEval_zero (m : Mgr) (a : Nat → Bool) : eEval m a zeroE = false := rfl

/-- Evaluating an edge to a node holding the canonicalized pair
`(t', e')` recovers the if-then-else of the pair. -/
theorem eval_canon_node {m : Mgr} (hw : wfM m) {k i : Nat} {t' e' : Edge}
    (h : findNode m k = some ⟨i, Cudd_NotCond t' t'.neg, Cudd_NotCond e' t'.neg⟩)
    (a : Nat → Bool) :
    eEval m a ⟨k, t'.neg⟩ = (if a i then eEval m a t' else eEval m a e') := by
  cases hn : t'.neg with
  | false =>
    rw [hn] at h
    simp only [Cudd_NotCond, if_neg (by simp : ¬(false = true))] at h
    rw [eEval_node hw h]
    simp
  | true =>
    rw [hn] at h
    simp only [Cudd_NotCond, if_pos rfl] at h
    rw [eEval_node hw h]
    cases ha : a i <;> simp [ha, eEval_not]

/-- `Cudd_NotCond` with a fixed flag is injective. -/
theorem notCond_inj {x y : Edge} {b : Bool}
    (h : Cudd_NotCond x b = Cudd_NotCond y b) : x = y := by
  cases b
  · simpa [Cudd_NotCond] using h
  · obtain ⟨x1, x2⟩ := x
    obtain ⟨y1, y2⟩ := y
    simp only [Cudd_NotCond, if_pos rfl, Cudd_Not] at h
    injection h with h1 h2
    cases x2 <;> cases y2 <;> simp_all

/-- Conditional complement does not change liveness. -/
theorem inMgr_notCond (m : Mgr) (x : Edge) (b : Bool) :
    inMgr m (Cudd_NotCond x b) ↔ inMgr m x := by
  cases b <;> simp [Cudd_NotCond, Cudd_Not, inMgr]

/-- `iteCanon` is an extension that keeps the counters, flags and oracle
untouched. -/
theorem canon_frame (m : Mgr) (i : Nat) (t' e' : Edge) :
    MExt m (iteCanon m i t' e').1 ∧
    (iteCanon m i t' e').1.ref = m.ref ∧
    (iteCanon m i t' e').1.reordered = m.reordered ∧
    (iteCanon m i t' e').1.reorderPlan = m.reorderPlan := by
  unfold iteCanon
  repeat' split
  all_goals
    first
      | exact ⟨mextRefl m, rfl, rfl, rfl⟩
      | exact ⟨MExt_alloc m _ _ _, rfl, rfl, rfl⟩

/-- `iteCanon` preserves well-formedness and, on success, returns an
alive edge denoting `if (var i) then t' else e'`. -/
theorem canon_sound {m : Mgr} (hw : wfM m) {i : Nat} {t' e' : Edge}
    (hi : i < m.size) (ht : inMgr m t') (he : inMgr m e') :
    wfM (iteCanon m i t' e').1 ∧
    ∀ r, (iteCanon m i t' e').2 = some r →
      inMgr (iteCanon m i t' e').1 r ∧
      ∀ a, eEval (iteCanon m i t' e').1 a r =
        (if a i then eEval m a t' else eEval m a e') := by
  unfold iteCanon
  by_cases hte : t' = e'
  · rw [if_pos hte]
    refine ⟨hw, ?_⟩
    intro r hr
    cases hr
    exact ⟨ht, fun a => by rw [← hte]; simp⟩
  · rw [if_neg hte]
    cases hf : findData m i (Cudd_NotCond t' t'.neg) (Cudd_NotCond e' t'.neg) with
    | some k =>
      refine ⟨hw, ?_⟩
      intro r hr
      cases hr
      have hfn := findNode_of_mem hw (mem_of_findData hf)
      refine ⟨Or.inr (by rw [show findNode m k = some _ from hfn]; rfl), ?_⟩
      exact eval_canon_node hw hfn
    | none =>
      by_cases hb : m.budget = 0
      · rw [if_pos hb]
        exact ⟨hw, by intro r hr; cases hr⟩
      · rw [if_neg hb]
        have htn : (Cudd_NotCond t' t'.neg).neg = false := by
          cases hn : t'.neg <;> simp [Cudd_NotCond, Cudd_Not, hn]
        have hne : Cudd_NotCond t' t'.neg ≠ Cudd_NotCond e' t'.neg :=
          fun hc => hte (notCond_inj hc)
        have hta : inMgr m (Cudd_NotCond t' t'.neg) :=
          (inMgr_notCond m t' t'.neg).mpr ht
        have hea : inMgr m (Cudd_NotCond e' t'.neg) :=
          (inMgr_notCond m e' t'.neg).mpr he
        obtain ⟨hwa, hfa⟩ := wf_alloc hw hi hta hea htn hne hf
        refine ⟨hwa, ?_⟩
        intro r hr
        cases hr
        have hx := MExt_alloc m i (Cudd_NotCond t' t'.neg) (Cudd_NotCond e' t'.neg)
        refine ⟨Or.inr (by rw [show findNode _ m.nextId = some _ from hfa]; rfl), ?_⟩
        intro a
        rw [eval_canon_node hwa hfa a,
            eEval_mext hx hw ht a, eEval_mext hx hw he a]

/-- `iteCore` is an extension that keeps the counters, flags and oracle
untouched. -/
theorem iteCore_frame (m : Mgr) (v t e : Edge) :
    MExt m (iteCore m v t e).1 ∧
    (iteCore m v t e).1.ref = m.ref ∧
    (iteCore m v t e).1.reordered = m.reordered ∧
    (iteCore m v t e).1.reorderPlan = m.reorderPlan := by
  unfold iteCore
  cases hf : findNode m v.id with
  | none => exact ⟨mextRefl m, rfl, rfl, rfl⟩
  | some nd =>
    dsimp only
    by_cases hc : nd.t = oneE ∧ nd.e = zeroE
    · rw [if_pos hc]
      cases hn : v.neg
      · rw [if_neg (by simp)]
        exact canon_frame m nd.var t e
      · rw [if_pos rfl]
        exact canon_frame m nd.var e t
    · rw [if_neg hc]; exact ⟨mextRefl m, rfl, rfl, rfl⟩

/-- Evaluation of a projection-node edge. -/
theorem eEval_projection {m : Mgr} (hw : wfM m) {v : Edge} {i : Nat}
    (hv : findNode m v.id = some ⟨i, oneE, zeroE⟩) (a : Nat → Bool) :
    eEval m a v = (if v.neg then !(a i) else a i) := by
  have hh := eEval_node hw hv a v.neg
  rw [show (⟨v.id, v.neg⟩ : Edge) = v from rfl] at hh
  rw [hh]
  cases hn : v.neg <;> cases ha : a i <;>
    simp [ha, eEval_one, eEval_zero]

/-- `iteCore` preserves well-formedness and, on success, returns an
alive edge denoting the if-then-else of its arguments. -/
theorem iteCore_sound {m : Mgr} (hw : wfM m) {v t e : Edge} {i : Nat}
    (hv : findNode m v.id = some ⟨i, oneE, zeroE⟩)
    (hi : i < m.size) (ht : inMgr m t) (he : inMgr m e) :
    wfM (iteCore m v t e).1 ∧
    ∀ r, (iteCore m v t e).2 = some r →
      inMgr (iteCore m v t e).1 r ∧
      ∀ a, eEval (iteCore m v t e).1 a r =
        (if eEval m a v then eEval m a t else eEval m a e) := by
  have hev := eEval_projection hw hv
  unfold iteCore
  rw [hv]
  dsimp only
  rw [if_pos (⟨rfl, rfl⟩ :
        (⟨i, oneE, zeroE⟩ : NodeData).t = oneE ∧
        (⟨i, oneE, zeroE⟩ : NodeData).e = zeroE)]
  cases hn : v.neg
  · rw [if_neg (by simp)]
    obtain ⟨hw', hs⟩ := canon_sound hw hi ht he
    refine ⟨hw', ?_⟩
    intro r hr
    obtain ⟨hin, hevr⟩ := hs r hr
    refine ⟨hin, fun a => ?_⟩
    rw [hevr a, hev a, hn]
    simp
  · rw [if_pos rfl]
    obtain ⟨hw', hs⟩ := canon_sound hw hi he ht
    refine ⟨hw', ?_⟩
    intro r hr
    obtain ⟨hin, hevr⟩ := hs r hr
    refine ⟨hin, fun a => ?_⟩
    rw [hevr a, hev a, hn]
    cases ha : a i <;> simp [ha]

/-- The composition primitive is an extension that keeps the reference
counters untouched (spec: construction never changes counts). -/
theorem ite_frame (m : Mgr) (v t e : Edge) :
    MExt m (cuddBddIteRecur m v t e).1 ∧
    (cuddBddIteRecur m v t e).1.ref = m.ref := by
  unfold cuddBddIteRecur
  have hplan : m.reorderPlan.tail.length ≤ m.reorderPlan.length := by
    cases m.reorderPlan <;> simp
  by_cases hf : m.reorderPlan.headD false = true
  · rw [if_pos hf]
    have hlt : m.reorderPlan.tail.length < m.reorderPlan.length := by
      cases hp : m.reorderPlan with
      | nil => rw [hp] at hf; simp at hf
      | cons b bs => simp
    exact ⟨⟨⟨[], by simp⟩, le_refl _, rfl, rfl, hplan, rfl, rfl, rfl, rfl,
            fun _ => rfl, fun _ => Or.inr hlt⟩, rfl⟩
  · rw [if_neg hf]
    have hpop : MExt m { m with reorderPlan := m.reorderPlan.tail } :=
      ⟨⟨[], by simp⟩, le_refl _, rfl, rfl, hplan, rfl, rfl, rfl, rfl,
       fun h => h, fun h => Or.inl h⟩
    obtain ⟨h1, h2, -, -⟩ :=
      iteCore_frame { m with reorderPlan := m.reorderPlan.tail } v t e
    exact ⟨mextTrans hpop h1, h2⟩

/-- If the composition primitive comes back with the `reordered` flag
raised, either it was already raised, or the reordering pass fired and
the primitive failed. -/
theorem ite_reord (m : Mgr) (v t e : Edge) :
    (cuddBddIteRecur m v t e).1.reordered = true →
    m.reordered = true ∨ (cuddBddIteRecur m v t e).2 = none := by
  unfold cuddBddIteRecur
  by_cases hf : m.reorderPlan.headD false = true
  · rw [if_pos hf]
    exact fun _ => Or.inr rfl
  · rw [if_neg hf]
    intro h
    obtain ⟨-, -, hr, -⟩ :=
      iteCore_frame { m with reorderPlan := m.reorderPlan.tail } v t e
    rw [hr] at h
    exact Or.inl h

/-- The composition primitive preserves well-formedness and, on success,
returns an alive edge denoting the if-then-else of its arguments. -/
theorem ite_sound {m : Mgr} (hw : wfM m) {v t e : Edge} {i : Nat}
    (hv : findNode m v.id = some ⟨i, oneE, zeroE⟩)
    (hi : i < m.size) (ht : inMgr m t) (he : inMgr m e) :
    wfM (cuddBddIteRecur m v t e).1 ∧
    ∀ r, (cuddBddIteRecur m v t e).2 = some r →
      inMgr (cuddBddIteRecur m v t e).1 r ∧
      ∀ a, eEval (cuddBddIteRecur m v t e).1 a r =
        (if eEval m a v then eEval m a t else eEval m a e) := by
  unfold cuddBddIteRecur
  by_cases hf : m.reorderPlan.headD false = true
  · rw [if_pos hf]
    exact ⟨hw, by intro r hr; cases hr⟩
  · rw [if_neg hf]
    exact @iteCore_sound { m with reorderPlan := m.reorderPlan.tail }
      hw v t e i hv hi ht he

/-! ### Cache-utility lemmas. -/

/-- A successful insert appends the entry and consumes table budget. -/
theorem st_add_some {t : STTable} {k : Nat} {v : Edge} {t' : STTable}
    (h : st_add_direct t k v = some t') :
    t'.entries = t.entries ++ [(k, v)] := by
  unfold st_add_direct at h
  by_cases hb : t.budget = 0
  · rw [if_pos hb] at h; cases h
  · rw [if_neg hb] at h; cases h; rfl

/-- A transfer-cache hit comes from a member. -/
theorem mem_of_stLookup {t : STTable} {k : Nat} {v : Edge}
    (h : st_lookup t k = some v) : (k, v) ∈ t.entries := by
  unfold st_lookup at h
  cases hf : t.entries.find? (fun p => p.1 = k) with
  | none => rw [hf] at h; simp at h
  | some p =>
    obtain ⟨p1, p2⟩ := p
    rw [hf] at h
    have hk : p1 = k := by simpa using List.find?_some hf
    have hd : p2 = v := Option.some.inj h
    have hm := List.mem_of_find?_eq_some hf
    rw [← hk, ← hd]
    exact hm

/-- Keys absent on a transfer-cache miss. -/
theorem stLookup_none_keys {t : STTable} {k : Nat}
    (h : st_lookup t k = none) : ∀ p ∈ t.entries, p.1 ≠ k := by
  unfold st_lookup at h
  intro p hp
  cases hf : t.entries.find? (fun p => p.1 = k) with
  | none => exact fun hc => by simpa [hc] using List.find?_eq_none.mp hf p hp
  | some q => rw [hf] at h; simp at h

/-- A transfer-cache hit survives appending entries. -/
theorem stLookup_append {t t' : STTable} {k : Nat} {v : Edge}
    (h : st_lookup t k = some v) (hl : ∃ l, t'.entries = t.entries ++ l) :
    st_lookup t' k = some v := by
  obtain ⟨l, hl⟩ := hl
  unfold st_lookup at *
  rw [hl, List.find?_append]
  cases hf : t.entries.find? (fun p => p.1 = k) with
  | none => rw [hf] at h; simp at h
  | some p => rw [hf] at h; simpa [Option.or] using h

/-- Looking up a key that only the appended suffix carries. -/
theorem stLookup_append_right {t t' : STTable} {k : Nat} {v : Edge}
    (hmiss : st_lookup t k = none)
    (hl : t'.entries = t.entries ++ [(k, v)]) :
    st_lookup t' k = some v := by
  unfold st_lookup
  rw [hl, List.find?_append]
  have : t.entries.find? (fun p => p.1 = k) = none := by
    rw [List.find?_eq_none]
    intro p hp
    simpa using stLookup_none_keys hmiss p hp
  rw [this, Option.none_or]
  simp

/-- Entry-list reference counts add over appends. -/
theorem refsOfT_app (es l : List (Nat × Edge)) (i : Nat) :
    refsOfT (es ++ l) i = refsOfT es i + refsOfT l i := by
  unfold refsOfT
  rw [List.filter_append, List.length_append]

/-- Reference counts are monotone along entry-list extension. -/
theorem tblRefsT_mono {t t' : STTable} (h : ∃ l, t'.entries = t.entries ++ l)
    (i : Nat) : tblRefsT t i ≤ tblRefsT t' i := by
  obtain ⟨l, hl⟩ := h
  show refsOfT t.entries i ≤ refsOfT t'.entries i
  rw [hl, refsOfT_app]
  omega

/-- References held by a one-entry transfer cache. -/
theorem refsOfT_single (k : Nat) (v : Edge) (i : Nat) :
    refsOfT [(k, v)] i = (if v.id = i then 1 else 0) := by
  simp only [refsOfT, List.filter]
  by_cases h : v.id = i <;> simp [h]

/-- References held by a one-entry permutation cache. -/
theorem refsOfH_single (k : Nat) (v : Edge) (c : Nat) (i : Nat) :
    refsOfH [(k, v, c)] i = (if v.id = i then 1 else 0) := by
  simp only [refsOfH, List.filter]
  by_cases h : v.id = i <;> simp [h]

/-- Entry-list reference counts add over appends (permutation cache). -/
theorem refsOfH_app (es l : List (Nat × Edge × Nat)) (i : Nat) :
    refsOfH (es ++ l) i = refsOfH es i + refsOfH l i := by
  unfold refsOfH
  rw [List.filter_append, List.length_append]

/-- What a walk of the permutation-cache entry list returns: the value of
a member entry, its decremented count, and the updated list; the updated
list's entries are old entries or the one updated entry, and the held
references balance against the eviction. -/
theorem htLook_some {l : List (Nat × Edge × Nat)} {k : Nat} {v : Edge}
    {c' : Nat} {l' : List (Nat × Edge × Nat)}
    (h : htLook l k = some (v, c', l')) :
    (∃ c, (k, v, c) ∈ l ∧ c' = c - 1) ∧
    (∀ q ∈ l', q ∈ l ∨ q = (k, v, c')) ∧
    (∀ i, refsOfH l' i + (if c' = 0 then (if v.id = i then 1 else 0) else 0)
          = refsOfH l i) := by
  induction l generalizing l' with
  | nil => simp [htLook] at h
  | cons p rest ih =>
    rw [htLook] at h
    by_cases hk : p.1 = k
    · rw [if_pos hk] at h
      obtain ⟨hv, hc, hl⟩ : p.2.1 = v ∧ p.2.2 - 1 = c' ∧
          (if p.2.2 - 1 = 0 then rest else (p.1, p.2.1, p.2.2 - 1) :: rest) = l' := by
        simpa using h
      refine ⟨⟨p.2.2, ?_, by omega⟩, ?_, ?_⟩
      · rw [← hk, ← hv]
        exact List.mem_cons_self _ _
      · intro q hq
        rw [← hl] at hq
        by_cases hc0 : p.2.2 - 1 = 0
        · rw [if_pos hc0] at hq
          exact Or.inl (List.mem_cons_of_mem _ hq)
        · rw [if_neg hc0] at hq
          rcases List.mem_cons.mp hq with hq | hq
          · right; rw [hq, hk, hv, hc]
          · exact Or.inl (List.mem_cons_of_mem _ hq)
      · intro i
        rw [← hl]
        by_cases hc0 : p.2.2 - 1 = 0
        · rw [if_pos hc0]
          rw [show refsOfH (p :: rest) i =
                refsOfH [p] i + refsOfH rest i from refsOfH_app [p] rest i]
          rw [hc] at hc0
          rw [if_pos hc0]
          have : refsOfH [p] i = (if v.id = i then 1 else 0) := by
            simp only [refsOfH, List.filter]
            rw [hv]
            by_cases hvi : v.id = i <;> simp [hvi]
          omega
        · rw [if_neg hc0]
          rw [hc] at hc0
          rw [if_neg hc0]
          rw [show ((p.1, p.2.1, p.2.2 - 1) :: rest) =
                [(p.1, p.2.1, p.2.2 - 1)] ++ rest from rfl,
              show (p :: rest) = [p] ++ rest from rfl,
              refsOfH_app, refsOfH_app]
          have : refsOfH [(p.1, p.2.1, p.2.2 - 1)] i = refsOfH [p] i := by
            simp only [refsOfH, List.filter]
            by_cases hvi : p.2.1.id = i <;> simp [hvi]
          omega
    · rw [if_neg hk] at h
      cases hr : htLook rest k with
      | none => rw [hr] at h; simp at h
      | some w =>
        obtain ⟨wv, wc, wl⟩ := w
        rw [hr] at h
        obtain ⟨hv, hc, hl⟩ : wv = v ∧ wc = c' ∧ p :: wl = l' := by
          simpa using h
        subst hv; subst hc
        obtain ⟨⟨c, hcm, hcd⟩, hsub, hrefs⟩ := ih hr
        refine ⟨⟨c, List.mem_cons_of_mem _ hcm, hcd⟩, ?_, ?_⟩
        · intro q hq
          rw [← hl] at hq
          rcases List.mem_cons.mp hq with hq | hq
          · exact Or.inl (by rw [hq]; exact List.mem_cons_self _ _)
          · rcases hsub q hq with hh | hh
            · exact Or.inl (List.mem_cons_of_mem _ hh)
            · exact Or.inr hh
        · intro i
          rw [← hl]
          rw [show (p :: wl) = [p] ++ wl from rfl,
              show (p :: rest) = [p] ++ rest from rfl,
              refsOfH_app, refsOfH_app]
          have := hrefs i
          omega

/-- A walk that misses means the key is absent. -/
theorem htLook_none {l : List (Nat × Edge × Nat)} {k : Nat}
    (h : htLook l k = none) : ∀ p ∈ l, p.1 ≠ k := by
  induction l with
  | nil => intro p hp; cases hp
  | cons p rest ih =>
    rw [htLook] at h
    by_cases hk : p.1 = k
    · rw [if_pos hk] at h; simp at h
    · rw [if_neg hk] at h
      cases hr : htLook rest k with
      | none =>
        intro q hq
        rcases List.mem_cons.mp hq with hq | hq
        · rw [hq]; exact hk
        · exact ih hr q hq
      | some w => rw [hr] at h; obtain ⟨a, b, c⟩ := w; simp at h

/-- Walking a list whose prefix misses the key finds the appended entry. -/
theorem htLook_append_last {l : List (Nat × Edge × Nat)} {k : Nat}
    (hmiss : ∀ p ∈ l, p.1 ≠ k) (v : Edge) (c : Nat) :
    htLook (l ++ [(k, v, c)]) k =
      some (v, c - 1, l ++ (if c - 1 = 0 then [] else [(k, v, c - 1)])) := by
  induction l with
  | nil =>
    rw [List.nil_append, htLook]
    rw [if_pos rfl]
    by_cases hc : c - 1 = 0 <;> simp [hc]
  | cons p rest ih =>
    have hk : p.1 ≠ k := hmiss p (List.mem_cons_self _ _)
    rw [List.cons_append, htLook, if_neg hk,
        ih (fun q hq => hmiss q (List.mem_cons_of_mem _ hq))]
    by_cases hc : c - 1 = 0 <;> simp [hc]

/-- A successful permutation-cache insert appends the entry, references
the value, and consumes table budget. -/
theorem htInsert_props {m : Mgr} {t : DdHT} {k : Nat} {v : Edge} {c : Nat}
    {m' : Mgr} {t' : DdHT}
    (h : cuddHashTableInsert1 m t k v c = (m', some t')) :
    m' = cuddRef m v ∧ t'.entries = t.entries ++ [(k, v, c)] := by
  unfold cuddHashTableInsert1 at h
  by_cases hb : t.budget = 0
  · rw [if_pos hb] at h; simp at h
  · rw [if_neg hb] at h
    simp only [Prod.mk.injEq] at h
    obtain ⟨h1, h2⟩ := h
    obtain rfl := Option.some.inj h2
    exact ⟨h1.symm, rfl⟩

/-! ### The transfer recursion: frame invariant. -/

/-- Frame invariant of `cuddBddTransferRecur`: the destination only
grows, the cache only gains entries, the reference counters change by
exactly the references the new cache entries hold (each frame releases
what it acquired), and the `reordered` flag is raised only together with
a null result. -/
theorem transferRecur_frame (ddS : Mgr) :
    ∀ (fuel : Nat) (ddD : Mgr) (tbl : STTable) (f : Edge) (d' : Mgr)
      (t' : STTable) (r : Option Edge),
      cuddBddTransferRecur ddS fuel ddD tbl f = (d', t', r) →
      MExt ddD d' ∧
      (∃ l, t'.entries = tbl.entries ++ l) ∧
      (∀ i, d'.ref i + tblRefsT tbl i = ddD.ref i + tblRefsT t' i) ∧
      (d'.reordered = true → ddD.reordered = true ∨ r = none) := by
  intro fuel
  induction fuel with
  | zero =>
    intro ddD tbl f d' t' r h
    rw [cuddBddTransferRecur] at h
    simp only [Prod.mk.injEq] at h
    obtain ⟨rfl, rfl, rfl⟩ := h
    exact ⟨mextRefl _, ⟨[], by simp⟩, fun i => rfl, fun hr => Or.inl hr⟩
  | succ fuel ih =>
    intro ddD tbl f d' t' r h
    rw [cuddBddTransferRecur] at h
    by_cases h0 : f.id = 0
    · rw [if_pos h0] at h
      simp only [Prod.mk.injEq] at h
      obtain ⟨rfl, rfl, rfl⟩ := h
      exact ⟨mextRefl _, ⟨[], by simp⟩, fun i => rfl, fun hr => Or.inl hr⟩
    · rw [if_neg h0] at h
      cases hL : st_lookup tbl f.id with
      | some res =>
        rw [hL] at h
        dsimp only at h
        simp only [Prod.mk.injEq] at h
        obtain ⟨rfl, rfl, rfl⟩ := h
        exact ⟨mextRefl _, ⟨[], by simp⟩, fun i => rfl, fun hr => Or.inl hr⟩
      | none =>
        rw [hL] at h
        dsimp only at h
        cases hS : findNode ddS f.id with
        | none =>
          rw [hS] at h
          dsimp only at h
          simp only [Prod.mk.injEq] at h
          obtain ⟨rfl, rfl, rfl⟩ := h
          exact ⟨mextRefl _, ⟨[], by simp⟩, fun i => rfl, fun hr => Or.inl hr⟩
        | some nd =>
          rw [hS] at h
          dsimp only at h
          rcases hT : cuddBddTransferRecur ddS fuel ddD tbl nd.t with ⟨d1, t1, r1⟩
          rw [hT] at h
          obtain ⟨x1, x2, x3, x4⟩ := ih ddD tbl nd.t d1 t1 r1 hT
          cases r1 with
          | none =>
            simp only [Prod.mk.injEq] at h
            obtain ⟨rfl, rfl, rfl⟩ := h
            exact ⟨x1, x2, x3, fun _ => Or.inr rfl⟩
          | some tEd =>
            dsimp only at h
            rcases hE : cuddBddTransferRecur ddS fuel (cuddRef d1 tEd) t1 nd.e
              with ⟨d2, t2, r2⟩
            rw [hE] at h
            obtain ⟨y1, y2, y3, y4⟩ := ih (cuddRef d1 tEd) t1 nd.e d2 t2 r2 hE
            have x1' : MExt ddD (cuddRef d1 tEd) :=
              mextTrans x1 (MExt_of_sameButRef (sameButRef_cuddRef d1 tEd))
            have mono12 : ∀ i, tblRefsT t1 i ≤ tblRefsT t2 i := tblRefsT_mono y2
            have mono01 : ∀ i, tblRefsT tbl i ≤ tblRefsT t1 i := tblRefsT_mono x2
            have entries02 : ∃ l, t2.entries = tbl.entries ++ l := by
              obtain ⟨l1, hl1⟩ := x2
              obtain ⟨l2, hl2⟩ := y2
              exact ⟨l1 ++ l2, by rw [hl2, hl1, List.append_assoc]⟩
            cases r2 with
            | none =>
              simp only [Prod.mk.injEq] at h
              obtain ⟨rfl, rfl, rfl⟩ := h
              refine ⟨mextTrans (mextTrans x1' y1)
                        (MExt_of_sameButRef (sameButRef_cuddDeref d2 tEd)),
                      entries02, ?_, fun _ => Or.inr rfl⟩
              intro i
              have e1 := x3 i
              have e2 := y3 i
              have e1t := x3 tEd.id
              have e2t := y3 tEd.id
              have m2i := mono12 i
              have m2t := mono12 tEd.id
              rw [cuddRef_ref] at e2 e2t
              rw [cuddDeref_ref]
              split_ifs at * <;> omega
            | some eEd =>
              dsimp only at h
              rcases hU : cuddUniqueInter (cuddRef d2 eEd) nd.var oneE zeroE
                with ⟨d3, r3⟩
              rw [hU] at h
              obtain ⟨u1, u2, u3, u4⟩ :=
                uniq_frame (cuddRef d2 eEd) nd.var oneE zeroE
              rw [hU] at u1 u2 u3 u4
              dsimp only at u1 u2 u3 u4
              have y1' : MExt (cuddRef d1 tEd) (cuddRef d2 eEd) :=
                mextTrans y1 (MExt_of_sameButRef (sameButRef_cuddRef d2 eEd))
              cases r3 with
              | none =>
                simp only [Prod.mk.injEq] at h
                obtain ⟨rfl, rfl, rfl⟩ := h
                refine ⟨mextTrans (mextTrans x1' y1')
                        (mextTrans u1
                          (MExt_of_sameButRef (sbrTrans
                            (sameButRef_cuddDeref d3 tEd)
                            (sameButRef_cuddDeref (cuddDeref d3 tEd) eEd)))),
                        entries02, ?_, fun _ => Or.inr rfl⟩
                intro i
                have e1 := x3 i
                have e2 := y3 i
                have e1t := x3 tEd.id
                have e2t := y3 tEd.id
                have e1e := x3 eEd.id
                have e2e := y3 eEd.id
                have m2i := mono12 i
                have m2t := mono12 tEd.id
                have m2e := mono12 eEd.id
                have m1i := mono01 i
                have m1t := mono01 tEd.id
                have m1e := mono01 eEd.id
                rw [cuddRef_ref] at e2 e2t e2e
                rw [cuddDeref_ref, cuddDeref_ref, u2, cuddRef_ref]
                split_ifs at * <;> omega
              | some var =>
                dsimp only at h
                rcases hI : cuddBddIteRecur d3 var tEd eEd with ⟨d4, r4⟩
                rw [hI] at h
                obtain ⟨i1, i2⟩ := ite_frame d3 var tEd eEd
                have hir := ite_reord d3 var tEd eEd
                rw [hI] at i1 i2 hir
                dsimp only at i1 i2 hir
                have hreo : d4.reordered = true → r4 = none ∨ ddD.reordered = true := by
                  intro hr
                  rcases hir hr with hh | hh
                  · right
                    rw [u3] at hh
                    have hd2 : d2.reordered = true := hh
                    rcases y4 hd2 with hh' | hh'
                    · rcases x4 hh' with hh'' | hh''
                      · exact hh''
                      · cases hh''
                    · cases hh'
                  · exact Or.inl hh
                cases r4 with
                | none =>
                  simp only [Prod.mk.injEq] at h
                  obtain ⟨rfl, rfl, rfl⟩ := h
                  refine ⟨mextTrans (mextTrans x1' y1')
                          (mextTrans u1 (mextTrans i1
                            (MExt_of_sameButRef (sbrTrans
                              (sameButRef_cuddDeref d4 tEd)
                              (sameButRef_cuddDeref (cuddDeref d4 tEd) eEd))))),
                          entries02, ?_, fun _ => Or.inr rfl⟩
                  intro i
                  have e1 := x3 i
                  have e2 := y3 i
                  have e1t := x3 tEd.id
                  have e2t := y3 tEd.id
                  have e1e := x3 eEd.id
                  have e2e := y3 eEd.id
                  have m2i := mono12 i
                  have m2t := mono12 tEd.id
                  have m2e := mono12 eEd.id
                  have m1i := mono01 i
                  have m1t := mono01 tEd.id
                  have m1e := mono01 eEd.id
                  rw [cuddRef_ref] at e2 e2t e2e
                  rw [cuddDeref_ref, cuddDeref_ref, i2, u2, cuddRef_ref]
                  split_ifs at * <;> omega
                | some res =>
                  dsimp only at h
                  cases hA : st_add_direct t2 f.id res with
                  | none =>
                    rw [hA] at h
                    simp only [Prod.mk.injEq] at h
                    obtain ⟨rfl, rfl, rfl⟩ := h
                    refine ⟨mextTrans (mextTrans x1' y1')
                            (mextTrans u1 (mextTrans i1
                              (MExt_of_sameButRef (sbrTrans
                                (sbrTrans
                                  (sameButRef_cuddRef d4 res)
                                  (sameButRef_cuddDeref (cuddRef d4 res) tEd))
                                (sbrTrans
                                  (sameButRef_cuddDeref
                                    (cuddDeref (cuddRef d4 res) tEd) eEd)
                                  (sameButRef_cuddDeref
                                    (cuddDeref (cuddDeref (cuddRef d4 res) tEd) eEd)
                                    res)))))),
                            entries02, ?_, fun _ => Or.inr rfl⟩
                    intro i
                    have e1 := x3 i
                    have e2 := y3 i
                    have e1t := x3 tEd.id
                    have e2t := y3 tEd.id
                    have e1e := x3 eEd.id
                    have e2e := y3 eEd.id
                    have m2i := mono12 i
                    have m2t := mono12 tEd.id
                    have m2e := mono12 eEd.id
                    have m1i := mono01 i
                    have m1t := mono01 tEd.id
                    have m1e := mono01 eEd.id
                    rw [cuddRef_ref] at e2 e2t e2e
                    rw [cuddDeref_ref, cuddDeref_ref, cuddDeref_ref, cuddRef_ref,
                        i2, u2, cuddRef_ref]
                    split_ifs at * <;> omega
                  | some t3 =>
                    rw [hA] at h
                    simp only [Prod.mk.injEq] at h
                    obtain ⟨rfl, rfl, rfl⟩ := h
                    have hent := st_add_some hA
                    refine ⟨mextTrans (mextTrans x1' y1')
                            (mextTrans u1 (mextTrans i1
                              (MExt_of_sameButRef (sbrTrans
                                (sameButRef_cuddRef d4 res)
                                (sbrTrans
                                  (sameButRef_cuddDeref (cuddRef d4 res) tEd)
                                  (sameButRef_cuddDeref
                                    (cuddDeref (cuddRef d4 res) tEd) eEd)))))),
                            ?_, ?_, ?_⟩
                    · obtain ⟨l, hl⟩ := entries02
                      exact ⟨l ++ [(f.id, res)],
                        by rw [hent, hl, List.append_assoc]⟩
                    · intro i
                      have e1 := x3 i
                      have e2 := y3 i
                      have e1t := x3 tEd.id
                      have e2t := y3 tEd.id
                      have e1e := x3 eEd.id
                      have e2e := y3 eEd.id
                      have m2i := mono12 i
                      have m2t := mono12 tEd.id
                      have m2e := mono12 eEd.id
                      have m1i := mono01 i
                      have m1t := mono01 tEd.id
                      have m1e := mono01 eEd.id
                      have h3 : tblRefsT t3 i
                          = tblRefsT t2 i + (if res.id = i then 1 else 0) := by
                        show refsOfT t3.entries i = _
                        rw [hent, refsOfT_app, refsOfT_single]
                        rfl
                      rw [cuddRef_ref] at e2 e2t e2e
                      rw [cuddDeref_ref, cuddDeref_ref, cuddRef_ref, i2, u2,
                          cuddRef_ref, h3]
                      split_ifs at * <;> omega
                    · intro hr
                      have : d4.reordered = true := hr
                      rcases hreo this with hh | hh
                      · cases hh
                      · exact Or.inl hh

/-! ### Transport along reference-only updates. -/

/-- Evaluation ignores the reference counters. -/
theorem eEval_sbr {m m' : Mgr} (h : sameButRef m m') (a : Nat → Bool)
    (x : Edge) : eEval m' a x = eEval m a x := by
  obtain ⟨f, rfl⟩ := h; rfl

/-- Well-formedness ignores the reference counters. -/
theorem wfM_sbr {m m' : Mgr} (h : sameButRef m m') : wfM m' ↔ wfM m := by
  obtain ⟨f, rfl⟩ := h; exact Iff.rfl

/-- Lookup ignores the reference counters. -/
theorem findNode_sbr {m m' : Mgr} (h : sameButRef m m') (i : Nat) :
    findNode m' i = findNode m i := by
  obtain ⟨f, rfl⟩ := h; rfl

/-- Liveness ignores the reference counters. -/
theorem inMgr_sbr {m m' : Mgr} (h : sameButRef m m') (e : Edge) :
    inMgr m' e ↔ inMgr m e := by
  obtain ⟨f, rfl⟩ := h; exact Iff.rfl

/-- Transfer-cache soundness ignores the reference counters. -/
theorem TSound_sbr {ddS m m' : Mgr} (h : sameButRef m m') (tbl : STTable) :
    TSound ddS m' tbl ↔ TSound ddS m tbl := by
  obtain ⟨f, rfl⟩ := h; exact Iff.rfl

/-- Permutation-cache soundness ignores the reference counters. -/
theorem PSound_sbr {m m' : Mgr} (h : sameButRef m m') (p : Nat → Nat)
    (tbl : DdHT) : PSound m' p tbl ↔ PSound m p tbl := by
  obtain ⟨f, rfl⟩ := h; exact Iff.rfl

/-- Projection-node structure ignores the reference counters. -/
theorem varsOk_sbr {m m' : Mgr} (h : sameButRef m m') :
    varsOk m' ↔ varsOk m := by
  obtain ⟨f, rfl⟩ := h; exact Iff.rfl

/-- Every edge is equal to its regular version re-complemented. -/
theorem notCond_regular (f : Edge) :
    Cudd_NotCond ⟨f.id, false⟩ f.neg = f := by
  obtain ⟨i, b⟩ := f
  cases b <;> simp [Cudd_NotCond, Cudd_Not]

/-! ### The transfer recursion: soundness. -/

/-- Soundness invariant of `cuddBddTransferRecur`: starting from a
well-formed destination and a sound cache, the destination stays well
formed, the cache stays sound and only gains keys bounded by the operand,
and a non-null result is alive, denotes exactly the source function, and
(for non-constant operands) has been recorded in the cache. -/
theorem transferRecur_sound (ddS : Mgr) (hwS : wfM ddS) :
    ∀ (fuel : Nat) (ddD : Mgr) (tbl : STTable) (f : Edge) (d' : Mgr)
      (t' : STTable) (r : Option Edge),
      cuddBddTransferRecur ddS fuel ddD tbl f = (d', t', r) →
      wfM ddD → ddS.size ≤ ddD.size → inMgr ddS f → f.id < fuel →
      TSound ddS ddD tbl →
      wfM d' ∧ TSound ddS d' t' ∧
      (∀ p ∈ t'.entries, p ∈ tbl.entries ∨ p.1 ≤ f.id) ∧
      (∀ e, r = some e →
        inMgr d' e ∧
        (∀ a, eEval d' a e = eEval ddS a f) ∧
        (f.id ≠ 0 → ∃ v, st_lookup t' f.id = some v ∧ e = Cudd_NotCond v f.neg)) := by
  intro fuel
  induction fuel with
  | zero =>
    intro ddD tbl f d' t' r h hwD hsz hf hfuel hts
    omega
  | succ fuel ih =>
    intro ddD tbl f d' t' r h hwD hsz hf hfuel hts
    rw [cuddBddTransferRecur] at h
    by_cases h0 : f.id = 0
    · rw [if_pos h0] at h
      simp only [Prod.mk.injEq] at h
      obtain ⟨rfl, rfl, rfl⟩ := h
      refine ⟨hwD, hts, fun p hp => Or.inl hp, ?_⟩
      intro e he
      cases he
      refine ⟨(inMgr_notCond _ oneE f.neg).mpr (Or.inl rfl), ?_,
              fun hc => absurd h0 hc⟩
      intro a
      rw [eEval_notCond]
      have hfv : eEval ddS a f = !f.neg := by
        unfold eEval
        rw [h0]
        rfl
      rw [hfv]
      cases f.neg <;> rfl
    · rw [if_neg h0] at h
      cases hL : st_lookup tbl f.id with
      | some res =>
        rw [hL] at h
        dsimp only at h
        simp only [Prod.mk.injEq] at h
        obtain ⟨rfl, rfl, rfl⟩ := h
        obtain ⟨hres1, hres2⟩ := hts _ (mem_of_stLookup hL)
        refine ⟨hwD, hts, fun p hp => Or.inl hp, ?_⟩
        intro e he
        cases he
        refine ⟨(inMgr_notCond _ res f.neg).mpr hres1, ?_, ?_⟩
        · intro a
          rw [eEval_notCond]
          conv_rhs => rw [← notCond_regular f]
          rw [eEval_notCond, hres2 a]
        · exact fun _ => ⟨res, hL, rfl⟩
      | none =>
        rw [hL] at h
        dsimp only at h
        cases hS : findNode ddS f.id with
        | none =>
          exfalso
          rcases hf with hf | hf
          · exact h0 hf
          · rw [hS] at hf; simp at hf
        | some nd =>
          rw [hS] at h
          dsimp only at h
          have hgood := good_of_findNode hwS hS
          obtain ⟨-, -, hvar, htlt, helt, hti, hei, -, -⟩ := hgood
          rcases hT : cuddBddTransferRecur ddS fuel ddD tbl nd.t with ⟨d1, t1, r1⟩
          rw [hT] at h
          obtain ⟨fx1, fx2, fx3, fx4⟩ := transferRecur_frame ddS fuel ddD tbl nd.t d1 t1 r1 hT
          obtain ⟨hw1, ts1, keys1, succ1⟩ :=
            ih ddD tbl nd.t d1 t1 r1 hT hwD hsz hti (by omega) hts
          cases r1 with
          | none =>
            simp only [Prod.mk.injEq] at h
            obtain ⟨rfl, rfl, rfl⟩ := h
            refine ⟨hw1, ts1, ?_, by intro e he; cases he⟩
            intro p hp
            rcases keys1 p hp with hh | hh
            · exact Or.inl hh
            · right; omega
          | some tEd =>
            dsimp only at h
            obtain ⟨hin1, hev1, hent1⟩ := succ1 tEd rfl
            have hsbr1 : sameButRef d1 (cuddRef d1 tEd) := sameButRef_cuddRef d1 tEd
            rcases hE : cuddBddTransferRecur ddS fuel (cuddRef d1 tEd) t1 nd.e
              with ⟨d2, t2, r2⟩
            rw [hE] at h
            obtain ⟨fy1, fy2, fy3, fy4⟩ :=
              transferRecur_frame ddS fuel (cuddRef d1 tEd) t1 nd.e d2 t2 r2 hE
            obtain ⟨hw2, ts2, keys2, succ2⟩ :=
              ih (cuddRef d1 tEd) t1 nd.e d2 t2 r2 hE
                ((wfM_sbr hsbr1).mpr hw1)
                (by have := fx1.sz; show ddS.size ≤ d1.size; omega)
                hei (by omega)
                ((TSound_sbr hsbr1 t1).mpr ts1)
            have keyslt : ∀ p ∈ t2.entries, p ∈ tbl.entries ∨ p.1 < f.id := by
              intro p hp
              rcases keys2 p hp with hh | hh
              · rcases keys1 p hh with hh' | hh'
                · exact Or.inl hh'
                · right; omega
              · right; omega
            cases r2 with
            | none =>
              simp only [Prod.mk.injEq] at h
              obtain ⟨rfl, rfl, rfl⟩ := h
              have hsbr2 : sameButRef d2 (cuddDeref d2 tEd) :=
                sameButRef_cuddDeref d2 tEd
              refine ⟨(wfM_sbr hsbr2).mpr hw2,
                      (TSound_sbr hsbr2 t2).mpr ts2, ?_,
                      by intro e he; cases he⟩
              intro p hp
              rcases keyslt p hp with hh | hh
              · exact Or.inl hh
              · right; omega
            | some eEd =>
              dsimp only at h
              obtain ⟨hin2, hev2, hent2⟩ := succ2 eEd rfl
              have hsbr2 : sameButRef d2 (cuddRef d2 eEd) := sameButRef_cuddRef d2 eEd
              have hw2' : wfM (cuddRef d2 eEd) := (wfM_sbr hsbr2).mpr hw2
              have hb1 : (cuddRef d1 tEd).size = d1.size := rfl
              have hb2 : (cuddRef d2 eEd).size = d2.size := rfl
              have hsz2 : nd.var < (cuddRef d2 eEd).size := by
                have h1 := fx1.sz
                have h2 := fy1.sz
                rw [hb2]
                omega
              rcases hU : cuddUniqueInter (cuddRef d2 eEd) nd.var oneE zeroE
                with ⟨d3, r3⟩
              obtain ⟨hw3, succ3⟩ := uniq_sound hw2' hsz2
              obtain ⟨u1, u2, u3, u4⟩ :=
                uniq_frame (cuddRef d2 eEd) nd.var oneE zeroE
              rw [hU] at h hw3 succ3 u1 u2 u3 u4
              dsimp only at h hw3 succ3 u1 u2 u3 u4
              cases r3 with
              | none =>
                simp only [Prod.mk.injEq] at h
                obtain ⟨rfl, rfl, rfl⟩ := h
                have hsbr3 : sameButRef d3 (cuddDeref (cuddDeref d3 tEd) eEd) :=
                  sbrTrans (sameButRef_cuddDeref d3 tEd)
                    (sameButRef_cuddDeref (cuddDeref d3 tEd) eEd)
                have ts3 : TSound ddS d3 t2 :=
                  TSound_mext u1 hw2' ((TSound_sbr hsbr2 t2).mpr ts2)
                refine ⟨(wfM_sbr hsbr3).mpr hw3,
                        (TSound_sbr hsbr3 t2).mpr ts3, ?_,
                        by intro e he; cases he⟩
                intro p hp
                rcases keyslt p hp with hh | hh
                · exact Or.inl hh
                · right; omega
              | some var =>
                dsimp only at h
                obtain ⟨hv3, hv0, hvfind⟩ := succ3 var rfl
                have htin3 : inMgr d3 tEd :=
                  inMgr_mext u1 ((inMgr_sbr hsbr2 tEd).mpr
                    (inMgr_mext fy1 ((inMgr_sbr hsbr1 tEd).mpr hin1)))
                have hein3 : inMgr d3 eEd :=
                  inMgr_mext u1 ((inMgr_sbr hsbr2 eEd).mpr hin2)
                rcases hI : cuddBddIteRecur d3 var tEd eEd with ⟨d4, r4⟩
                obtain ⟨hw4, succ4⟩ := ite_sound hw3 hvfind
                  (by have h1 := fy1.sz
                      have h2 := fx1.sz
                      have h3 := u1.sz
                      rw [hb1] at h1
                      rw [hb2] at h3
                      show nd.var < d3.size
                      omega)
                  htin3 hein3
                obtain ⟨i1, i2⟩ := ite_frame d3 var tEd eEd
                rw [hI] at h hw4 succ4 i1 i2
                dsimp only at h hw4 succ4 i1 i2
                cases r4 with
                | none =>
                  simp only [Prod.mk.injEq] at h
                  obtain ⟨rfl, rfl, rfl⟩ := h
                  have hsbr4 : sameButRef d4 (cuddDeref (cuddDeref d4 tEd) eEd) :=
                    sbrTrans (sameButRef_cuddDeref d4 tEd)
                      (sameButRef_cuddDeref (cuddDeref d4 tEd) eEd)
                  have ts4 : TSound ddS d4 t2 :=
                    TSound_mext i1 hw3
                      (TSound_mext u1 hw2' ((TSound_sbr hsbr2 t2).mpr ts2))
                  refine ⟨(wfM_sbr hsbr4).mpr hw4,
                          (TSound_sbr hsbr4 t2).mpr ts4, ?_,
                          by intro e he; cases he⟩
                  intro p hp
                  rcases keyslt p hp with hh | hh
                  · exact Or.inl hh
                  · right; omega
                | some res =>
                  dsimp only at h
                  obtain ⟨hinres, hevres⟩ := succ4 res rfl
                  -- evaluation of the fresh node against the source
                  have hvproj : ∀ a, eEval d3 a var = a nd.var := by
                    intro a
                    rw [eEval_projection hw3 hvfind a, hv3]
                    simp
                  have hevt3 : ∀ a, eEval d3 a tEd = eEval ddS a nd.t := by
                    intro a
                    rw [eEval_mext u1 hw2'
                        ((inMgr_sbr hsbr2 tEd).mpr
                          (inMgr_mext fy1 ((inMgr_sbr hsbr1 tEd).mpr hin1))),
                        eEval_sbr hsbr2,
                        eEval_mext fy1 ((wfM_sbr hsbr1).mpr hw1)
                          ((inMgr_sbr hsbr1 tEd).mpr hin1),
                        eEval_sbr hsbr1]
                    exact hev1 a
                  have heve3 : ∀ a, eEval d3 a eEd = eEval ddS a nd.e := by
                    intro a
                    rw [eEval_mext u1 hw2' ((inMgr_sbr hsbr2 eEd).mpr hin2),
                        eEval_sbr hsbr2]
                    exact hev2 a
                  have hres4 : ∀ a, eEval d4 a res =
                      (if a nd.var then eEval ddS a nd.t else eEval ddS a nd.e) := by
                    intro a
                    rw [hevres a, hvproj a, hevt3 a, heve3 a]
                  have ht2none : st_lookup t2 f.id = none := by
                    unfold st_lookup
                    rw [List.find?_eq_none.mpr ?_]
                    · rfl
                    · intro p hp
                      rcases keyslt p hp with hh | hh
                      · simpa using stLookup_none_keys hL p hh
                      · simp
                        omega
                  cases hA : st_add_direct t2 f.id res with
                  | none =>
                    rw [hA] at h
                    simp only [Prod.mk.injEq] at h
                    obtain ⟨rfl, rfl, rfl⟩ := h
                    have hsbr4 : sameButRef d4
                        (cuddDeref (cuddDeref (cuddDeref (cuddRef d4 res) tEd) eEd) res) :=
                      sbrTrans (sameButRef_cuddRef d4 res)
                        (sbrTrans (sameButRef_cuddDeref _ tEd)
                          (sbrTrans (sameButRef_cuddDeref _ eEd)
                            (sameButRef_cuddDeref _ res)))
                    have ts4 : TSound ddS d4 t2 :=
                      TSound_mext i1 hw3
                        (TSound_mext u1 hw2' ((TSound_sbr hsbr2 t2).mpr ts2))
                    refine ⟨(wfM_sbr hsbr4).mpr hw4,
                            (TSound_sbr hsbr4 t2).mpr ts4, ?_,
                            by intro e he; cases he⟩
                    intro p hp
                    rcases keyslt p hp with hh | hh
                    · exact Or.inl hh
                    · right; omega
                  | some t3 =>
                    rw [hA] at h
                    simp only [Prod.mk.injEq] at h
                    obtain ⟨rfl, rfl, rfl⟩ := h
                    have hent := st_add_some hA
                    have hsbr4 : sameButRef d4
                        (cuddDeref (cuddDeref (cuddRef d4 res) tEd) eEd) :=
                      sbrTrans (sameButRef_cuddRef d4 res)
                        (sbrTrans (sameButRef_cuddDeref _ tEd)
                          (sameButRef_cuddDeref _ eEd))
                    have ts4 : TSound ddS d4 t2 :=
                      TSound_mext i1 hw3
                        (TSound_mext u1 hw2' ((TSound_sbr hsbr2 t2).mpr ts2))
                    have hsf : ∀ a, eEval ddS a ⟨f.id, false⟩ =
                        (if a nd.var then eEval ddS a nd.t else eEval ddS a nd.e) := by
                      intro a
                      rw [eEval_node hwS hS a false]
                      simp
                    have ts3' : TSound ddS d4 t3 := by
                      intro p hp
                      rw [hent] at hp
                      rcases List.mem_append.mp hp with hp | hp
                      · exact ts4 p hp
                      · have hp' : p = (f.id, res) := by simpa using hp
                        subst hp'
                        refine ⟨hinres, ?_⟩
                        intro a
                        rw [hres4 a, hsf a]
                    refine ⟨(wfM_sbr hsbr4).mpr hw4,
                            (TSound_sbr hsbr4 t3).mpr ts3', ?_, ?_⟩
                    · intro p hp
                      rw [hent] at hp
                      rcases List.mem_append.mp hp with hp | hp
                      · rcases keyslt p hp with hh | hh
                        · exact Or.inl hh
                        · right; omega
                      · have hp' : p = (f.id, res) := by simpa using hp
                        subst hp'
                        right; omega
                    · intro e he
                      cases he
                      refine ⟨?_, ?_, ?_⟩
                      · rw [inMgr_notCond]
                        exact (inMgr_sbr hsbr4 res).mpr hinres
                      · intro a
                        rw [eEval_notCond, eEval_sbr hsbr4]
                        conv_rhs => rw [← notCond_regular f]
                        rw [eEval_notCond, hsf a, hres4 a]
                      · exact fun _ => ⟨res, stLookup_append_right ht2none hent, rfl⟩

/-! ### The permutation recursion: frame invariant. -/

/-- Frame invariant of the fallthrough `permuteKids`: the manager only
grows, the ghost events respect the guard discipline, the `reordered`
flag is raised only together with a null result, and — whenever the
cache's held references are covered by the counters — the counters
change by exactly the references the cache entries gained or lost. -/
theorem permuteKids_frame (permut : Nat → Nat)
    (recur : Mgr → DdHT → Edge → Mgr × DdHT × Option Edge × List CacheEv)
    (hrec : ∀ (m : Mgr) (tbl : DdHT) (x : Edge) (m' : Mgr) (t' : DdHT)
      (r : Option Edge) (evs : List CacheEv),
      recur m tbl x = (m', t', r, evs) →
      MExt m m' ∧
      (∀ ev ∈ evs, evGuardOk ev) ∧
      (m'.reordered = true → m.reordered = true ∨ r = none) ∧
      ((∀ i, tblRefsH tbl i ≤ m.ref i) →
        (∀ i, m'.ref i + tblRefsH tbl i = m.ref i + tblRefsH t' i) ∧
        (∀ i, tblRefsH t' i ≤ m'.ref i)))
    (nd : NodeData) (node : Edge) (m : Mgr) (tbl : DdHT)
    (evs0 : List CacheEv) (hevs0 : ∀ ev ∈ evs0, evGuardOk ev)
    (m' : Mgr) (t' : DdHT) (r : Option Edge) (evs : List CacheEv)
    (h : permuteKids permut recur nd node m tbl evs0 = (m', t', r, evs)) :
    MExt m m' ∧
    (∀ ev ∈ evs, evGuardOk ev) ∧
    (m'.reordered = true → m.reordered = true ∨ r = none) ∧
    ((∀ i, tblRefsH tbl i ≤ m.ref i) →
      (∀ i, m'.ref i + tblRefsH tbl i = m.ref i + tblRefsH t' i) ∧
      (∀ i, tblRefsH t' i ≤ m'.ref i)) := by
  unfold permuteKids at h
  rcases hT : recur m tbl nd.t with ⟨m1, t1, r1, evsT⟩
  rw [hT] at h
  obtain ⟨x1, x2, x3, x4⟩ := hrec m tbl nd.t m1 t1 r1 evsT hT
  cases r1 with
  | none =>
    dsimp only at h
    simp only [Prod.mk.injEq] at h
    obtain ⟨rfl, rfl, rfl, rfl⟩ := h
    refine ⟨x1, ?_, fun _ => Or.inr rfl, x4⟩
    intro ev hev
    rcases List.mem_append.mp hev with hh | hh
    · exact hevs0 ev hh
    · exact x2 ev hh
  | some T =>
    dsimp only at h
    rcases hE : recur (cuddRef m1 T) t1 nd.e with ⟨m2, t2, r2, evsE⟩
    rw [hE] at h
    obtain ⟨y1, y2, y3, y4⟩ := hrec _ t1 nd.e m2 t2 r2 evsE hE
    have x1' : MExt m (cuddRef m1 T) :=
      mextTrans x1 (MExt_of_sameButRef (sameButRef_cuddRef m1 T))
    have hadq1 : (∀ i, tblRefsH tbl i ≤ m.ref i) →
        (∀ i, tblRefsH t1 i ≤ (cuddRef m1 T).ref i) := by
      intro hadq i
      have := (x4 hadq).2 i
      rw [cuddRef_ref]
      split_ifs <;> omega
    cases r2 with
    | none =>
      dsimp only at h
      simp only [Prod.mk.injEq] at h
      obtain ⟨rfl, rfl, rfl, rfl⟩ := h
      refine ⟨mextTrans (mextTrans x1' y1)
                (MExt_of_sameButRef (sameButRef_cuddDeref m2 T)),
              ?_, fun _ => Or.inr rfl, ?_⟩
      · intro ev hev
        rcases List.mem_append.mp hev with hev | hh
        · rcases List.mem_append.mp hev with hh | hh
          · exact hevs0 ev hh
          · exact x2 ev hh
        · exact y2 ev hh
      · intro hadq
        obtain ⟨xb, xa⟩ := x4 hadq
        obtain ⟨yb, ya⟩ := y4 (hadq1 hadq)
        constructor
        · intro i
          have e1 := xb i
          have e2 := yb i
          have a1 := xa i
          have a2 := ya i
          rw [cuddRef_ref] at e2
          rw [cuddDeref_ref]
          split_ifs at * <;> omega
        · intro i
          have e2 := yb i
          have a1 := xa i
          have a2 := ya i
          rw [cuddRef_ref] at e2
          rw [cuddDeref_ref]
          split_ifs at * <;> omega
    | some E =>
      dsimp only at h
      rcases hI : cuddBddIteRecur (cuddRef m2 E)
          ⟨(cuddRef m2 E).vars (permut nd.var), false⟩ T E with ⟨m4, r4⟩
      rw [hI] at h
      obtain ⟨i1, i2⟩ := ite_frame (cuddRef m2 E)
        ⟨(cuddRef m2 E).vars (permut nd.var), false⟩ T E
      have hir := ite_reord (cuddRef m2 E)
        ⟨(cuddRef m2 E).vars (permut nd.var), false⟩ T E
      rw [hI] at i1 i2 hir
      dsimp only at i1 i2 hir
      have y1' : MExt (cuddRef m1 T) (cuddRef m2 E) :=
        mextTrans y1 (MExt_of_sameButRef (sameButRef_cuddRef m2 E))
      have hevAll : ∀ ev ∈ evs0 ++ evsT ++ evsE, evGuardOk ev := by
        intro ev hev
        rcases List.mem_append.mp hev with hev | hh
        · rcases List.mem_append.mp hev with hh | hh
          · exact hevs0 ev hh
          · exact x2 ev hh
        · exact y2 ev hh
      cases r4 with
      | none =>
        dsimp only at h
        simp only [Prod.mk.injEq] at h
        obtain ⟨rfl, rfl, rfl, rfl⟩ := h
        refine ⟨mextTrans (mextTrans x1' y1') (mextTrans i1
                  (MExt_of_sameButRef (sbrTrans
                    (sameButRef_cuddDeref m4 T)
                    (sameButRef_cuddDeref (cuddDeref m4 T) E)))),
                hevAll, fun _ => Or.inr rfl, ?_⟩
        intro hadq
        obtain ⟨xb, xa⟩ := x4 hadq
        obtain ⟨yb, ya⟩ := y4 (hadq1 hadq)
        constructor
        · intro i
          have e1 := xb i
          have e2 := yb i
          have a1 := xa i
          have a2 := ya i
          rw [cuddRef_ref] at e2
          rw [cuddDeref_ref, cuddDeref_ref, i2, cuddRef_ref]
          split_ifs at * <;> omega
        · intro i
          have e2 := yb i
          have a1 := xa i
          have a2 := ya i
          rw [cuddRef_ref] at e2
          rw [cuddDeref_ref, cuddDeref_ref, i2, cuddRef_ref]
          split_ifs at * <;> omega
      | some res =>
        dsimp only at h
        have hreo : (cuddDeref (cuddDeref (cuddRef m4 res) T) E).reordered = true →
            m.reordered = true := by
          intro hr
          have hr4 : m4.reordered = true := hr
          rcases hir hr4 with hh | hh
          · have h2 : m2.reordered = true := hh
            rcases y3 h2 with hh2 | hh2
            · have h1 : m1.reordered = true := hh2
              rcases x3 h1 with hh3 | hh3
              · exact hh3
              · cases hh3
            · cases hh2
          · cases hh
        by_cases hg2 : (cuddDeref (cuddDeref (cuddRef m4 res) T) E).ref node.id ≠ 1
        · rw [if_pos hg2] at h
          have hevAll2 : ∀ ev ∈ (evs0 ++ evsT ++ evsE) ++
              [CacheEv.insert node.id
                ((cuddDeref (cuddDeref (cuddRef m4 res) T) E).ref node.id)
                ((cuddDeref (cuddDeref (cuddRef m4 res) T) E).ref node.id - 1)],
              evGuardOk ev := by
            intro ev hev
            rcases List.mem_append.mp hev with hh | hh
            · exact hevAll ev hh
            · have : ev = CacheEv.insert node.id
                  ((cuddDeref (cuddDeref (cuddRef m4 res) T) E).ref node.id)
                  ((cuddDeref (cuddDeref (cuddRef m4 res) T) E).ref node.id - 1) := by
                simpa using hh
              rw [this]
              exact ⟨hg2, rfl⟩
          cases hA : cuddHashTableInsert1
              (cuddDeref (cuddDeref (cuddRef m4 res) T) E) t2 node.id res
              ((cuddDeref (cuddDeref (cuddRef m4 res) T) E).ref node.id - 1)
            with
          | mk mi oti =>
            rw [hA] at h
            cases oti with
            | none =>
              dsimp only at h
              simp only [Prod.mk.injEq] at h
              obtain ⟨rfl, rfl, rfl, rfl⟩ := h
              have hmi : mi = cuddDeref (cuddDeref (cuddRef m4 res) T) E := by
                unfold cuddHashTableInsert1 at hA
                by_cases hb : t2.budget = 0
                · rw [if_pos hb] at hA
                  simp only [Prod.mk.injEq] at hA
                  exact hA.1.symm
                · rw [if_neg hb] at hA
                  simp only [Prod.mk.injEq] at hA
                  cases hA.2
              subst hmi
              refine ⟨mextTrans (mextTrans x1' y1') (mextTrans i1
                        (MExt_of_sameButRef (sbrTrans
                          (sameButRef_cuddRef m4 res)
                          (sbrTrans (sameButRef_cuddDeref _ T)
                            (sbrTrans (sameButRef_cuddDeref _ E)
                              (sameButRef_cuddDeref _ res)))))),
                      hevAll2, fun _ => Or.inr rfl, ?_⟩
              intro hadq
              obtain ⟨xb, xa⟩ := x4 hadq
              obtain ⟨yb, ya⟩ := y4 (hadq1 hadq)
              constructor
              · intro i
                have e1 := xb i
                have e2 := yb i
                have a1 := xa i
                have a2 := ya i
                rw [cuddRef_ref] at e2
                rw [cuddDeref_ref, cuddDeref_ref, cuddDeref_ref, cuddRef_ref,
                    i2, cuddRef_ref]
                split_ifs at * <;> omega
              · intro i
                have e2 := yb i
                have a1 := xa i
                have a2 := ya i
                rw [cuddRef_ref] at e2
                rw [cuddDeref_ref, cuddDeref_ref, cuddDeref_ref, cuddRef_ref,
                    i2, cuddRef_ref]
                split_ifs at * <;> omega
            | some t3 =>
              dsimp only at h
              simp only [Prod.mk.injEq] at h
              obtain ⟨rfl, rfl, rfl, rfl⟩ := h
              obtain ⟨hmi, hent⟩ := htInsert_props hA
              subst hmi
              refine ⟨mextTrans (mextTrans x1' y1') (mextTrans i1
                        (MExt_of_sameButRef (sbrTrans
                          (sameButRef_cuddRef m4 res)
                          (sbrTrans (sameButRef_cuddDeref _ T)
                            (sbrTrans (sameButRef_cuddDeref _ E)
                              (sbrTrans (sameButRef_cuddRef _ res)
                                (sameButRef_cuddDeref _ res))))))),
                      hevAll2, fun hr => Or.inl (hreo hr), ?_⟩
              intro hadq
              obtain ⟨xb, xa⟩ := x4 hadq
              obtain ⟨yb, ya⟩ := y4 (hadq1 hadq)
              have h3 : ∀ i, tblRefsH t3 i
                  = tblRefsH t2 i + (if res.id = i then 1 else 0) := by
                intro i
                show refsOfH t3.entries i = _
                rw [hent, refsOfH_app, refsOfH_single]
                rfl
              constructor
              · intro i
                have e1 := xb i
                have e2 := yb i
                have a1 := xa i
                have a2 := ya i
                rw [cuddRef_ref] at e2
                rw [cuddDeref_ref, cuddRef_ref, cuddDeref_ref, cuddDeref_ref,
                    cuddRef_ref, i2, cuddRef_ref, h3]
                split_ifs at * <;> omega
              · intro i
                have e2 := yb i
                have a1 := xa i
                have a2 := ya i
                rw [cuddRef_ref] at e2
                rw [cuddDeref_ref, cuddRef_ref, cuddDeref_ref, cuddDeref_ref,
                    cuddRef_ref, i2, cuddRef_ref, h3]
                split_ifs at * <;> omega
        · rw [if_neg hg2] at h
          simp only [Prod.mk.injEq] at h
          obtain ⟨rfl, rfl, rfl, rfl⟩ := h
          refine ⟨mextTrans (mextTrans x1' y1') (mextTrans i1
                    (MExt_of_sameButRef (sbrTrans
                      (sameButRef_cuddRef m4 res)
                      (sbrTrans (sameButRef_cuddDeref _ T)
                        (sbrTrans (sameButRef_cuddDeref _ E)
                          (sameButRef_cuddDeref _ res)))))),
                  hevAll, fun hr => Or.inl (hreo hr), ?_⟩
          intro hadq
          obtain ⟨xb, xa⟩ := x4 hadq
          obtain ⟨yb, ya⟩ := y4 (hadq1 hadq)
          constructor
          · intro i
            have e1 := xb i
            have e2 := yb i
            have a1 := xa i
            have a2 := ya i
            rw [cuddRef_ref] at e2
            rw [cuddDeref_ref, cuddDeref_ref, cuddDeref_ref, cuddRef_ref,
                i2, cuddRef_ref]
            split_ifs at * <;> omega
          · intro i
            have e2 := yb i
            have a1 := xa i
            have a2 := ya i
            rw [cuddRef_ref] at e2
            rw [cuddDeref_ref, cuddDeref_ref, cuddDeref_ref, cuddRef_ref,
                i2, cuddRef_ref]
            split_ifs at * <;> omega

/-- A missing lookup leaves the manager and table untouched. -/
theorem lookup1_none {m : Mgr} {tbl : DdHT} {k : Nat} {m1 : Mgr} {tb1 : DdHT}
    (h : cuddHashTableLookup1 m tbl k = (m1, tb1, none)) :
    m1 = m ∧ tb1 = tbl := by
  unfold cuddHashTableLookup1 at h
  cases hl : htLook tbl.entries k with
  | none =>
    rw [hl] at h
    simp only [Prod.mk.injEq] at h
    exact ⟨h.1.symm, h.2.1.symm⟩
  | some w =>
    obtain ⟨a, b, c⟩ := w
    rw [hl] at h
    simp only [Prod.mk.injEq] at h
    cases h.2.2

/-- There is at least one held reference per member entry. -/
theorem refsOfH_pos_of_mem {l : List (Nat × Edge × Nat)} {k : Nat} {v : Edge}
    {c : Nat} (h : (k, v, c) ∈ l) : 1 ≤ refsOfH l v.id := by
  have : (k, v, c) ∈ l.filter (fun p => p.2.1.id = v.id) :=
    List.mem_filter.mpr ⟨h, by simp⟩
  have := List.length_pos_of_mem this
  unfold refsOfH
  omega

/-- What a lookup hit does: the value comes from a member entry, the
manager changes only in its counters, the surviving entries are old
entries or the one updated entry, and — under adequacy — the counters
balance the possible eviction. -/
theorem lookup1_some {m : Mgr} {tbl : DdHT} {k : Nat} {m1 : Mgr} {tb1 : DdHT}
    {v : Edge} (h : cuddHashTableLookup1 m tbl k = (m1, tb1, some v)) :
    sameButRef m m1 ∧
    (∃ c, (k, v, c) ∈ tbl.entries) ∧
    (∀ q ∈ tb1.entries, q ∈ tbl.entries ∨ (q.1 = k ∧ q.2.1 = v)) ∧
    ((∀ i, tblRefsH tbl i ≤ m.ref i) →
      (∀ i, m1.ref i + tblRefsH tbl i = m.ref i + tblRefsH tb1 i) ∧
      (∀ i, tblRefsH tb1 i ≤ m1.ref i)) := by
  unfold cuddHashTableLookup1 at h
  cases hl : htLook tbl.entries k with
  | none => rw [hl] at h; simp at h
  | some w =>
    obtain ⟨w1, w2, w3⟩ := w
    rw [hl] at h
    simp only [Prod.mk.injEq] at h
    obtain ⟨h1, h2, h3⟩ := h
    have hv : w1 = v := Option.some.inj h3
    obtain ⟨⟨c, hcm, hcd⟩, hsub, hrefs⟩ := htLook_some hl
    rw [hv] at hcm hsub hrefs h1
    have hmem1 : 1 ≤ tblRefsH tbl v.id := refsOfH_pos_of_mem hcm
    constructor
    · rw [← h1]
      by_cases hc0 : w2 = 0
      · rw [if_pos hc0]; exact sameButRef_cuddDeref m v
      · rw [if_neg hc0]; exact sbrRefl m
    refine ⟨⟨c, hcm⟩, ?_, ?_⟩
    · intro q hq
      rw [← h2] at hq
      rcases hsub q hq with hh | hh
      · exact Or.inl hh
      · right; rw [hh]; exact ⟨rfl, rfl⟩
    · intro hadq
      have hrefs' : ∀ i, tblRefsH tb1 i
          + (if w2 = 0 then (if v.id = i then 1 else 0) else 0)
          = tblRefsH tbl i := by
        intro i
        have := hrefs i
        rw [← h2]
        exact this
      constructor
      · intro i
        have ha := hadq i
        rw [← h1]
        by_cases hc0 : w2 = 0
        · rw [if_pos hc0]
          have hr := hrefs' i
          rw [if_pos hc0] at hr
          rw [cuddDeref_ref]
          by_cases hi : i = v.id
          · subst hi
            rw [if_pos rfl] at hr ⊢
            omega
          · rw [if_neg (fun hh => hi hh.symm)] at hr
            rw [if_neg hi]
            omega
        · rw [if_neg hc0]
          have hr := hrefs' i
          rw [if_neg hc0] at hr
          omega
      · intro i
        have ha := hadq i
        rw [← h1]
        by_cases hc0 : w2 = 0
        · rw [if_pos hc0]
          have hr := hrefs' i
          rw [if_pos hc0] at hr
          rw [cuddDeref_ref]
          by_cases hi : i = v.id
          · subst hi
            rw [if_pos rfl] at hr ⊢
            omega
          · rw [if_neg (fun hh => hi hh.symm)] at hr
            rw [if_neg hi]
            omega
        · rw [if_neg hc0]
          have hr := hrefs' i
          rw [if_neg hc0] at hr
          omega

/-- Frame invariant of `cuddBddPermuteRecur` (see `permuteKids_frame`). -/
theorem permuteRecur_frame (permut : Nat → Nat) :
    ∀ (fuel : Nat) (m : Mgr) (tbl : DdHT) (node : Edge) (m' : Mgr)
      (t' : DdHT) (r : Option Edge) (evs : List CacheEv),
      cuddBddPermuteRecur permut fuel m tbl node = (m', t', r, evs) →
      MExt m m' ∧
      (∀ ev ∈ evs, evGuardOk ev) ∧
      (m'.reordered = true → m.reordered = true ∨ r = none) ∧
      ((∀ i, tblRefsH tbl i ≤ m.ref i) →
        (∀ i, m'.ref i + tblRefsH tbl i = m.ref i + tblRefsH t' i) ∧
        (∀ i, tblRefsH t' i ≤ m'.ref i)) := by
  intro fuel
  induction fuel with
  | zero =>
    intro m tbl node m' t' r evs h
    rw [cuddBddPermuteRecur] at h
    simp only [Prod.mk.injEq] at h
    obtain ⟨rfl, rfl, rfl, rfl⟩ := h
    exact ⟨mextRefl _, by simp, fun hr => Or.inl hr,
           fun hadq => ⟨fun i => rfl, hadq⟩⟩
  | succ fuel ih =>
    intro m tbl node m' t' r evs h
    rw [cuddBddPermuteRecur] at h
    by_cases h0 : node.id = 0
    · rw [if_pos h0] at h
      simp only [Prod.mk.injEq] at h
      obtain ⟨rfl, rfl, rfl, rfl⟩ := h
      exact ⟨mextRefl _, by simp, fun hr => Or.inl hr,
             fun hadq => ⟨fun i => rfl, hadq⟩⟩
    · rw [if_neg h0] at h
      cases hS : findNode m node.id with
      | none =>
        rw [hS] at h
        dsimp only at h
        simp only [Prod.mk.injEq] at h
        obtain ⟨rfl, rfl, rfl, rfl⟩ := h
        exact ⟨mextRefl _, by simp, fun hr => Or.inl hr,
               fun hadq => ⟨fun i => rfl, hadq⟩⟩
      | some nd =>
        rw [hS] at h
        dsimp only at h
        by_cases hg : m.ref node.id ≠ 1
        · rw [if_pos hg] at h
          rcases hlk : cuddHashTableLookup1 m tbl node.id with ⟨m1, tb1, or1⟩
          rw [hlk] at h
          cases or1 with
          | some v =>
            dsimp only at h
            simp only [Prod.mk.injEq] at h
            obtain ⟨rfl, rfl, rfl, rfl⟩ := h
            obtain ⟨hsbr, -, -, hbal⟩ := lookup1_some hlk
            refine ⟨MExt_of_sameButRef hsbr, ?_, ?_, hbal⟩
            · intro ev hev
              have : ev = CacheEv.lookup node.id (m.ref node.id) := by
                simpa using hev
              rw [this]
              exact hg
            · intro hr
              left
              obtain ⟨f, rfl⟩ := hsbr
              exact hr
          | none =>
            dsimp only at h
            rw [(lookup1_none hlk).1, (lookup1_none hlk).2] at h
            exact permuteKids_frame permut (cuddBddPermuteRecur permut fuel)
              (fun a b c d e f g hh => ih a b c d e f g hh) nd node m tbl
              [CacheEv.lookup node.id (m.ref node.id)]
              (by intro ev hev
                  have : ev = CacheEv.lookup node.id (m.ref node.id) := by
                    simpa using hev
                  rw [this]
                  exact hg)
              m' t' r evs h
        · rw [if_neg hg] at h
          exact permuteKids_frame permut (cuddBddPermuteRecur permut fuel)
            (fun a b c d e f g hh => ih a b c d e f g hh) nd node m tbl
            [] (by simp) m' t' r evs h

/-- Soundness of the fallthrough `permuteKids`: starting from a
well-formed manager with sound projection nodes, a total permutation and
a sound cache, the manager stays well formed and only grows, the cache
stays sound and only gains keys bounded by the operand, and a non-null
result is alive, denotes the operand's function with the variables
composed through the permutation, and any cache entry keyed by the
operand that is not explained by a pre-existing entry stores exactly the
(regular) result. -/
theorem permuteKids_sound (permut : Nat → Nat)
    (recur : Mgr → DdHT → Edge → Mgr × DdHT × Option Edge × List CacheEv)
    (nd : NodeData) (node : Edge)
    (hrec : ∀ (ma : Mgr) (tba : DdHT) (x : Edge) (ma' : Mgr) (ta' : DdHT)
      (ra : Option Edge) (evsa : List CacheEv),
      (x = nd.t ∨ x = nd.e) →
      recur ma tba x = (ma', ta', ra, evsa) →
      wfM ma → varsOk ma → permutOk ma permut → inMgr ma x →
      PSound ma permut tba →
      wfM ma' ∧ MExt ma ma' ∧ PSound ma' permut ta' ∧
      (∀ p ∈ ta'.entries, p ∈ tba.entries ∨ p.1 < node.id) ∧
      (∀ e, ra = some e →
        inMgr ma' e ∧
        ∀ a, eEval ma' a e = eEval ma (fun i => a (permut i)) x))
    (m : Mgr) (tbl : DdHT) (evs0 : List CacheEv)
    (hw : wfM m) (hva : varsOk m) (hpo : permutOk m permut)
    (hnd : findNode m node.id = some nd) (hps : PSound m permut tbl)
    (m' : Mgr) (t' : DdHT) (r : Option Edge) (evs : List CacheEv)
    (h : permuteKids permut recur nd node m tbl evs0 = (m', t', r, evs)) :
    wfM m' ∧ MExt m m' ∧ PSound m' permut t' ∧
    (∀ p ∈ t'.entries, p ∈ tbl.entries ∨ p.1 ≤ node.id) ∧
    (∀ e, r = some e →
      inMgr m' e ∧
      (∀ a, eEval m' a e = eEval m (fun i => a (permut i)) node) ∧
      (∀ p ∈ t'.entries, p.1 = node.id →
        (∃ q ∈ tbl.entries, q.1 = node.id) ∨
        e = Cudd_NotCond p.2.1 node.neg)) := by
  obtain ⟨-, -, hvar, -, -, hit, hie, -, -⟩ := good_of_findNode hw hnd
  unfold permuteKids at h
  rcases hT : recur m tbl nd.t with ⟨m1, t1, r1, evsT⟩
  rw [hT] at h
  obtain ⟨w1, x1, p1, k1, s1⟩ :=
    hrec m tbl nd.t m1 t1 r1 evsT (Or.inl rfl) hT hw hva hpo hit hps
  cases r1 with
  | none =>
    dsimp only at h
    simp only [Prod.mk.injEq] at h
    obtain ⟨rfl, rfl, rfl, rfl⟩ := h
    exact ⟨w1, x1, p1,
           fun p hp => (k1 p hp).imp id Nat.le_of_lt,
           fun e he => by cases he⟩
  | some T =>
    dsimp only at h
    obtain ⟨hinT, hevT⟩ := s1 T rfl
    have hsb1 : sameButRef m1 (cuddRef m1 T) := sameButRef_cuddRef m1 T
    have x1' : MExt m (cuddRef m1 T) := mextTrans x1 (MExt_of_sameButRef hsb1)
    have hw1' : wfM (cuddRef m1 T) := (wfM_sbr hsb1).mpr w1
    have hinT1 : inMgr (cuddRef m1 T) T := (inMgr_sbr hsb1 T).mpr hinT
    rcases hE : recur (cuddRef m1 T) t1 nd.e with ⟨m2, t2, r2, evsE⟩
    rw [hE] at h
    obtain ⟨w2, y1, p2, k2, s2⟩ :=
      hrec (cuddRef m1 T) t1 nd.e m2 t2 r2 evsE (Or.inr rfl) hE hw1'
        (varsOk_mext x1' hva) (permutOk_mext x1' hpo) (inMgr_mext x1' hie)
        ((PSound_sbr hsb1 permut t1).mpr p1)
    have kcomp : ∀ p ∈ t2.entries, p ∈ tbl.entries ∨ p.1 < node.id := by
      intro p hp
      rcases k2 p hp with hh | hh
      · exact k1 p hh
      · exact Or.inr hh
    cases r2 with
    | none =>
      dsimp only at h
      simp only [Prod.mk.injEq] at h
      obtain ⟨rfl, rfl, rfl, rfl⟩ := h
      have hsbD : sameButRef m2 (cuddDeref m2 T) := sameButRef_cuddDeref m2 T
      exact ⟨(wfM_sbr hsbD).mpr w2,
             mextTrans x1' (mextTrans y1 (MExt_of_sameButRef hsbD)),
             (PSound_sbr hsbD permut t2).mpr p2,
             fun p hp => (kcomp p hp).imp id Nat.le_of_lt,
             fun e he => by cases he⟩
    | some E =>
      dsimp only at h
      obtain ⟨hinE, hevE⟩ := s2 E rfl
      have hsb2 : sameButRef m2 (cuddRef m2 E) := sameButRef_cuddRef m2 E
      have y1' : MExt (cuddRef m1 T) (cuddRef m2 E) :=
        mextTrans y1 (MExt_of_sameButRef hsb2)
      have xall : MExt m (cuddRef m2 E) := mextTrans x1' y1'
      have hw2' : wfM (cuddRef m2 E) := (wfM_sbr hsb2).mpr w2
      have p2' : PSound (cuddRef m2 E) permut t2 :=
        (PSound_sbr hsb2 permut t2).mpr p2
      have hpi : permut nd.var < (cuddRef m2 E).size := by
        rw [xall.sz]
        exact hpo nd.var hvar
      obtain ⟨hproj, -⟩ := varsOk_mext xall hva (permut nd.var) hpi
      have hinT2 : inMgr (cuddRef m2 E) T := inMgr_mext y1' hinT1
      have hinE2 : inMgr (cuddRef m2 E) E := (inMgr_sbr hsb2 E).mpr hinE
      have hite := @ite_sound (cuddRef m2 E) hw2'
        ⟨(cuddRef m2 E).vars (permut nd.var), false⟩ T E (permut nd.var)
        hproj hpi hinT2 hinE2
      obtain ⟨i1, -⟩ := ite_frame (cuddRef m2 E)
        ⟨(cuddRef m2 E).vars (permut nd.var), false⟩ T E
      rcases hI : cuddBddIteRecur (cuddRef m2 E)
          ⟨(cuddRef m2 E).vars (permut nd.var), false⟩ T E with ⟨m4, r4⟩
      rw [hI] at h hite i1
      dsimp only at hite i1
      obtain ⟨w4, s4⟩ := hite
      have hinNode : inMgr m ⟨node.id, false⟩ := Or.inr (by rw [hnd]; rfl)
      cases r4 with
      | none =>
        dsimp only at h
        simp only [Prod.mk.injEq] at h
        obtain ⟨rfl, rfl, rfl, rfl⟩ := h
        have hsbD : sameButRef m4 (cuddDeref (cuddDeref m4 T) E) :=
          sbrTrans (sameButRef_cuddDeref m4 T)
            (sameButRef_cuddDeref (cuddDeref m4 T) E)
        exact ⟨(wfM_sbr hsbD).mpr w4,
               mextTrans xall (mextTrans i1 (MExt_of_sameButRef hsbD)),
               (PSound_sbr hsbD permut t2).mpr (PSound_mext i1 hw2' p2'),
               fun p hp => (kcomp p hp).imp id Nat.le_of_lt,
               fun e he => by cases he⟩
      | some res =>
        dsimp only at h
        obtain ⟨hinR, hevR⟩ := s4 res rfl
        have hsem : ∀ a, eEval m4 a res
            = eEval m (fun i => a (permut i)) ⟨node.id, false⟩ := by
          intro a
          rw [hevR a]
          have hv : eEval (cuddRef m2 E) a
              ⟨(cuddRef m2 E).vars (permut nd.var), false⟩
              = a (permut nd.var) := by
            have hp := @eEval_projection (cuddRef m2 E) hw2'
              ⟨(cuddRef m2 E).vars (permut nd.var), false⟩ (permut nd.var)
              hproj a
            simpa using hp
          have hTv : eEval (cuddRef m2 E) a T
              = eEval m (fun i => a (permut i)) nd.t := by
            rw [eEval_mext y1' hw1' hinT1, eEval_sbr hsb1, hevT a]
          have hEv : eEval (cuddRef m2 E) a E
              = eEval m (fun i => a (permut i)) nd.e := by
            rw [eEval_sbr hsb2, hevE a, eEval_sbr hsb1]
            exact eEval_mext x1 hw hie (fun i => a (permut i))
          rw [hv, hTv, hEv, eEval_node hw hnd (fun i => a (permut i)) false]
          simp
        by_cases hg2 : (cuddDeref (cuddDeref (cuddRef m4 res) T) E).ref node.id ≠ 1
        · rw [if_pos hg2] at h
          cases hA : cuddHashTableInsert1
              (cuddDeref (cuddDeref (cuddRef m4 res) T) E) t2 node.id res
              ((cuddDeref (cuddDeref (cuddRef m4 res) T) E).ref node.id - 1)
            with
          | mk mi oti =>
            rw [hA] at h
            cases oti with
            | none =>
              dsimp only at h
              simp only [Prod.mk.injEq] at h
              obtain ⟨rfl, rfl, rfl, rfl⟩ := h
              have hmi : mi = cuddDeref (cuddDeref (cuddRef m4 res) T) E := by
                unfold cuddHashTableInsert1 at hA
                by_cases hb : t2.budget = 0
                · rw [if_pos hb] at hA
                  simp only [Prod.mk.injEq] at hA
                  exact hA.1.symm
                · rw [if_neg hb] at hA
                  simp only [Prod.mk.injEq] at hA
                  cases hA.2
              subst hmi
              have hsbF : sameButRef m4
                  (cuddDeref (cuddDeref (cuddDeref (cuddRef m4 res) T) E) res) :=
                sbrTrans (sameButRef_cuddRef m4 res)
                  (sbrTrans (sameButRef_cuddDeref _ T)
                    (sbrTrans (sameButRef_cuddDeref _ E)
                      (sameButRef_cuddDeref _ res)))
              exact ⟨(wfM_sbr hsbF).mpr w4,
                     mextTrans xall (mextTrans i1 (MExt_of_sameButRef hsbF)),
                     (PSound_sbr hsbF permut t2).mpr (PSound_mext i1 hw2' p2'),
                     fun p hp => (kcomp p hp).imp id Nat.le_of_lt,
                     fun e he => by cases he⟩
            | some t3 =>
              dsimp only at h
              simp only [Prod.mk.injEq] at h
              obtain ⟨rfl, rfl, rfl, rfl⟩ := h
              obtain ⟨hmi, hent⟩ := htInsert_props hA
              subst hmi
              have hsbF : sameButRef m4
                  (cuddDeref (cuddRef (cuddDeref (cuddDeref (cuddRef m4 res) T) E) res) res) :=
                sbrTrans (sameButRef_cuddRef m4 res)
                  (sbrTrans (sameButRef_cuddDeref _ T)
                    (sbrTrans (sameButRef_cuddDeref _ E)
                      (sbrTrans (sameButRef_cuddRef _ res)
                        (sameButRef_cuddDeref _ res))))
              have mextfin : MExt m
                  (cuddDeref (cuddRef (cuddDeref (cuddDeref (cuddRef m4 res) T) E) res) res) :=
                mextTrans xall (mextTrans i1 (MExt_of_sameButRef hsbF))
              have pold : PSound
                  (cuddDeref (cuddRef (cuddDeref (cuddDeref (cuddRef m4 res) T) E) res) res)
                  permut t2 :=
                (PSound_sbr hsbF permut t2).mpr (PSound_mext i1 hw2' p2')
              refine ⟨(wfM_sbr hsbF).mpr w4, mextfin, ?_, ?_, ?_⟩
              · intro q hq
                rw [hent] at hq
                rcases List.mem_append.mp hq with hq | hq
                · exact pold q hq
                · obtain rfl := List.mem_singleton.mp hq
                  dsimp only
                  refine ⟨(inMgr_sbr hsbF res).mpr hinR,
                          inMgr_mext mextfin hinNode, fun a => ?_⟩
                  rw [eEval_sbr hsbF, hsem a,
                      eEval_mext mextfin hw hinNode (fun i => a (permut i))]
              · intro p hp
                rw [hent] at hp
                rcases List.mem_append.mp hp with hp | hp
                · exact (kcomp p hp).imp id Nat.le_of_lt
                · obtain rfl := List.mem_singleton.mp hp
                  exact Or.inr (Nat.le_refl _)
              · intro e he
                cases he
                refine ⟨(inMgr_notCond _ res node.neg).mpr
                          ((inMgr_sbr hsbF res).mpr hinR),
                        fun a => ?_, ?_⟩
                · rw [eEval_notCond, eEval_sbr hsbF, hsem a]
                  conv_rhs => rw [← notCond_regular node]
                  rw [eEval_notCond]
                · intro p hp hpk
                  rw [hent] at hp
                  rcases List.mem_append.mp hp with hp | hp
                  · rcases kcomp p hp with hh | hh
                    · exact Or.inl ⟨p, hh, hpk⟩
                    · exact absurd hpk (by omega)
                  · obtain rfl := List.mem_singleton.mp hp
                    right
                    rfl
        · rw [if_neg hg2] at h
          simp only [Prod.mk.injEq] at h
          obtain ⟨rfl, rfl, rfl, rfl⟩ := h
          have hsbF : sameButRef m4
              (cuddDeref (cuddDeref (cuddDeref (cuddRef m4 res) T) E) res) :=
            sbrTrans (sameButRef_cuddRef m4 res)
              (sbrTrans (sameButRef_cuddDeref _ T)
                (sbrTrans (sameButRef_cuddDeref _ E)
                  (sameButRef_cuddDeref _ res)))
          refine ⟨(wfM_sbr hsbF).mpr w4,
                  mextTrans xall (mextTrans i1 (MExt_of_sameButRef hsbF)),
                  (PSound_sbr hsbF permut t2).mpr (PSound_mext i1 hw2' p2'),
                  fun p hp => (kcomp p hp).imp id Nat.le_of_lt, ?_⟩
          intro e he
          cases he
          refine ⟨(inMgr_notCond _ res node.neg).mpr
                    ((inMgr_sbr hsbF res).mpr hinR),
                  fun a => ?_, ?_⟩
          · rw [eEval_notCond, eEval_sbr hsbF, hsem a]
            conv_rhs => rw [← notCond_regular node]
            rw [eEval_notCond]
          · intro p hp hpk
            rcases kcomp p hp with hh | hh
            · exact Or.inl ⟨p, hh, hpk⟩
            · exact absurd hpk (by omega)

/-- Soundness invariant of `cuddBddPermuteRecur` (the permutation
analogue of `transferRecur_sound`): over a well-formed manager with
sound projection nodes and a total permutation, starting from a sound
cache, the manager stays well formed and only grows, the cache stays
sound and only gains keys bounded by the operand, and a non-null result
is alive, denotes the operand's function with the variables composed
through the permutation, and any cache entry keyed by the operand that
is not explained by a pre-existing entry stores exactly the (regular)
result. -/
theorem permuteRecur_sound (permut : Nat → Nat) :
    ∀ (fuel : Nat) (m : Mgr) (tbl : DdHT) (node : Edge) (m' : Mgr)
      (t' : DdHT) (r : Option Edge) (evs : List CacheEv),
      cuddBddPermuteRecur permut fuel m tbl node = (m', t', r, evs) →
      wfM m → varsOk m → permutOk m permut → inMgr m node →
      node.id < fuel → PSound m permut tbl →
      wfM m' ∧ MExt m m' ∧ PSound m' permut t' ∧
      (∀ p ∈ t'.entries, p ∈ tbl.entries ∨ p.1 ≤ node.id) ∧
      (∀ e, r = some e →
        inMgr m' e ∧
        (∀ a, eEval m' a e = eEval m (fun i => a (permut i)) node) ∧
        (∀ p ∈ t'.entries, p.1 = node.id →
          (∃ q ∈ tbl.entries, q.1 = node.id) ∨
          e = Cudd_NotCond p.2.1 node.neg)) := by
  intro fuel
  induction fuel with
  | zero =>
    intro m tbl node m' t' r evs h hw hva hpo hin hfuel hps
    omega
  | succ fuel ih =>
    intro m tbl node m' t' r evs h hw hva hpo hin hfuel hps
    rw [cuddBddPermuteRecur] at h
    by_cases h0 : node.id = 0
    · rw [if_pos h0] at h
      simp only [Prod.mk.injEq] at h
      obtain ⟨rfl, rfl, rfl, rfl⟩ := h
      refine ⟨hw, mextRefl m, hps, fun p hp => Or.inl hp, ?_⟩
      intro e he
      cases he
      refine ⟨hin, fun a => ?_, fun p hp hpk => Or.inl ⟨p, hp, hpk⟩⟩
      have h1 : eEval m a node = !node.neg := by
        unfold eEval
        rw [h0]
        rfl
      have h2 : eEval m (fun i => a (permut i)) node = !node.neg := by
        unfold eEval
        rw [h0]
        rfl
      rw [h1, h2]
    · rw [if_neg h0] at h
      cases hS : findNode m node.id with
      | none =>
        rcases hin with h0' | hsome
        · exact absurd h0' h0
        · rw [hS] at hsome
          simp at hsome
      | some nd =>
        rw [hS] at h
        dsimp only at h
        obtain ⟨-, -, -, hlt1, hlt2, -, -, -, -⟩ := good_of_findNode hw hS
        have hrec : ∀ (ma : Mgr) (tba : DdHT) (x : Edge) (ma' : Mgr)
            (ta' : DdHT) (ra : Option Edge) (evsa : List CacheEv),
            (x = nd.t ∨ x = nd.e) →
            cuddBddPermuteRecur permut fuel ma tba x = (ma', ta', ra, evsa) →
            wfM ma → varsOk ma → permutOk ma permut → inMgr ma x →
            PSound ma permut tba →
            wfM ma' ∧ MExt ma ma' ∧ PSound ma' permut ta' ∧
            (∀ p ∈ ta'.entries, p ∈ tba.entries ∨ p.1 < node.id) ∧
            (∀ e, ra = some e →
              inMgr ma' e ∧
              ∀ a, eEval ma' a e = eEval ma (fun i => a (permut i)) x) := by
          intro ma tba x ma' ta' ra evsa hx hcall hwa hvaa hpoa hina hpsa
          have hxlt : x.id < fuel := by
            rcases hx with rfl | rfl <;> omega
          obtain ⟨cw, cx, cp, ck, cs⟩ :=
            ih ma tba x ma' ta' ra evsa hcall hwa hvaa hpoa hina hxlt hpsa
          refine ⟨cw, cx, cp, ?_,
                  fun e he => ⟨(cs e he).1, (cs e he).2.1⟩⟩
          intro p hp
          rcases ck p hp with hh | hh
          · exact Or.inl hh
          · right
            rcases hx with rfl | rfl <;> omega
        by_cases hg : m.ref node.id ≠ 1
        · rw [if_pos hg] at h
          rcases hlk : cuddHashTableLookup1 m tbl node.id with ⟨m1, tb1, or1⟩
          rw [hlk] at h
          cases or1 with
          | some v =>
            dsimp only at h
            simp only [Prod.mk.injEq] at h
            obtain ⟨rfl, rfl, rfl, rfl⟩ := h
            obtain ⟨hsbr, ⟨c, hc⟩, hsub, -⟩ := lookup1_some hlk
            obtain ⟨a1, a2, a3⟩ := hps _ hc
            refine ⟨(wfM_sbr hsbr).mpr hw, MExt_of_sameButRef hsbr, ?_, ?_, ?_⟩
            · intro q hq
              rcases hsub q hq with hh | hh
              · obtain ⟨b1, b2, b3⟩ := hps q hh
                exact ⟨(inMgr_sbr hsbr _).mpr b1, (inMgr_sbr hsbr _).mpr b2,
                       fun a => by
                         rw [eEval_sbr hsbr, eEval_sbr hsbr]
                         exact b3 a⟩
              · obtain ⟨hq1, hq2⟩ := hh
                refine ⟨?_, ?_, ?_⟩
                · rw [hq2]
                  exact (inMgr_sbr hsbr _).mpr a1
                · rw [hq1]
                  exact (inMgr_sbr hsbr _).mpr a2
                · intro a
                  rw [hq2, hq1, eEval_sbr hsbr, eEval_sbr hsbr]
                  exact a3 a
            · intro q hq
              rcases hsub q hq with hh | hh
              · exact Or.inl hh
              · exact Or.inr (le_of_eq hh.1)
            · intro e he
              cases he
              refine ⟨(inMgr_notCond m1 v node.neg).mpr
                        ((inMgr_sbr hsbr v).mpr a1),
                      fun a => ?_,
                      fun p hp hpk => Or.inl ⟨(node.id, v, c), hc, rfl⟩⟩
              rw [eEval_notCond, eEval_sbr hsbr, a3 a]
              conv_rhs => rw [← notCond_regular node]
              rw [eEval_notCond]
          | none =>
            dsimp only at h
            rw [(lookup1_none hlk).1, (lookup1_none hlk).2] at h
            exact permuteKids_sound permut (cuddBddPermuteRecur permut fuel)
              nd node hrec m tbl [CacheEv.lookup node.id (m.ref node.id)]
              hw hva hpo hS hps m' t' r evs h
        · rw [if_neg hg] at h
          exact permuteKids_sound permut (cuddBddPermuteRecur permut fuel)
            nd node hrec m tbl [] hw hva hpo hS hps m' t' r evs h

/-! ### Loop-level extension algebra and field-transparency lemmas. -/

/-- `LExt` is reflexive. -/
theorem lextRefl (m : Mgr) : LExt m m :=
  ⟨⟨[], by simp⟩, le_refl _, rfl, rfl, rfl, rfl, rfl, rfl⟩

/-- `LExt` is transitive. -/
theorem lextTrans {m1 m2 m3 : Mgr} (h1 : LExt m1 m2) (h2 : LExt m2 m3) :
    LExt m1 m3 := by
  obtain ⟨l1, hl1⟩ := h1.nds
  obtain ⟨l2, hl2⟩ := h2.nds
  exact ⟨⟨l1 ++ l2, by rw [hl2, hl1, List.append_assoc]⟩,
         le_trans h1.nid h2.nid, h2.sz.trans h1.sz, h2.vrs.trans h1.vrs,
         h2.tmo.trans h1.tmo, h2.hnd.trans h1.hnd, h2.calls.trans h1.calls,
         h2.tb.trans h1.tb⟩

/-- An attempt extension starting from the flag-cleared state is a loop
extension of the original state. -/
theorem lext_of_flagMext {m m' : Mgr}
    (h : MExt { m with reordered := false } m') : LExt m m' :=
  ⟨h.nds, h.nid, h.sz, h.vrs, h.tmo, h.hnd, h.calls, h.tb⟩

/-- Clearing (or setting) the flag is a loop extension. -/
theorem lext_flag (m : Mgr) (b : Bool) : LExt m { m with reordered := b } :=
  ⟨⟨[], by simp⟩, le_refl _, rfl, rfl, rfl, rfl, rfl, rfl⟩

/-- Evaluation of an alive edge is stable under loop extension. -/
theorem eEval_lext {m m' : Mgr} (hx : LExt m m') (hw : wfM m) {e : Edge}
    (he : inMgr m e) (a : Nat → Bool) : eEval m' a e = eEval m a e := by
  obtain ⟨l, hl⟩ := hx.nds
  unfold eEval
  rw [hl]
  exact evalL_append (closedN_of_wf hw) l a e.id e he

/-- Liveness is stable under loop extension. -/
theorem inMgr_lext {m m' : Mgr} (hx : LExt m m') {e : Edge} (h : inMgr m e) :
    inMgr m' e := by
  rcases h with h | h
  · exact Or.inl h
  · obtain ⟨nd, hnd⟩ := Option.isSome_iff_exists.mp h
    obtain ⟨l, hl⟩ := hx.nds
    right
    rw [show findNode m' e.id = findN m'.nodes e.id from rfl, hl,
        findN_append_left hnd l]
    rfl

/-- A found node is still found after a loop extension. -/
theorem findNode_lext {m m' : Mgr} (hx : LExt m m') {i : Nat} {nd : NodeData}
    (h : findNode m i = some nd) : findNode m' i = some nd := by
  obtain ⟨l, hl⟩ := hx.nds
  rw [show findNode m' i = findN m'.nodes i from rfl, hl, findN_append_left h l]

/-- The projection-node structure survives a loop extension. -/
theorem varsOk_lext {m m' : Mgr} (hx : LExt m m') (h : varsOk m) : varsOk m' := by
  intro i hi
  rw [hx.sz] at hi
  obtain ⟨h1, h2⟩ := h i hi
  exact ⟨by rw [hx.vrs]; exact findNode_lext hx h1, by rw [hx.vrs]; exact h2⟩

/-- Totality of a variable map survives a loop extension. -/
theorem permutOk_lext {m m' : Mgr} (hx : LExt m m') {p : Nat → Nat}
    (h : permutOk m p) : permutOk m' p := by
  intro i hi
  rw [hx.sz] at hi ⊢
  exact h i hi

/-- Changing only the budget is an extension. -/
theorem MExt_budget (m : Mgr) (b : Nat) : MExt m { m with budget := b } :=
  ⟨⟨[], by simp⟩, le_refl _, rfl, rfl, le_refl _, rfl, rfl, rfl, rfl,
   fun h => h, fun h => Or.inl h⟩

/-- Well-formedness ignores the budget. -/
theorem wfM_budget (m : Mgr) (b : Nat) : wfM { m with budget := b } ↔ wfM m :=
  Iff.rfl

/-- Well-formedness ignores the reordering flag. -/
theorem wfM_flag (m : Mgr) (b : Bool) : wfM { m with reordered := b } ↔ wfM m :=
  Iff.rfl

/-- The timeout notification leaves the node table untouched. -/
theorem tn_nodes (m : Mgr) : (timeoutNote m).nodes = m.nodes := by
  unfold timeoutNote
  split_ifs <;> rfl

/-- The timeout notification leaves the reference counters untouched. -/
theorem tn_ref (m : Mgr) : (timeoutNote m).ref = m.ref := by
  unfold timeoutNote
  split_ifs <;> rfl

/-- The timeout notification bumps the callback counter exactly when the
timeout condition is set and a handler is registered. -/
theorem tn_calls (m : Mgr) : (timeoutNote m).timeoutCalls
    = m.timeoutCalls
      + (if m.errorTimeout = true ∧ m.hasHandler = true then 1 else 0) := by
  unfold timeoutNote
  split_ifs <;> rfl

/-- Evaluation ignores the timeout notification. -/
theorem eEval_tn (m : Mgr) (a : Nat → Bool) (e : Edge) :
    eEval (timeoutNote m) a e = eEval m a e := by
  unfold eEval
  rw [tn_nodes]

/-- Liveness ignores the timeout notification. -/
theorem inMgr_tn (m : Mgr) (e : Edge) :
    inMgr (timeoutNote m) e ↔ inMgr m e := by
  unfold inMgr
  rw [show findNode (timeoutNote m) e.id = findN (timeoutNote m).nodes e.id
        from rfl, tn_nodes]
  rfl

/-- Well-formedness ignores the timeout notification. -/
theorem wfM_tn (m : Mgr) : wfM (timeoutNote m) ↔ wfM m := by
  unfold timeoutNote
  split_ifs <;> exact Iff.rfl

/-- Conditional complement preserves the node identity. -/
theorem notCond_id (e : Edge) (b : Bool) : (Cudd_NotCond e b).id = e.id := by
  cases b <;> rfl

/-- Failure of the table allocation leaves the manager untouched. -/
theorem st_init_table_none {m m' : Mgr}
    (h : st_init_table m = (m', none)) : m' = m := by
  unfold st_init_table at h
  by_cases hb : m.budget = 0
  · rw [if_pos hb] at h
    simp only [Prod.mk.injEq] at h
    exact h.1.symm
  · rw [if_neg hb] at h
    simp only [Prod.mk.injEq] at h
    cases h.2

/-- A successful table allocation consumes one budget unit and returns
the empty table seeded with the transient-cache budget. -/
theorem st_init_table_some {m m' : Mgr} {t : STTable}
    (h : st_init_table m = (m', some t)) :
    m' = { m with budget := m.budget - 1 } ∧
    t = ⟨[], m.tblBudget⟩ := by
  unfold st_init_table at h
  by_cases hb : m.budget = 0
  · rw [if_pos hb] at h
    simp only [Prod.mk.injEq] at h
    cases h.2
  · rw [if_neg hb] at h
    simp only [Prod.mk.injEq] at h
    exact ⟨h.1.symm, (Option.some.inj h.2).symm⟩

/-- The generator allocation changes at most the budget. -/
theorem st_init_gen_eq {m m' : Mgr} {b : Bool}
    (h : st_init_gen m = (m', b)) : m' = { m with budget := m'.budget } := by
  unfold st_init_gen at h
  by_cases hb : m.budget = 0
  · rw [if_pos hb] at h
    simp only [Prod.mk.injEq] at h
    rw [← h.1]
  · rw [if_neg hb] at h
    simp only [Prod.mk.injEq] at h
    rw [← h.1]

/-- Failure of the computed-table allocation leaves the manager
untouched. -/
theorem htInit_none {m m' : Mgr}
    (h : cuddHashTableInit m = (m', none)) : m' = m := by
  unfold cuddHashTableInit at h
  by_cases hb : m.budget = 0
  · rw [if_pos hb] at h
    simp only [Prod.mk.injEq] at h
    exact h.1.symm
  · rw [if_neg hb] at h
    simp only [Prod.mk.injEq] at h
    cases h.2

/-- A successful computed-table allocation consumes one budget unit and
returns the empty table seeded with the transient-cache budget. -/
theorem htInit_some {m m' : Mgr} {t : DdHT}
    (h : cuddHashTableInit m = (m', some t)) :
    m' = { m with budget := m.budget - 1 } ∧
    t = ⟨[], m.tblBudget⟩ := by
  unfold cuddHashTableInit at h
  by_cases hb : m.budget = 0
  · rw [if_pos hb] at h
    simp only [Prod.mk.injEq] at h
    cases h.2
  · rw [if_neg hb] at h
    simp only [Prod.mk.injEq] at h
    exact ⟨h.1.symm, (Option.some.inj h.2).symm⟩

/-- A reference-only update keeps the `reordered` flag. -/
theorem reordered_sbr {m m' : Mgr} (h : sameButRef m m') :
    m'.reordered = m.reordered := by
  obtain ⟨f, rfl⟩ := h
  rfl

/-- Evaluation ignores the budget. -/
theorem eEval_bud (m : Mgr) (b : Nat) (a : Nat → Bool) (e : Edge) :
    eEval { m with budget := b } a e = eEval m a e := rfl

/-- Liveness ignores the budget. -/
theorem inMgr_bud (m : Mgr) (b : Nat) (e : Edge) :
    inMgr { m with budget := b } e ↔ inMgr m e := Iff.rfl

/-! ### One attempt of the transfer: frame and soundness. -/

/-- Frame facts of one `cuddBddTransfer` attempt: the destination only
grows; when the ghost flag records that every teardown ran (`dr`), the
reference counters are fully restored up to the one count moved onto a
non-null result and back off it — i.e. unchanged; the `reordered` flag
is raised only if it was already set or the result is null; and a
non-null result is only returned on the fully-drained path. -/
theorem cuddBddTransfer_frame {ddS ddD : Mgr} {f : Edge} {d' : Mgr}
    {r : Option Edge} {dr : Bool}
    (h : cuddBddTransfer ddS ddD f = (d', r, dr)) :
    MExt ddD d' ∧
    (dr = true → ∀ i, d'.ref i = ddD.ref i) ∧
    (d'.reordered = true → ddD.reordered = true ∨ r = none) ∧
    (∀ e, r = some e → dr = true) := by
  unfold cuddBddTransfer at h
  rcases hT : st_init_table ddD with ⟨dd0, ot⟩
  rw [hT] at h
  cases ot with
  | none =>
    dsimp only at h
    simp only [Prod.mk.injEq] at h
    obtain ⟨rfl, rfl, rfl⟩ := h
    rw [st_init_table_none hT]
    exact ⟨mextRefl _, fun _ i => rfl, fun hr => Or.inl hr,
           fun e he => by cases he⟩
  | some tbl =>
    dsimp only at h
    obtain ⟨hdd0, htbl⟩ := st_init_table_some hT
    subst hdd0
    subst htbl
    rcases hR : cuddBddTransferRecur ddS (f.id + 1)
        { ddD with budget := ddD.budget - 1 } ⟨[], ddD.tblBudget⟩ f
      with ⟨d1, t1, res⟩
    rw [hR] at h
    dsimp only at h
    obtain ⟨fx, -, fbal, freo⟩ :=
      transferRecur_frame ddS (f.id + 1) _ _ f d1 t1 res hR
    have x0 : MExt ddD d1 := mextTrans (MExt_budget ddD _) fx
    have hbal : ∀ i, d1.ref i = ddD.ref i + tblRefsT t1 i := by
      intro i
      have hb := fbal i
      have h1 : tblRefsT (⟨[], ddD.tblBudget⟩ : STTable) i = 0 := rfl
      have h2 : ({ ddD with budget := ddD.budget - 1 } : Mgr).ref i
          = ddD.ref i := rfl
      omega
    cases res with
    | none =>
      dsimp only at h
      rcases hG : st_init_gen d1 with ⟨d2, bg⟩
      rw [hG] at h
      have hd2 : d2 = { d1 with budget := d2.budget } := st_init_gen_eq hG
      cases bg with
      | false =>
        dsimp only at h
        simp only [Prod.mk.injEq] at h
        obtain ⟨rfl, rfl, rfl⟩ := h
        rw [hd2]
        exact ⟨mextTrans x0 (MExt_budget d1 _),
               fun hdr => absurd hdr (by decide),
               fun _ => Or.inr rfl, fun e he => by cases he⟩
      | true =>
        dsimp only at h
        simp only [Prod.mk.injEq] at h
        obtain ⟨rfl, rfl, rfl⟩ := h
        rw [hd2]
        refine ⟨mextTrans x0 (mextTrans (MExt_budget d1 _)
                  (MExt_of_sameButRef (sameButRef_stDrain _ t1))),
                ?_, fun _ => Or.inr rfl, fun e he => by cases he⟩
        intro _ i
        rw [stDrain_ref]
        have h2 : ({ d1 with budget := d2.budget } : Mgr).ref i
            = d1.ref i := rfl
        rw [h2, hbal i]
        omega
    | some e0 =>
      dsimp only at h
      rcases hG : st_init_gen (cuddRef d1 e0) with ⟨d2, bg⟩
      rw [hG] at h
      have hd2 : d2 = { cuddRef d1 e0 with budget := d2.budget } :=
        st_init_gen_eq hG
      cases bg with
      | false =>
        dsimp only at h
        simp only [Prod.mk.injEq] at h
        obtain ⟨rfl, rfl, rfl⟩ := h
        rw [hd2]
        exact ⟨mextTrans x0 (mextTrans
                 (MExt_of_sameButRef (sameButRef_cuddRef d1 e0))
                 (MExt_budget _ _)),
               fun hdr => absurd hdr (by decide),
               fun _ => Or.inr rfl, fun e he => by cases he⟩
      | true =>
        dsimp only at h
        simp only [Prod.mk.injEq] at h
        obtain ⟨rfl, rfl, rfl⟩ := h
        rw [hd2]
        refine ⟨mextTrans x0 (mextTrans
                  (MExt_of_sameButRef (sameButRef_cuddRef d1 e0))
                  (mextTrans (MExt_budget _ _)
                    (MExt_of_sameButRef (sbrTrans (sameButRef_stDrain _ t1)
                      (sameButRef_cuddDeref _ e0))))),
                ?_, ?_, fun e he => rfl⟩
        · intro _ i
          rw [cuddDeref_ref, stDrain_ref]
          have h2 : ({ cuddRef d1 e0 with budget := d2.budget } : Mgr).ref i
              = (cuddRef d1 e0).ref i := rfl
          rw [h2, cuddRef_ref, hbal i]
          split_ifs <;> omega
        · intro hre
          have hr1 : (cuddDeref (stDrain { cuddRef d1 e0 with
              budget := d2.budget } t1) e0).reordered = d1.reordered := by
            rw [reordered_sbr (sameButRef_cuddDeref _ e0),
                reordered_sbr (sameButRef_stDrain _ t1)]
            rfl
          rw [hr1] at hre
          rcases freo hre with hh | hh
          · exact Or.inl hh
          · cases hh

/-- Soundness of one `cuddBddTransfer` attempt: from a well-formed
destination at least as wide as the source, the destination stays well
formed and a non-null result is alive and denotes exactly the source
function. -/
theorem cuddBddTransfer_sound {ddS ddD : Mgr} {f : Edge} {d' : Mgr}
    {r : Option Edge} {dr : Bool}
    (h : cuddBddTransfer ddS ddD f = (d', r, dr)) (hwS : wfM ddS)
    (hwD : wfM ddD) (hsz : ddS.size ≤ ddD.size) (hf : inMgr ddS f) :
    wfM d' ∧
    (∀ e, r = some e → inMgr d' e ∧ ∀ a, eEval d' a e = eEval ddS a f) := by
  unfold cuddBddTransfer at h
  rcases hT : st_init_table ddD with ⟨dd0, ot⟩
  rw [hT] at h
  cases ot with
  | none =>
    dsimp only at h
    simp only [Prod.mk.injEq] at h
    obtain ⟨rfl, rfl, rfl⟩ := h
    rw [st_init_table_none hT]
    exact ⟨hwD, fun e he => by cases he⟩
  | some tbl =>
    dsimp only at h
    obtain ⟨hdd0, htbl⟩ := st_init_table_some hT
    subst hdd0
    subst htbl
    rcases hR : cuddBddTransferRecur ddS (f.id + 1)
        { ddD with budget := ddD.budget - 1 } ⟨[], ddD.tblBudget⟩ f
      with ⟨d1, t1, res⟩
    rw [hR] at h
    dsimp only at h
    obtain ⟨w1, -, -, s1⟩ :=
      transferRecur_sound ddS hwS (f.id + 1) _ _ f d1 t1 res hR
        ((wfM_budget ddD _).mpr hwD) hsz hf (Nat.lt_succ_self _)
        (fun p hp => absurd hp (List.not_mem_nil p))
    cases res with
    | none =>
      dsimp only at h
      rcases hG : st_init_gen d1 with ⟨d2, bg⟩
      rw [hG] at h
      have hd2 : d2 = { d1 with budget := d2.budget } := st_init_gen_eq hG
      cases bg with
      | false =>
        dsimp only at h
        simp only [Prod.mk.injEq] at h
        obtain ⟨rfl, rfl, rfl⟩ := h
        rw [hd2]
        exact ⟨(wfM_budget d1 _).mpr w1, fun e he => by cases he⟩
      | true =>
        dsimp only at h
        simp only [Prod.mk.injEq] at h
        obtain ⟨rfl, rfl, rfl⟩ := h
        rw [hd2]
        exact ⟨(wfM_sbr (sameButRef_stDrain _ t1)).mpr
                 ((wfM_budget d1 _).mpr w1),
               fun e he => by cases he⟩
    | some e0 =>
      dsimp only at h
      obtain ⟨hin0, hev0, -⟩ := s1 e0 rfl
      rcases hG : st_init_gen (cuddRef d1 e0) with ⟨d2, bg⟩
      rw [hG] at h
      have hd2 : d2 = { cuddRef d1 e0 with budget := d2.budget } :=
        st_init_gen_eq hG
      cases bg with
      | false =>
        dsimp only at h
        simp only [Prod.mk.injEq] at h
        obtain ⟨rfl, rfl, rfl⟩ := h
        rw [hd2]
        exact ⟨(wfM_budget _ _).mpr
                 ((wfM_sbr (sameButRef_cuddRef d1 e0)).mpr w1),
               fun e he => by cases he⟩
      | true =>
        dsimp only at h
        simp only [Prod.mk.injEq] at h
        obtain ⟨rfl, rfl, rfl⟩ := h
        rw [hd2]
        have hsb : sameButRef { cuddRef d1 e0 with budget := d2.budget }
            (cuddDeref (stDrain { cuddRef d1 e0 with budget := d2.budget } t1)
              e0) :=
          sbrTrans (sameButRef_stDrain _ t1) (sameButRef_cuddDeref _ e0)
        have hw2 : wfM ({ cuddRef d1 e0 with budget := d2.budget } : Mgr) :=
          (wfM_budget _ _).mpr ((wfM_sbr (sameButRef_cuddRef d1 e0)).mpr w1)
        refine ⟨(wfM_sbr hsb).mpr hw2, ?_⟩
        intro e he
        cases he
        constructor
        · rw [inMgr_sbr hsb, inMgr_bud, inMgr_sbr (sameButRef_cuddRef d1 e0)]
          exact hin0
        · intro a
          rw [eEval_sbr hsb, eEval_bud, eEval_sbr (sameButRef_cuddRef d1 e0)]
          exact hev0 a

/-- Frame facts of the transfer retry loop: the manager is a loop
extension of the input, and when every attempt's teardown ran the
reference counters are unchanged. -/
theorem transferLoop_frame (ddS : Mgr) (f : Edge) :
    ∀ (fuel : Nat) (ddD d' : Mgr) (r : Option Edge) (dr : Bool),
      transferLoop ddS f fuel ddD = (d', r, dr) →
      LExt ddD d' ∧ (dr = true → ∀ i, d'.ref i = ddD.ref i) := by
  intro fuel
  induction fuel with
  | zero =>
    intro ddD d' r dr h
    rw [transferLoop] at h
    simp only [Prod.mk.injEq] at h
    obtain ⟨rfl, rfl, rfl⟩ := h
    exact ⟨lextRefl _, fun _ i => rfl⟩
  | succ fuel ih =>
    intro ddD d' r dr h
    rw [transferLoop] at h
    rcases hA : cuddBddTransfer ddS { ddD with reordered := false } f
      with ⟨d1, r1, dra⟩
    rw [hA] at h
    dsimp only at h
    obtain ⟨ax, aref, -, -⟩ := cuddBddTransfer_frame hA
    have lx1 : LExt ddD d1 := lext_of_flagMext ax
    by_cases hre : d1.reordered = true
    · rw [if_pos hre] at h
      rcases hB : transferLoop ddS f fuel d1 with ⟨d2, r2, drb⟩
      rw [hB] at h
      dsimp only at h
      simp only [Prod.mk.injEq] at h
      obtain ⟨rfl, rfl, rfl⟩ := h
      obtain ⟨lx2, bref⟩ := ih d1 d2 r2 drb hB
      refine ⟨lextTrans lx1 lx2, ?_⟩
      intro hdr i
      have h12 : dra = true ∧ drb = true := by
        cases dra <;> cases drb <;> simp_all
      rw [bref h12.2 i, aref h12.1 i]
    · rw [if_neg hre] at h
      simp only [Prod.mk.injEq] at h
      obtain ⟨rfl, rfl, rfl⟩ := h
      exact ⟨lx1, fun hdr i => by rw [aref hdr i]⟩

/-- The transfer retry loop is a chain of retried attempts followed by
one attempt that came back with the `reordered` flag clear, provided the
fuel exceeds the length of the reordering oracle (as the exported entry
point arranges). -/
theorem transferLoop_decomp (ddS : Mgr) (f : Edge) :
    ∀ (fuel : Nat) (ddD d' : Mgr) (r : Option Edge) (dr : Bool),
      ddD.reorderPlan.length < fuel →
      transferLoop ddS f fuel ddD = (d', r, dr) →
      ∃ k mk dr2, chainR (failedAttemptT ddS f) k ddD mk ∧
        transferOnce ddS f mk = (d', r, dr2) ∧ d'.reordered = false := by
  intro fuel
  induction fuel with
  | zero =>
    intro ddD d' r dr hlt h
    omega
  | succ fuel ih =>
    intro ddD d' r dr hlt h
    rw [transferLoop] at h
    rcases hA : cuddBddTransfer ddS { ddD with reordered := false } f
      with ⟨d1, r1, dra⟩
    rw [hA] at h
    dsimp only at h
    obtain ⟨ax, -, -, -⟩ := cuddBddTransfer_frame hA
    by_cases hre : d1.reordered = true
    · rw [if_pos hre] at h
      rcases hB : transferLoop ddS f fuel d1 with ⟨d2, r2, drb⟩
      rw [hB] at h
      dsimp only at h
      simp only [Prod.mk.injEq] at h
      obtain ⟨rfl, rfl, rfl⟩ := h
      have hplan : d1.reorderPlan.length < ddD.reorderPlan.length := by
        rcases ax.fire hre with hh | hh
        · exact absurd hh (by simp)
        · exact hh
      obtain ⟨k, mk, dr2, hch, hone, hflag⟩ := ih d1 d2 r2 drb (by omega) hB
      exact ⟨k + 1, mk, dr2, ⟨d1, ⟨r1, dra, hA, hre⟩, hch⟩, hone, hflag⟩
    · rw [if_neg hre] at h
      simp only [Prod.mk.injEq] at h
      obtain ⟨rfl, rfl, rfl⟩ := h
      exact ⟨0, ddD, dra, rfl, hA, Bool.of_not_eq_true hre⟩

/-- Soundness of the transfer retry loop: the destination stays well
formed and a non-null result is alive and denotes exactly the source
function. -/
theorem transferLoop_sound (ddS : Mgr) (f : Edge) (hwS : wfM ddS)
    (hf : inMgr ddS f) :
    ∀ (fuel : Nat) (ddD d' : Mgr) (r : Option Edge) (dr : Bool),
      transferLoop ddS f fuel ddD = (d', r, dr) →
      wfM ddD → ddS.size ≤ ddD.size →
      wfM d' ∧
      (∀ e, r = some e → inMgr d' e ∧ ∀ a, eEval d' a e = eEval ddS a f) := by
  intro fuel
  induction fuel with
  | zero =>
    intro ddD d' r dr h hwD hsz
    rw [transferLoop] at h
    simp only [Prod.mk.injEq] at h
    obtain ⟨rfl, rfl, rfl⟩ := h
    exact ⟨hwD, fun e he => by cases he⟩
  | succ fuel ih =>
    intro ddD d' r dr h hwD hsz
    rw [transferLoop] at h
    rcases hA : cuddBddTransfer ddS { ddD with reordered := false } f
      with ⟨d1, r1, dra⟩
    rw [hA] at h
    dsimp only at h
    obtain ⟨ax, -, -, -⟩ := cuddBddTransfer_frame hA
    obtain ⟨w1, s1⟩ := cuddBddTransfer_sound hA hwS
      ((wfM_flag ddD false).mpr hwD) hsz hf
    by_cases hre : d1.reordered = true
    · rw [if_pos hre] at h
      rcases hB : transferLoop ddS f fuel d1 with ⟨d2, r2, drb⟩
      rw [hB] at h
      dsimp only at h
      simp only [Prod.mk.injEq] at h
      obtain ⟨rfl, rfl, rfl⟩ := h
      exact ih d1 d2 r2 drb hB w1 (by rw [ax.sz]; exact hsz)
    · rw [if_neg hre] at h
      simp only [Prod.mk.injEq] at h
      obtain ⟨rfl, rfl, rfl⟩ := h
      exact ⟨w1, s1⟩

/-! ### One attempt of the permutation: frame and soundness. -/

/-- Frame facts of one `Cudd_bddPermute` attempt: on the early path the
manager is returned exactly as the attempt found it (flag cleared) with
a null result; on the completed path the manager only grows, the
`reordered` flag forces a null result, a null result leaves every
reference counter unchanged, and a non-null result carries exactly one
additional reference (the protection taken before the cache teardown). -/
theorem permuteOnce_frame {permut : Nat → Nat} {node : Edge} {m m' : Mgr}
    {r : Option Edge} {early : Bool}
    (h : permuteOnce permut node m = (m', r, early)) :
    (early = true → m' = { m with reordered := false } ∧ r = none) ∧
    (early = false →
      MExt { m with reordered := false } m' ∧
      (m'.reordered = true → r = none) ∧
      (r = none → ∀ i, m'.ref i = m.ref i) ∧
      (∀ e, r = some e → ∀ i, m'.ref i = m.ref i
        + (if e.id = i then 1 else 0))) := by
  unfold permuteOnce at h
  dsimp only at h
  rcases hI : cuddHashTableInit { m with reordered := false } with ⟨m0, ot⟩
  rw [hI] at h
  cases ot with
  | none =>
    dsimp only at h
    simp only [Prod.mk.injEq] at h
    obtain ⟨rfl, rfl, rfl⟩ := h
    rw [htInit_none hI]
    exact ⟨fun _ => ⟨rfl, rfl⟩, fun hc => absurd hc (by decide)⟩
  | some tbl =>
    dsimp only at h
    obtain ⟨hm0, htb⟩ := htInit_some hI
    rcases hR : cuddBddPermuteRecur permut (node.id + 1) m0 tbl node
      with ⟨m1, t1, res, evs⟩
    rw [hR] at h
    dsimp only at h
    obtain ⟨fx, -, freo, fbal⟩ := permuteRecur_frame permut (node.id + 1)
      m0 tbl node m1 t1 res evs hR
    have hm0r : ∀ i, m0.ref i = m.ref i := by
      intro i
      rw [hm0]
    have htbe : tbl.entries = [] := by rw [htb]
    have htb0 : ∀ i, tblRefsH tbl i = 0 := by
      intro i
      show refsOfH tbl.entries i = 0
      rw [htbe]
      rfl
    obtain ⟨hbal, -⟩ := fbal (fun i => by rw [htb0 i]; omega)
    have hbal' : ∀ i, m1.ref i = m.ref i + tblRefsH t1 i := by
      intro i
      have h1 := hbal i
      have h2 := htb0 i
      have h3 := hm0r i
      omega
    cases res with
    | none =>
      dsimp only at h
      simp only [Prod.mk.injEq] at h
      obtain ⟨rfl, rfl, rfl⟩ := h
      refine ⟨fun hc => absurd hc (by decide),
              fun _ => ⟨?_, fun _ => rfl, ?_, fun e he => by cases he⟩⟩
      · refine mextTrans ?_ (mextTrans fx
          (MExt_of_sameButRef (sameButRef_quit m1 t1)))
        rw [hm0]
        exact MExt_budget _ _
      · intro _ i
        rw [quit_ref, hbal' i]
        omega
    | some e0 =>
      dsimp only at h
      simp only [Prod.mk.injEq] at h
      obtain ⟨rfl, rfl, rfl⟩ := h
      refine ⟨fun hc => absurd hc (by decide),
              fun _ => ⟨?_, ?_, fun hnone => Option.noConfusion hnone, ?_⟩⟩
      · refine mextTrans ?_ (mextTrans fx (MExt_of_sameButRef
          (sbrTrans (sameButRef_cuddRef m1 e0) (sameButRef_quit _ t1))))
        rw [hm0]
        exact MExt_budget _ _
      · intro hre
        rw [reordered_sbr (sameButRef_quit (cuddRef m1 e0) t1),
            reordered_sbr (sameButRef_cuddRef m1 e0)] at hre
        rcases freo hre with hh | hh
        · rw [hm0] at hh
          exact absurd hh (by simp)
        · cases hh
      · intro e he
        cases he
        intro i
        rw [quit_ref, cuddRef_ref, hbal' i]
        split_ifs <;> omega

/-- Soundness of one `Cudd_bddPermute` attempt: the manager stays well
formed and a non-null result is alive and denotes the operand's function
with the variables composed through the permutation. -/
theorem permuteOnce_sound {permut : Nat → Nat} {node : Edge} {m m' : Mgr}
    {r : Option Edge} {early : Bool}
    (h : permuteOnce permut node m = (m', r, early)) (hw : wfM m)
    (hva : varsOk m) (hpo : permutOk m permut) (hin : inMgr m node) :
    wfM m' ∧
    (∀ e, r = some e →
      inMgr m' e ∧
      ∀ a, eEval m' a e = eEval m (fun i => a (permut i)) node) := by
  unfold permuteOnce at h
  dsimp only at h
  rcases hI : cuddHashTableInit { m with reordered := false } with ⟨m0, ot⟩
  rw [hI] at h
  cases ot with
  | none =>
    dsimp only at h
    simp only [Prod.mk.injEq] at h
    obtain ⟨rfl, rfl, rfl⟩ := h
    rw [htInit_none hI]
    exact ⟨(wfM_flag m false).mpr hw, fun e he => by cases he⟩
  | some tbl =>
    dsimp only at h
    obtain ⟨hm0, htb⟩ := htInit_some hI
    rcases hR : cuddBddPermuteRecur permut (node.id + 1) m0 tbl node
      with ⟨m1, t1, res, evs⟩
    rw [hR] at h
    dsimp only at h
    have hw0 : wfM m0 := by rw [hm0]; exact hw
    have hva0 : varsOk m0 := by rw [hm0]; exact hva
    have hpo0 : permutOk m0 permut := by rw [hm0]; exact hpo
    have hin0 : inMgr m0 node := by rw [hm0]; exact hin
    have hps0 : PSound m0 permut tbl := by
      intro p hp
      rw [htb] at hp
      cases hp
    obtain ⟨w1, -, -, -, s1⟩ := permuteRecur_sound permut (node.id + 1)
      m0 tbl node m1 t1 res evs hR hw0 hva0 hpo0 hin0 (Nat.lt_succ_self _) hps0
    cases res with
    | none =>
      dsimp only at h
      simp only [Prod.mk.injEq] at h
      obtain ⟨rfl, rfl, rfl⟩ := h
      exact ⟨(wfM_sbr (sameButRef_quit m1 t1)).mpr w1, fun e he => by cases he⟩
    | some e0 =>
      dsimp only at h
      simp only [Prod.mk.injEq] at h
      obtain ⟨rfl, rfl, rfl⟩ := h
      obtain ⟨hin1, hev1, -⟩ := s1 e0 rfl
      have hsb : sameButRef m1 (cuddHashTableQuit (cuddRef m1 e0) t1) :=
        sbrTrans (sameButRef_cuddRef m1 e0) (sameButRef_quit _ t1)
      refine ⟨(wfM_sbr hsb).mpr w1, ?_⟩
      intro e he
      cases he
      refine ⟨(inMgr_sbr hsb e0).mpr hin1, fun a => ?_⟩
      rw [eEval_sbr hsb, hev1 a, hm0]
      rfl

/-- Frame facts of the permutation retry loop: the manager is a loop
extension, a null result leaves every reference counter unchanged, a
non-null result carries exactly one additional reference, and the early
path always carries a null result. -/
theorem permuteLoop_frame (permut : Nat → Nat) (node : Edge) :
    ∀ (fuel : Nat) (m m' : Mgr) (r : Option Edge) (early : Bool),
      permuteLoop permut node fuel m = (m', r, early) →
      LExt m m' ∧
      (r = none → ∀ i, m'.ref i = m.ref i) ∧
      (∀ e, r = some e → ∀ i, m'.ref i = m.ref i
        + (if e.id = i then 1 else 0)) ∧
      (early = true → r = none) := by
  intro fuel
  induction fuel with
  | zero =>
    intro m m' r early h
    rw [permuteLoop] at h
    simp only [Prod.mk.injEq] at h
    obtain ⟨rfl, rfl, rfl⟩ := h
    exact ⟨lextRefl _, fun _ i => rfl, fun e he => Option.noConfusion he,
           fun _ => rfl⟩
  | succ fuel ih =>
    intro m m' r early h
    rw [permuteLoop] at h
    rcases hA : permuteOnce permut node m with ⟨m1, r1, e1⟩
    rw [hA] at h
    obtain ⟨he1, he0⟩ := permuteOnce_frame hA
    cases e1 with
    | true =>
      dsimp only at h
      simp only [Prod.mk.injEq] at h
      obtain ⟨rfl, rfl, rfl⟩ := h
      obtain ⟨hm1, rfl⟩ := he1 rfl
      refine ⟨?_, ?_, ?_, fun _ => rfl⟩
      · rw [hm1]
        exact lext_flag m false
      · intro _ i
        rw [hm1]
      · exact fun e he => Option.noConfusion he
    | false =>
      dsimp only at h
      obtain ⟨ax, hreo, hrefn, hrefs⟩ := he0 rfl
      by_cases hre : m1.reordered = true
      · rw [if_pos hre] at h
        obtain ⟨lx2, brefn, brefs, bearly⟩ := ih m1 m' r early h
        have hneu : ∀ i, m1.ref i = m.ref i := hrefn (hreo hre)
        refine ⟨lextTrans (lext_of_flagMext ax) lx2, ?_, ?_, bearly⟩
        · intro hr i
          rw [brefn hr i, hneu i]
        · intro e he i
          rw [brefs e he i, hneu i]
      · rw [if_neg hre] at h
        simp only [Prod.mk.injEq] at h
        obtain ⟨rfl, rfl, rfl⟩ := h
        exact ⟨lext_of_flagMext ax, hrefn, hrefs,
               fun hc => absurd hc (by decide)⟩

/-- The permutation retry loop is a chain of retried attempts followed
by one attempt that either took the early path or came back with the
`reordered` flag clear, provided the fuel exceeds the length of the
reordering oracle. -/
theorem permuteLoop_decomp (permut : Nat → Nat) (node : Edge) :
    ∀ (fuel : Nat) (m m' : Mgr) (r : Option Edge) (early : Bool),
      m.reorderPlan.length < fuel →
      permuteLoop permut node fuel m = (m', r, early) →
      ∃ k mk, chainR (failedAttemptP permut node) k m mk ∧
        permuteOnce permut node mk = (m', r, early) ∧
        (early = true ∨ m'.reordered = false) := by
  intro fuel
  induction fuel with
  | zero =>
    intro m m' r early hlt h
    omega
  | succ fuel ih =>
    intro m m' r early hlt h
    rw [permuteLoop] at h
    rcases hA : permuteOnce permut node m with ⟨m1, r1, e1⟩
    rw [hA] at h
    obtain ⟨he1, he0⟩ := permuteOnce_frame hA
    cases e1 with
    | true =>
      dsimp only at h
      simp only [Prod.mk.injEq] at h
      obtain ⟨rfl, rfl, rfl⟩ := h
      exact ⟨0, m, rfl, hA, Or.inl rfl⟩
    | false =>
      dsimp only at h
      obtain ⟨ax, hreo, -, -⟩ := he0 rfl
      by_cases hre : m1.reordered = true
      · rw [if_pos hre] at h
        have hplan : m1.reorderPlan.length < m.reorderPlan.length := by
          rcases ax.fire hre with hh | hh
          · exact absurd hh (by simp)
          · exact hh
        obtain ⟨k, mk, hch, hone, hflag⟩ := ih m1 m' r early (by omega) h
        exact ⟨k + 1, mk, ⟨m1, ⟨r1, hA, hre⟩, hch⟩, hone, hflag⟩
      · rw [if_neg hre] at h
        simp only [Prod.mk.injEq] at h
        obtain ⟨rfl, rfl, rfl⟩ := h
        exact ⟨0, m, rfl, hA, Or.inr (Bool.of_not_eq_true hre)⟩

/-- Soundness of the permutation retry loop: the manager stays well
formed and a non-null result is alive and denotes the operand's function
with the variables composed through the permutation. -/
theorem permuteLoop_sound (permut : Nat → Nat) (node : Edge) :
    ∀ (fuel : Nat) (m m' : Mgr) (r : Option Edge) (early : Bool),
      permuteLoop permut node fuel m = (m', r, early) →
      wfM m → varsOk m → permutOk m permut → inMgr m node →
      wfM m' ∧
      (∀ e, r = some e →
        inMgr m' e ∧
        ∀ a, eEval m' a e = eEval m (fun i => a (permut i)) node) := by
  intro fuel
  induction fuel with
  | zero =>
    intro m m' r early h hw hva hpo hin
    rw [permuteLoop] at h
    simp only [Prod.mk.injEq] at h
    obtain ⟨rfl, rfl, rfl⟩ := h
    exact ⟨hw, fun e he => by cases he⟩
  | succ fuel ih =>
    intro m m' r early h hw hva hpo hin
    rw [permuteLoop] at h
    rcases hA : permuteOnce permut node m with ⟨m1, r1, e1⟩
    rw [hA] at h
    cases e1 with
    | true =>
      dsimp only at h
      simp only [Prod.mk.injEq] at h
      obtain ⟨rfl, rfl, rfl⟩ := h
      obtain ⟨hm1, rfl⟩ := (permuteOnce_frame hA).1 rfl
      rw [hm1]
      exact ⟨(wfM_flag m false).mpr hw, fun e he => by cases he⟩
    | false =>
      dsimp only at h
      obtain ⟨w1, s1⟩ := permuteOnce_sound hA hw hva hpo hin
      obtain ⟨ax, -, -, -⟩ := (permuteOnce_frame hA).2 rfl
      by_cases hre : m1.reordered = true
      · rw [if_pos hre] at h
        have lx1 : LExt m m1 := lext_of_flagMext ax
        obtain ⟨w2, s2⟩ := ih m1 m' r early h w1 (varsOk_lext lx1 hva)
          (permutOk_lext lx1 hpo) (inMgr_lext lx1 hin)
        refine ⟨w2, ?_⟩
        intro e he
        obtain ⟨hine, heve⟩ := s2 e he
        refine ⟨hine, fun a => ?_⟩
        rw [heve a]
        exact eEval_lext lx1 hw hin (fun i => a (permut i))
      · rw [if_neg hre] at h
        simp only [Prod.mk.injEq] at h
        obtain ⟨rfl, rfl, rfl⟩ := h
        exact ⟨w1, s1⟩

/-! ### The exported permutation entry point. -/

/-- `Cudd_bddPermute` never changes any reference count on balance: the
protection the successful attempt left on the result is released by the
final `cuddDeref` before returning, failed and early attempts are
neutral, and the timeout notification touches no counter. -/
theorem Cudd_bddPermute_ref {m : Mgr} {node : Edge} {permut : Nat → Nat}
    {m' : Mgr} {r : Option Edge}
    (h : Cudd_bddPermute m node permut = (m', r)) :
    ∀ i, m'.ref i = m.ref i := by
  unfold Cudd_bddPermute at h
  rcases hL : permuteLoop permut node (m.reorderPlan.length + 1) m
    with ⟨ml, rl, el⟩
  rw [hL] at h
  obtain ⟨-, lrefn, lrefs, learly⟩ :=
    permuteLoop_frame permut node _ m ml rl el hL
  cases rl with
  | none =>
    cases el with
    | true =>
      dsimp only at h
      simp only [Prod.mk.injEq] at h
      obtain ⟨rfl, rfl⟩ := h
      exact lrefn rfl
    | false =>
      dsimp only at h
      simp only [Prod.mk.injEq] at h
      obtain ⟨rfl, rfl⟩ := h
      intro i
      rw [tn_ref]
      exact lrefn rfl i
  | some e0 =>
    cases el with
    | true => exact absurd (learly rfl) (by simp)
    | false =>
      dsimp only at h
      simp only [Prod.mk.injEq] at h
      obtain ⟨rfl, rfl⟩ := h
      intro i
      rw [tn_ref, cuddDeref_ref, lrefs e0 rfl i]
      split_ifs <;> omega

/-- Soundness of `Cudd_bddPermute`: the manager stays well formed and a
non-null result is alive and denotes the operand's function with the
variables composed through the permutation. -/
theorem Cudd_bddPermute_sound {m : Mgr} {node : Edge} {permut : Nat → Nat}
    {m' : Mgr} {r : Option Edge}
    (h : Cudd_bddPermute m node permut = (m', r)) (hw : wfM m)
    (hva : varsOk m) (hpo : permutOk m permut) (hin : inMgr m node) :
    wfM m' ∧
    (∀ e, r = some e →
      inMgr m' e ∧
      ∀ a, eEval m' a e = eEval m (fun i => a (permut i)) node) := by
  unfold Cudd_bddPermute at h
  rcases hL : permuteLoop permut node (m.reorderPlan.length + 1) m
    with ⟨ml, rl, el⟩
  rw [hL] at h
  obtain ⟨-, -, -, learly⟩ := permuteLoop_frame permut node _ m ml rl el hL
  obtain ⟨wl, sl⟩ := permuteLoop_sound permut node _ m ml rl el hL hw hva hpo hin
  cases rl with
  | none =>
    cases el with
    | true =>
      dsimp only at h
      simp only [Prod.mk.injEq] at h
      obtain ⟨rfl, rfl⟩ := h
      exact ⟨wl, fun e he => by cases he⟩
    | false =>
      dsimp only at h
      simp only [Prod.mk.injEq] at h
      obtain ⟨rfl, rfl⟩ := h
      exact ⟨(wfM_tn ml).mpr wl, fun e he => by cases he⟩
  | some e0 =>
    cases el with
    | true => exact absurd (learly rfl) (by simp)
    | false =>
      dsimp only at h
      simp only [Prod.mk.injEq] at h
      obtain ⟨rfl, rfl⟩ := h
      obtain ⟨hine, heve⟩ := sl e0 rfl
      have hsb : sameButRef ml (cuddDeref ml e0) := sameButRef_cuddDeref ml e0
      refine ⟨(wfM_tn _).mpr ((wfM_sbr hsb).mpr wl), ?_⟩
      intro e he
      cases he
      refine ⟨(inMgr_tn _ e0).mpr ((inMgr_sbr hsb e0).mpr hine), fun a => ?_⟩
      rw [eEval_tn, eEval_sbr hsb]
      exact heve a

/-! ### The identity permutation: the recursion rebuilds the very same
nodes. -/

/-- Composing a stored node's own children through the stored branching
variable hands back exactly that node: the reduction test fails (the
children are distinct), the canonical form is untouched (the then-edge
is regular), and the unique table finds the original. -/
theorem iteRecur_id {m : Mgr} (hw : wfM m) {k : Nat} {nd : NodeData}
    (hmem : (k, nd) ∈ m.nodes) {v : Edge}
    (hv : findNode m v.id = some ⟨nd.var, oneE, zeroE⟩)
    (hneg : v.neg = false) :
    ∀ r, (cuddBddIteRecur m v nd.t nd.e).2 = some r → r = ⟨k, false⟩ := by
  intro r hr
  unfold cuddBddIteRecur at hr
  by_cases hf : m.reorderPlan.headD false = true
  · rw [if_pos hf] at hr
    cases hr
  · rw [if_neg hf] at hr
    unfold iteCore at hr
    rw [show findNode { m with reorderPlan := m.reorderPlan.tail } v.id
          = findNode m v.id from rfl, hv] at hr
    dsimp only at hr
    rw [if_pos (⟨rfl, rfl⟩ : (⟨nd.var, oneE, zeroE⟩ : NodeData).t = oneE ∧
          (⟨nd.var, oneE, zeroE⟩ : NodeData).e = zeroE)] at hr
    rw [if_neg (by simp [hneg])] at hr
    unfold iteCanon at hr
    have hgood := hw.2.1 (k, nd) hmem
    have htne : nd.t ≠ nd.e := hgood.2.2.2.2.2.2.2.2
    have htneg : nd.t.neg = false := hgood.2.2.2.2.2.2.2.1
    rw [if_neg htne] at hr
    rw [htneg] at hr
    rw [show Cudd_NotCond nd.t false = nd.t from rfl,
        show Cudd_NotCond nd.e false = nd.e from rfl] at hr
    have hfd : findData { m with reorderPlan := m.reorderPlan.tail }
        nd.var nd.t nd.e = some k := findData_of_mem hw hmem
    rw [hfd] at hr
    dsimp only at hr
    exact (Option.some.inj hr).symm

/-- Identity-permutation behaviour of the fallthrough `permuteKids`:
the computed table stores only entries whose value is the regular edge
of their own key, and a non-null result is the operand itself. -/
theorem permuteKids_ident (permut : Nat → Nat)
    (recur : Mgr → DdHT → Edge → Mgr × DdHT × Option Edge × List CacheEv)
    (nd : NodeData) (node : Edge)
    (hrecS : ∀ (ma : Mgr) (tba : DdHT) (x : Edge) (ma' : Mgr) (ta' : DdHT)
      (ra : Option Edge) (evsa : List CacheEv),
      (x = nd.t ∨ x = nd.e) →
      recur ma tba x = (ma', ta', ra, evsa) →
      wfM ma → varsOk ma → permutOk ma permut → inMgr ma x →
      PSound ma permut tba →
      wfM ma' ∧ MExt ma ma' ∧ PSound ma' permut ta' ∧
      (∀ p ∈ ta'.entries, p ∈ tba.entries ∨ p.1 < node.id) ∧
      (∀ e, ra = some e →
        inMgr ma' e ∧
        ∀ a, eEval ma' a e = eEval ma (fun i => a (permut i)) x))
    (hrecI : ∀ (ma : Mgr) (tba : DdHT) (x : Edge) (ma' : Mgr) (ta' : DdHT)
      (ra : Option Edge) (evsa : List CacheEv),
      (x = nd.t ∨ x = nd.e) →
      recur ma tba x = (ma', ta', ra, evsa) →
      wfM ma → varsOk ma → permutOk ma permut → inMgr ma x →
      PSound ma permut tba →
      (∀ i < ma.size, permut i = i) →
      (∀ p ∈ tba.entries, p.2.1 = ⟨p.1, false⟩) →
      (∀ p ∈ ta'.entries, p.2.1 = ⟨p.1, false⟩) ∧
      (∀ e, ra = some e → e = x))
    (m : Mgr) (tbl : DdHT) (evs0 : List CacheEv)
    (hw : wfM m) (hva : varsOk m) (hpo : permutOk m permut)
    (hnd : findNode m node.id = some nd) (hps : PSound m permut tbl)
    (hid : ∀ i < m.size, permut i = i)
    (htbl : ∀ p ∈ tbl.entries, p.2.1 = ⟨p.1, false⟩)
    (m' : Mgr) (t' : DdHT) (r : Option Edge) (evs : List CacheEv)
    (h : permuteKids permut recur nd node m tbl evs0 = (m', t', r, evs)) :
    (∀ p ∈ t'.entries, p.2.1 = ⟨p.1, false⟩) ∧
    (∀ e, r = some e → e = node) := by
  have hmem : (node.id, nd) ∈ m.nodes := mem_of_findN hnd
  obtain ⟨-, -, hvar, -, -, hit, hie, -, -⟩ := good_of_findNode hw hnd
  unfold permuteKids at h
  rcases hT : recur m tbl nd.t with ⟨m1, t1, r1, evsT⟩
  rw [hT] at h
  obtain ⟨w1, x1, p1, k1, s1⟩ :=
    hrecS m tbl nd.t m1 t1 r1 evsT (Or.inl rfl) hT hw hva hpo hit hps
  obtain ⟨j1, j1r⟩ :=
    hrecI m tbl nd.t m1 t1 r1 evsT (Or.inl rfl) hT hw hva hpo hit hps hid htbl
  cases r1 with
  | none =>
    dsimp only at h
    simp only [Prod.mk.injEq] at h
    obtain ⟨rfl, rfl, rfl, rfl⟩ := h
    exact ⟨j1, fun e he => by cases he⟩
  | some T =>
    dsimp only at h
    obtain rfl := j1r T rfl
    obtain ⟨hinT, -⟩ := s1 nd.t rfl
    have hsb1 : sameButRef m1 (cuddRef m1 nd.t) := sameButRef_cuddRef m1 nd.t
    have x1' : MExt m (cuddRef m1 nd.t) :=
      mextTrans x1 (MExt_of_sameButRef hsb1)
    have hw1' : wfM (cuddRef m1 nd.t) := (wfM_sbr hsb1).mpr w1
    rcases hE : recur (cuddRef m1 nd.t) t1 nd.e with ⟨m2, t2, r2, evsE⟩
    rw [hE] at h
    obtain ⟨w2, y1, p2, k2, s2⟩ :=
      hrecS (cuddRef m1 nd.t) t1 nd.e m2 t2 r2 evsE (Or.inr rfl) hE hw1'
        (varsOk_mext x1' hva) (permutOk_mext x1' hpo) (inMgr_mext x1' hie)
        ((PSound_sbr hsb1 permut t1).mpr p1)
    obtain ⟨j2, j2r⟩ :=
      hrecI (cuddRef m1 nd.t) t1 nd.e m2 t2 r2 evsE (Or.inr rfl) hE hw1'
        (varsOk_mext x1' hva) (permutOk_mext x1' hpo) (inMgr_mext x1' hie)
        ((PSound_sbr hsb1 permut t1).mpr p1)
        (fun i hi => hid i (by rw [← x1'.sz]; exact hi))
        ((PSound_sbr hsb1 permut t1).mpr p1 |> fun _ => j1)
    cases r2 with
    | none =>
      dsimp only at h
      simp only [Prod.mk.injEq] at h
      obtain ⟨rfl, rfl, rfl, rfl⟩ := h
      exact ⟨j2, fun e he => by cases he⟩
    | some E =>
      dsimp only at h
      obtain rfl := j2r E rfl
      have hsb2 : sameButRef m2 (cuddRef m2 nd.e) := sameButRef_cuddRef m2 nd.e
      have y1' : MExt (cuddRef m1 nd.t) (cuddRef m2 nd.e) :=
        mextTrans y1 (MExt_of_sameButRef hsb2)
      have xall : MExt m (cuddRef m2 nd.e) := mextTrans x1' y1'
      have hw2' : wfM (cuddRef m2 nd.e) := (wfM_sbr hsb2).mpr w2
      have hpi : nd.var < (cuddRef m2 nd.e).size := by
        rw [xall.sz]
        exact hvar
      have hidv : permut nd.var = nd.var := hid nd.var hvar
      obtain ⟨hproj, -⟩ := varsOk_mext xall hva nd.var hpi
      have hmem2 : (node.id, nd) ∈ (cuddRef m2 nd.e).nodes := by
        obtain ⟨l, hl⟩ := xall.nds
        rw [hl]
        exact List.mem_append_left l hmem
      have hproj2 : findNode (cuddRef m2 nd.e)
          ((cuddRef m2 nd.e).vars (permut nd.var))
          = some ⟨nd.var, oneE, zeroE⟩ := by
        rw [hidv]
        exact hproj
      rcases hI : cuddBddIteRecur (cuddRef m2 nd.e)
          ⟨(cuddRef m2 nd.e).vars (permut nd.var), false⟩ nd.t nd.e
        with ⟨m4, r4⟩
      rw [hI] at h
      have hidr := @iteRecur_id (cuddRef m2 nd.e) hw2' node.id nd hmem2
        ⟨(cuddRef m2 nd.e).vars (permut nd.var), false⟩ hproj2 rfl
      rw [hI] at hidr
      dsimp only at hidr
      cases r4 with
      | none =>
        dsimp only at h
        simp only [Prod.mk.injEq] at h
        obtain ⟨rfl, rfl, rfl, rfl⟩ := h
        exact ⟨j2, fun e he => by cases he⟩
      | some res =>
        dsimp only at h
        obtain rfl := hidr res rfl
        by_cases hg2 : (cuddDeref (cuddDeref (cuddRef m4 ⟨node.id, false⟩) nd.t)
            nd.e).ref node.id ≠ 1
        · rw [if_pos hg2] at h
          cases hA : cuddHashTableInsert1
              (cuddDeref (cuddDeref (cuddRef m4 ⟨node.id, false⟩) nd.t) nd.e)
              t2 node.id ⟨node.id, false⟩
              ((cuddDeref (cuddDeref (cuddRef m4 ⟨node.id, false⟩) nd.t)
                nd.e).ref node.id - 1)
            with
          | mk mi oti =>
            rw [hA] at h
            cases oti with
            | none =>
              dsimp only at h
              simp only [Prod.mk.injEq] at h
              obtain ⟨rfl, rfl, rfl, rfl⟩ := h
              exact ⟨j2, fun e he => by cases he⟩
            | some t3 =>
              dsimp only at h
              simp only [Prod.mk.injEq] at h
              obtain ⟨rfl, rfl, rfl, rfl⟩ := h
              obtain ⟨-, hent⟩ := htInsert_props hA
              refine ⟨?_, ?_⟩
              · intro p hp
                rw [hent] at hp
                rcases List.mem_append.mp hp with hp | hp
                · exact j2 p hp
                · obtain rfl := List.mem_singleton.mp hp
                  rfl
              · intro e he
                cases he
                exact notCond_regular node
        · rw [if_neg hg2] at h
          simp only [Prod.mk.injEq] at h
          obtain ⟨rfl, rfl, rfl, rfl⟩ := h
          refine ⟨j2, ?_⟩
          intro e he
          cases he
          exact notCond_regular node

/-- Under the identity permutation the recursion hands back the very
operand it was given, and the computed table only ever maps a key to its
own regular edge. -/
theorem permuteRecur_ident (permut : Nat → Nat) :
    ∀ (fuel : Nat) (m : Mgr) (tbl : DdHT) (node : Edge) (m' : Mgr)
      (t' : DdHT) (r : Option Edge) (evs : List CacheEv),
      cuddBddPermuteRecur permut fuel m tbl node = (m', t', r, evs) →
      wfM m → varsOk m → permutOk m permut → inMgr m node →
      node.id < fuel → PSound m permut tbl →
      (∀ i < m.size, permut i = i) →
      (∀ p ∈ tbl.entries, p.2.1 = ⟨p.1, false⟩) →
      (∀ p ∈ t'.entries, p.2.1 = ⟨p.1, false⟩) ∧
      (∀ e, r = some e → e = node) := by
  intro fuel
  induction fuel with
  | zero =>
    intro m tbl node m' t' r evs h hw hva hpo hin hfuel hps hid htbl
    omega
  | succ fuel ih =>
    intro m tbl node m' t' r evs h hw hva hpo hin hfuel hps hid htbl
    rw [cuddBddPermuteRecur] at h
    by_cases h0 : node.id = 0
    · rw [if_pos h0] at h
      simp only [Prod.mk.injEq] at h
      obtain ⟨rfl, rfl, rfl, rfl⟩ := h
      refine ⟨htbl, ?_⟩
      intro e he
      cases he
      rfl
    · rw [if_neg h0] at h
      cases hS : findNode m node.id with
      | none =>
        rcases hin with h0' | hsome
        · exact absurd h0' h0
        · rw [hS] at hsome
          simp at hsome
      | some nd =>
        rw [hS] at h
        dsimp only at h
        obtain ⟨-, -, -, hlt1, hlt2, -, -, -, -⟩ := good_of_findNode hw hS
        have hrecS : ∀ (ma : Mgr) (tba : DdHT) (x : Edge) (ma' : Mgr)
            (ta' : DdHT) (ra : Option Edge) (evsa : List CacheEv),
            (x = nd.t ∨ x = nd.e) →
            cuddBddPermuteRecur permut fuel ma tba x = (ma', ta', ra, evsa) →
            wfM ma → varsOk ma → permutOk ma permut → inMgr ma x →
            PSound ma permut tba →
            wfM ma' ∧ MExt ma ma' ∧ PSound ma' permut ta' ∧
            (∀ p ∈ ta'.entries, p ∈ tba.entries ∨ p.1 < node.id) ∧
            (∀ e, ra = some e →
              inMgr ma' e ∧
              ∀ a, eEval ma' a e = eEval ma (fun i => a (permut i)) x) := by
          intro ma tba x ma' ta' ra evsa hx hcall hwa hvaa hpoa hina hpsa
          have hxlt : x.id < fuel := by
            rcases hx with rfl | rfl <;> omega
          obtain ⟨cw, cx, cp, ck, cs⟩ := permuteRecur_sound permut fuel
            ma tba x ma' ta' ra evsa hcall hwa hvaa hpoa hina hxlt hpsa
          refine ⟨cw, cx, cp, ?_,
                  fun e he => ⟨(cs e he).1, (cs e he).2.1⟩⟩
          intro p hp
          rcases ck p hp with hh | hh
          · exact Or.inl hh
          · right
            rcases hx with rfl | rfl <;> omega
        have hrecI : ∀ (ma : Mgr) (tba : DdHT) (x : Edge) (ma' : Mgr)
            (ta' : DdHT) (ra : Option Edge) (evsa : List CacheEv),
            (x = nd.t ∨ x = nd.e) →
            cuddBddPermuteRecur permut fuel ma tba x = (ma', ta', ra, evsa) →
            wfM ma → varsOk ma → permutOk ma permut → inMgr ma x →
            PSound ma permut tba →
            (∀ i < ma.size, permut i = i) →
            (∀ p ∈ tba.entries, p.2.1 = ⟨p.1, false⟩) →
            (∀ p ∈ ta'.entries, p.2.1 = ⟨p.1, false⟩) ∧
            (∀ e, ra = some e → e = x) := by
          intro ma tba x ma' ta' ra evsa hx hcall hwa hvaa hpoa hina hpsa
            hida htba
          have hxlt : x.id < fuel := by
            rcases hx with rfl | rfl <;> omega
          exact ih ma tba x ma' ta' ra evsa hcall hwa hvaa hpoa hina hxlt
            hpsa hida htba
        by_cases hg : m.ref node.id ≠ 1
        · rw [if_pos hg] at h
          rcases hlk : cuddHashTableLookup1 m tbl node.id with ⟨m1, tb1, or1⟩
          rw [hlk] at h
          cases or1 with
          | some v =>
            dsimp only at h
            simp only [Prod.mk.injEq] at h
            obtain ⟨rfl, rfl, rfl, rfl⟩ := h
            obtain ⟨-, ⟨c, hc⟩, hsub, -⟩ := lookup1_some hlk
            have hv : v = ⟨node.id, false⟩ := htbl (node.id, v, c) hc
            refine ⟨?_, ?_⟩
            · intro q hq
              rcases hsub q hq with hh | hh
              · exact htbl q hh
              · rw [hh.2, hv, hh.1]
            · intro e he
              cases he
              rw [hv]
              exact notCond_regular node
          | none =>
            dsimp only at h
            rw [(lookup1_none hlk).1, (lookup1_none hlk).2] at h
            exact permuteKids_ident permut (cuddBddPermuteRecur permut fuel)
              nd node hrecS hrecI m tbl
              [CacheEv.lookup node.id (m.ref node.id)]
              hw hva hpo hS hps hid htbl m' t' r evs h
        · rw [if_neg hg] at h
          exact permuteKids_ident permut (cuddBddPermuteRecur permut fuel)
            nd node hrecS hrecI m tbl [] hw hva hpo hS hps hid htbl
            m' t' r evs h

/-- Under the identity permutation one attempt returns the operand
itself (when non-null). -/
theorem permuteOnce_ident {permut : Nat → Nat} {node : Edge} {m m' : Mgr}
    {r : Option Edge} {early : Bool}
    (h : permuteOnce permut node m = (m', r, early)) (hw : wfM m)
    (hva : varsOk m) (hpo : permutOk m permut) (hin : inMgr m node)
    (hid : ∀ i < m.size, permut i = i) :
    ∀ e, r = some e → e = node := by
  unfold permuteOnce at h
  dsimp only at h
  rcases hI : cuddHashTableInit { m with reordered := false } with ⟨m0, ot⟩
  rw [hI] at h
  cases ot with
  | none =>
    dsimp only at h
    simp only [Prod.mk.injEq] at h
    obtain ⟨rfl, rfl, rfl⟩ := h
    exact fun e he => by cases he
  | some tbl =>
    dsimp only at h
    obtain ⟨hm0, htb⟩ := htInit_some hI
    rcases hR : cuddBddPermuteRecur permut (node.id + 1) m0 tbl node
      with ⟨m1, t1, res, evs⟩
    rw [hR] at h
    dsimp only at h
    have hw0 : wfM m0 := by rw [hm0]; exact hw
    have hva0 : varsOk m0 := by rw [hm0]; exact hva
    have hpo0 : permutOk m0 permut := by rw [hm0]; exact hpo
    have hin0 : inMgr m0 node := by rw [hm0]; exact hin
    have hps0 : PSound m0 permut tbl := by
      intro p hp
      rw [htb] at hp
      cases hp
    have hid0 : ∀ i < m0.size, permut i = i := by
      intro i hi
      refine hid i ?_
      rw [hm0] at hi
      exact hi
    have htb0 : ∀ p ∈ tbl.entries, p.2.1 = ⟨p.1, false⟩ := by
      intro p hp
      rw [htb] at hp
      cases hp
    obtain ⟨-, hres⟩ := permuteRecur_ident permut (node.id + 1) m0 tbl node
      m1 t1 res evs hR hw0 hva0 hpo0 hin0 (Nat.lt_succ_self _) hps0 hid0 htb0
    cases res with
    | none =>
      dsimp only at h
      simp only [Prod.mk.injEq] at h
      obtain ⟨rfl, rfl, rfl⟩ := h
      exact fun e he => by cases he
    | some e0 =>
      dsimp only at h
      simp only [Prod.mk.injEq] at h
      obtain ⟨rfl, rfl, rfl⟩ := h
      intro e he
      cases he
      exact hres e0 rfl

/-- Under the identity permutation the retry loop returns the operand
itself (when non-null). -/
theorem permuteLoop_ident (permut : Nat → Nat) (node : Edge) :
    ∀ (fuel : Nat) (m m' : Mgr) (r : Option Edge) (early : Bool),
      permuteLoop permut node fuel m = (m', r, early) →
      wfM m → varsOk m → permutOk m permut → inMgr m node →
      (∀ i < m.size, permut i = i) →
      ∀ e, r = some e → e = node := by
  intro fuel
  induction fuel with
  | zero =>
    intro m m' r early h hw hva hpo hin hid
    rw [permuteLoop] at h
    simp only [Prod.mk.injEq] at h
    obtain ⟨rfl, rfl, rfl⟩ := h
    exact fun e he => by cases he
  | succ fuel ih =>
    intro m m' r early h hw hva hpo hin hid
    rw [permuteLoop] at h
    rcases hA : permuteOnce permut node m with ⟨m1, r1, e1⟩
    rw [hA] at h
    cases e1 with
    | true =>
      dsimp only at h
      simp only [Prod.mk.injEq] at h
      obtain ⟨rfl, rfl, rfl⟩ := h
      obtain ⟨-, rfl⟩ := (permuteOnce_frame hA).1 rfl
      exact fun e he => by cases he
    | false =>
      dsimp only at h
      obtain ⟨w1, -⟩ := permuteOnce_sound hA hw hva hpo hin
      obtain ⟨ax, -, -, -⟩ := (permuteOnce_frame hA).2 rfl
      by_cases hre : m1.reordered = true
      · rw [if_pos hre] at h
        have lx1 : LExt m m1 := lext_of_flagMext ax
        exact ih m1 m' r early h w1 (varsOk_lext lx1 hva)
          (permutOk_lext lx1 hpo) (inMgr_lext lx1 hin)
          (fun i hi => hid i (by rw [← lx1.sz]; exact hi))
      · rw [if_neg hre] at h
        simp only [Prod.mk.injEq] at h
        obtain ⟨rfl, rfl, rfl⟩ := h
        exact permuteOnce_ident hA hw hva hpo hin hid

/-! ### The exported transfer entry point. -/

/-- Soundness of the exported transfer entry point: the destination
stays well formed and a non-null result is alive and denotes exactly the
source function. -/
theorem Cudd_bddTransfer_top_sound {ddS ddD : Mgr} {f : Edge} {d' : Mgr}
    {r : Option Edge} {dr : Bool}
    (h : Cudd_bddTransfer ddS ddD f = (d', r, dr)) (hwS : wfM ddS)
    (hwD : wfM ddD) (hsz : ddS.size ≤ ddD.size) (hf : inMgr ddS f) :
    wfM d' ∧
    (∀ e, r = some e → inMgr d' e ∧ ∀ a, eEval d' a e = eEval ddS a f) := by
  unfold Cudd_bddTransfer at h
  rcases hL : transferLoop ddS f (ddD.reorderPlan.length + 1) ddD
    with ⟨dl, rl, drl⟩
  rw [hL] at h
  dsimp only at h
  simp only [Prod.mk.injEq] at h
  obtain ⟨rfl, rfl, rfl⟩ := h
  obtain ⟨wl, sl⟩ := transferLoop_sound ddS f hwS hf _ ddD dl rl drl hL hwD hsz
  refine ⟨(wfM_tn dl).mpr wl, ?_⟩
  intro e he
  obtain ⟨hine, heve⟩ := sl e he
  exact ⟨(inMgr_tn dl e).mpr hine, fun a => by rw [eEval_tn]; exact heve a⟩

/-- Reference-count and timeout bookkeeping of the exported transfer
entry point: when every attempt's teardown ran the counters are
unchanged, the timeout callback is invoked exactly once iff the timeout
condition is set and a handler is registered, and the (possibly null)
result computed by the attempts is passed through unchanged. -/
theorem Cudd_bddTransfer_top_ref {ddS ddD : Mgr} {f : Edge} {d' : Mgr}
    {r : Option Edge} {dr : Bool}
    (h : Cudd_bddTransfer ddS ddD f = (d', r, dr)) :
    (dr = true → ∀ i, d'.ref i = ddD.ref i) ∧
    d'.timeoutCalls = ddD.timeoutCalls
      + (if ddD.errorTimeout = true ∧ ddD.hasHandler = true then 1 else 0) ∧
    r = (transferLoop ddS f (ddD.reorderPlan.length + 1) ddD).2.1 := by
  unfold Cudd_bddTransfer at h
  rcases hL : transferLoop ddS f (ddD.reorderPlan.length + 1) ddD
    with ⟨dl, rl, drl⟩
  rw [hL] at h
  dsimp only at h
  simp only [Prod.mk.injEq] at h
  obtain ⟨rfl, rfl, rfl⟩ := h
  obtain ⟨lx, lref⟩ := transferLoop_frame ddS f _ ddD dl rl drl hL
  refine ⟨?_, ?_, ?_⟩
  · intro hdr i
    rw [tn_ref, lref hdr i]
  · rw [tn_calls, lx.calls, lx.tmo, lx.hnd]
  · rfl

/-! ## The claims. -/

/-- C1: for every BDD root and every total renaming/permutation map, the
node returned (when non-null) by `Cudd_bddTransfer` denotes exactly the
source function, and the node returned (when non-null) by
`Cudd_bddPermute` denotes the operand's function with the variables
composed through the map; a node denoting an incorrect function is never
returned. -/
theorem transfer_permute_functional_equivalence :
    (∀ (ddS ddD : Mgr) (f : Edge) (d' : Mgr) (e : Edge) (dr : Bool),
      Cudd_bddTransfer ddS ddD f = (d', some e, dr) →
      wfM ddS → wfM ddD → ddS.size ≤ ddD.size → inMgr ddS f →
      inMgr d' e ∧ ∀ a, eEval d' a e = eEval ddS a f) ∧
    (∀ (m : Mgr) (node : Edge) (permut : Nat → Nat) (m' : Mgr) (e : Edge),
      Cudd_bddPermute m node permut = (m', some e) →
      wfM m → varsOk m → permutOk m permut → inMgr m node →
      inMgr m' e ∧
      ∀ a, eEval m' a e = eEval m (fun i => a (permut i)) node) := by
  constructor
  · intro ddS ddD f d' e dr h hwS hwD hsz hf
    exact (Cudd_bddTransfer_top_sound h hwS hwD hsz hf).2 e rfl
  · intro m node permut m' e h hw hva hpo hin
    exact (Cudd_bddPermute_sound h hw hva hpo hin).2 e rfl

theorem transfer_permute_functional_equivalence_witness :
    eEval (Cudd_bddTransfer srcM dstM ⟨3, false⟩).1 (fun _ => true) ⟨5, false⟩
      = eEval srcM (fun _ => true) ⟨3, false⟩ ∧
    eEval (Cudd_bddPermute prmM ⟨3, false⟩ swapP).1 (fun _ => true) ⟨4, false⟩
      = eEval prmM (fun i => (fun _ => true) (swapP i)) ⟨3, false⟩ :=
  ⟨(transfer_permute_functional_equivalence.1 srcM dstM ⟨3, false⟩
      (Cudd_bddTransfer srcM dstM ⟨3, false⟩).1 ⟨5, false⟩
      (Cudd_bddTransfer srcM dstM ⟨3, false⟩).2.2 rfl (by decide) (by decide)
      (by decide) (by decide)).2 (fun _ => true),
   (transfer_permute_functional_equivalence.2 prmM ⟨3, false⟩ swapP
      (Cudd_bddPermute prmM ⟨3, false⟩ swapP).1 ⟨4, false⟩ rfl (by decide)
      (by decide) (by decide) (by decide)).2 (fun _ => true)⟩

/-- C2 (amended): a failed `Cudd_bddTransfer` leaves every reference
count unchanged provided every attempt's teardown ran (ghost flag
`true`); a failed `Cudd_bddPermute` always leaves every reference count
unchanged.  The spec's unconditional transfer statement is refuted by
`transfer_gen_failure_leak_cex`: when the generator allocation fails the
`goto failure` path skips the cache drain and cached references leak. -/
theorem failed_call_refcounts_unchanged :
    (∀ (ddS ddD : Mgr) (f : Edge) (d' : Mgr),
      Cudd_bddTransfer ddS ddD f = (d', none, true) →
      ∀ i, d'.ref i = ddD.ref i) ∧
    (∀ (m : Mgr) (node : Edge) (permut : Nat → Nat) (m' : Mgr),
      Cudd_bddPermute m node permut = (m', none) →
      ∀ i, m'.ref i = m.ref i) := by
  constructor
  · intro ddS ddD f d' h
    exact (Cudd_bddTransfer_top_ref h).1 rfl
  · intro m node permut m' h
    exact Cudd_bddPermute_ref h

theorem failed_call_refcounts_unchanged_witness :
    (Cudd_bddTransfer srcM dstNoCache ⟨3, false⟩).1.ref 1
      = dstNoCache.ref 1 ∧
    (Cudd_bddPermute prmNoMem ⟨3, false⟩ swapP).1.ref 3 = prmNoMem.ref 3 :=
  ⟨failed_call_refcounts_unchanged.1 srcM dstNoCache ⟨3, false⟩
     (Cudd_bddTransfer srcM dstNoCache ⟨3, false⟩).1 rfl 1,
   failed_call_refcounts_unchanged.2 prmNoMem ⟨3, false⟩ swapP
     (Cudd_bddPermute prmNoMem ⟨3, false⟩ swapP).1 rfl 3⟩

/-- Counterexample to C2 as stated: transferring node 1 of `srcM` into
`dstGenFail` (whose budget runs out exactly at the generator allocation)
fails, skips the cache drain (ghost flag `false`), and returns with the
fresh destination node 1's reference count raised from 0 to 2 — the
failed call changed
reference counts and the cache was not drained. -/
theorem transfer_gen_failure_leak_cex :
    (Cudd_bddTransfer srcM dstGenFail ⟨1, false⟩).2.1 = none ∧
    (Cudd_bddTransfer srcM dstGenFail ⟨1, false⟩).2.2 = false ∧
    (Cudd_bddTransfer srcM dstGenFail ⟨1, false⟩).1.ref 1 = 2 ∧
    dstGenFail.ref 1 = 0 :=
  ⟨rfl, rfl, rfl, rfl⟩

/-- C3 (amended): a successful call leaves every reference count
unchanged — the reference moved onto the result during the call is
released again before returning, so no positive net reference-ownership
increment remains on the result (the code ends with `cuddDeref(res)`);
see `success_positive_ownership_cex`. -/
theorem success_returns_unreferenced_result :
    (∀ (ddS ddD : Mgr) (f : Edge) (d' : Mgr) (e : Edge),
      Cudd_bddTransfer ddS ddD f = (d', some e, true) →
      ∀ i, d'.ref i = ddD.ref i) ∧
    (∀ (m : Mgr) (node : Edge) (permut : Nat → Nat) (m' : Mgr) (e : Edge),
      Cudd_bddPermute m node permut = (m', some e) →
      ∀ i, m'.ref i = m.ref i) := by
  constructor
  · intro ddS ddD f d' e h
    exact (Cudd_bddTransfer_top_ref h).1 rfl
  · intro m node permut m' e h
    exact Cudd_bddPermute_ref h

theorem success_returns_unreferenced_result_witness :
    (Cudd_bddTransfer srcM dstM ⟨3, false⟩).1.ref 5 = dstM.ref 5 ∧
    (Cudd_bddPermute prmM ⟨3, false⟩ swapP).1.ref 4 = prmM.ref 4 :=
  ⟨success_returns_unreferenced_result.1 srcM dstM ⟨3, false⟩
     (Cudd_bddTransfer srcM dstM ⟨3, false⟩).1 ⟨5, false⟩ rfl 5,
   success_returns_unreferenced_result.2 prmM ⟨3, false⟩ swapP
     (Cudd_bddPermute prmM ⟨3, false⟩ swapP).1 ⟨4, false⟩ rfl 4⟩

/-- Counterexample to C3 as stated: both entry points succeed yet the
returned node's reference count in the final manager is 0 — no positive
net reference-ownership increment was transferred out to the caller. -/
theorem success_positive_ownership_cex :
    (Cudd_bddTransfer srcM dstM ⟨3, false⟩).2.1 = some ⟨5, false⟩ ∧
    (Cudd_bddTransfer srcM dstM ⟨3, false⟩).1.ref 5 = 0 ∧
    (Cudd_bddPermute prmM ⟨3, false⟩ swapP).2 = some ⟨4, false⟩ ∧
    (Cudd_bddPermute prmM ⟨3, false⟩ swapP).1.ref 4 = 0 :=
  ⟨rfl, rfl, rfl, rfl⟩

/-- C4: every call to `Cudd_bddTransfer` or `Cudd_bddPermute` is a chain
of attempts that came back with the `reordered` flag raised (each
restarted from scratch with a fresh cache, flag cleared beforehand, flag
read afterwards) followed by one attempt that either completed with the
flag clear or (for the permutation) took the early return. -/
theorem reordering_retry_restarts_until_clear :
    (∀ (ddS ddD : Mgr) (f : Edge) (d' : Mgr) (r : Option Edge) (dr : Bool),
      Cudd_bddTransfer ddS ddD f = (d', r, dr) →
      ∃ k mk d2 dr2, chainR (failedAttemptT ddS f) k ddD mk ∧
        transferOnce ddS f mk = (d2, r, dr2) ∧ d2.reordered = false ∧
        d' = timeoutNote d2) ∧
    (∀ (m : Mgr) (node : Edge) (permut : Nat → Nat) (m' : Mgr)
        (r : Option Edge),
      Cudd_bddPermute m node permut = (m', r) →
      ∃ k mk m2 r2 early, chainR (failedAttemptP permut node) k m mk ∧
        permuteOnce permut node mk = (m2, r2, early) ∧ r = r2 ∧
        (early = true ∨ m2.reordered = false)) := by
  constructor
  · intro ddS ddD f d' r dr h
    unfold Cudd_bddTransfer at h
    rcases hL : transferLoop ddS f (ddD.reorderPlan.length + 1) ddD
      with ⟨dl, rl, drl⟩
    rw [hL] at h
    dsimp only at h
    simp only [Prod.mk.injEq] at h
    obtain ⟨rfl, rfl, rfl⟩ := h
    obtain ⟨k, mk, dr2, hch, hone, hflag⟩ :=
      transferLoop_decomp ddS f _ ddD dl rl drl (Nat.lt_succ_self _) hL
    exact ⟨k, mk, dl, dr2, hch, hone, hflag, rfl⟩
  · intro m node permut m' r h
    unfold Cudd_bddPermute at h
    rcases hL : permuteLoop permut node (m.reorderPlan.length + 1) m
      with ⟨ml, rl, el⟩
    rw [hL] at h
    obtain ⟨k, mk, hch, hone, hflag⟩ :=
      permuteLoop_decomp permut node _ m ml rl el (Nat.lt_succ_self _) hL
    cases rl with
    | none =>
      cases el with
      | true =>
        dsimp only at h
        simp only [Prod.mk.injEq] at h
        obtain ⟨rfl, rfl⟩ := h
        exact ⟨k, mk, ml, none, true, hch, hone, rfl, hflag⟩
      | false =>
        dsimp only at h
        simp only [Prod.mk.injEq] at h
        obtain ⟨rfl, rfl⟩ := h
        exact ⟨k, mk, ml, none, false, hch, hone, rfl, hflag⟩
    | some e0 =>
      cases el with
      | true =>
        exact absurd ((permuteLoop_frame permut node _ m ml (some e0) true
          hL).2.2.2 rfl) (by simp)
      | false =>
        dsimp only at h
        simp only [Prod.mk.injEq] at h
        obtain ⟨rfl, rfl⟩ := h
        exact ⟨k, mk, ml, some e0, false, hch, hone, rfl, hflag⟩

theorem reordering_retry_restarts_until_clear_witness :
    (∃ k mk d2 dr2, chainR (failedAttemptT srcM ⟨3, false⟩) k dstRe mk ∧
      transferOnce srcM ⟨3, false⟩ mk
        = (d2, (Cudd_bddTransfer srcM dstRe ⟨3, false⟩).2.1, dr2) ∧
      d2.reordered = false ∧
      (Cudd_bddTransfer srcM dstRe ⟨3, false⟩).1 = timeoutNote d2) ∧
    (∃ k mk m2 r2 early, chainR (failedAttemptP swapP ⟨3, false⟩) k prmRe mk ∧
      permuteOnce swapP ⟨3, false⟩ mk = (m2, r2, early) ∧
      (Cudd_bddPermute prmRe ⟨3, false⟩ swapP).2 = r2 ∧
      (early = true ∨ m2.reordered = false)) :=
  ⟨reordering_retry_restarts_until_clear.1 srcM dstRe ⟨3, false⟩
     (Cudd_bddTransfer srcM dstRe ⟨3, false⟩).1
     (Cudd_bddTransfer srcM dstRe ⟨3, false⟩).2.1
     (Cudd_bddTransfer srcM dstRe ⟨3, false⟩).2.2 rfl,
   reordering_retry_restarts_until_clear.2 prmRe ⟨3, false⟩ swapP
     (Cudd_bddPermute prmRe ⟨3, false⟩ swapP).1
     (Cudd_bddPermute prmRe ⟨3, false⟩ swapP).2 rfl⟩

/-- C6 (amended): the ghost record of every computed-table interaction
of the permutation recursion respects the guard discipline the code
actually implements: a lookup happens only when the `N->ref` value read
by the guard differs from 1, and an insert stores the re-read `N->ref`
value (which differs from 1) decremented by one.  The spec's claim that
a node with exactly one external referrer is never inserted is refuted
by `singly_referenced_node_inserted_cex`: the insert-time re-read
happens after the result has been protected, and when the result is the
node itself (identity permutation) the count has moved to 2. -/
theorem permute_cache_guard_discipline :
    ∀ (permut : Nat → Nat) (fuel : Nat) (m : Mgr) (tbl : DdHT) (node : Edge)
      (m' : Mgr) (t' : DdHT) (r : Option Edge) (evs : List CacheEv),
      cuddBddPermuteRecur permut fuel m tbl node = (m', t', r, evs) →
      ∀ ev ∈ evs, evGuardOk ev := by
  intro permut fuel m tbl node m' t' r evs h
  exact (permuteRecur_frame permut fuel m tbl node m' t' r evs h).2.1

theorem permute_cache_guard_discipline_witness :
    evGuardOk (CacheEv.insert 1 2 1) :=
  permute_cache_guard_discipline idP 2 oneVarM ⟨[], 20⟩ ⟨1, false⟩
    (cuddBddPermuteRecur idP 2 oneVarM ⟨[], 20⟩ ⟨1, false⟩).1
    (cuddBddPermuteRecur idP 2 oneVarM ⟨[], 20⟩ ⟨1, false⟩).2.1
    (cuddBddPermuteRecur idP 2 oneVarM ⟨[], 20⟩ ⟨1, false⟩).2.2.1
    [CacheEv.insert 1 2 1] rfl (CacheEv.insert 1 2 1) (by decide)

/-- Counterexample to C6 as stated: node 1 of `oneVarM` has exactly one
external referrer (its count is 1), yet permuting it through the
identity map records a cache insert for it — the insert-time guard
re-reads the count after the result (the node itself) was protected and
sees 2. -/
theorem singly_referenced_node_inserted_cex :
    oneVarM.ref 1 = 1 ∧
    (cuddBddPermuteRecur idP 2 oneVarM ⟨[], 20⟩ ⟨1, false⟩).2.2.2
      = [CacheEv.insert 1 2 1] :=
  ⟨rfl, rfl⟩

/-- C7: after the retry loop completes, the timeout callback is invoked
exactly once iff the context reports a timeout condition and a handler
is registered, and the (possibly null) result computed by the attempts
is returned unchanged — the notification never alters the result. -/
theorem timeout_callback_notification :
    (∀ (ddS ddD : Mgr) (f : Edge) (d' : Mgr) (r : Option Edge) (dr : Bool),
      Cudd_bddTransfer ddS ddD f = (d', r, dr) →
      d'.timeoutCalls = ddD.timeoutCalls
        + (if ddD.errorTimeout = true ∧ ddD.hasHandler = true then 1 else 0) ∧
      r = (transferLoop ddS f (ddD.reorderPlan.length + 1) ddD).2.1) ∧
    (∀ (m : Mgr) (node : Edge) (permut : Nat → Nat) (ml : Mgr)
        (res : Option Edge),
      permuteLoop permut node (m.reorderPlan.length + 1) m = (ml, res, false) →
      (Cudd_bddPermute m node permut).2 = res ∧
      (Cudd_bddPermute m node permut).1.timeoutCalls = m.timeoutCalls
        + (if m.errorTimeout = true ∧ m.hasHandler = true then 1 else 0)) := by
  constructor
  · intro ddS ddD f d' r dr h
    exact ⟨(Cudd_bddTransfer_top_ref h).2.1, (Cudd_bddTransfer_top_ref h).2.2⟩
  · intro m node permut ml res hL
    obtain ⟨lx, -, -, -⟩ := permuteLoop_frame permut node _ m ml res false hL
    unfold Cudd_bddPermute
    rw [hL]
    cases res with
    | none =>
      dsimp only
      refine ⟨rfl, ?_⟩
      rw [tn_calls, lx.calls, lx.tmo, lx.hnd]
    | some e0 =>
      dsimp only
      refine ⟨rfl, ?_⟩
      rw [tn_calls]
      rw [show (cuddDeref ml e0).timeoutCalls = ml.timeoutCalls from rfl,
          show (cuddDeref ml e0).errorTimeout = ml.errorTimeout from rfl,
          show (cuddDeref ml e0).hasHandler = ml.hasHandler from rfl,
          lx.calls, lx.tmo, lx.hnd]

theorem timeout_callback_notification_witness :
    (Cudd_bddTransfer srcM dstTmo ⟨3, false⟩).1.timeoutCalls
      = dstTmo.timeoutCalls
        + (if dstTmo.errorTimeout = true ∧ dstTmo.hasHandler = true
           then 1 else 0) ∧
    (Cudd_bddPermute prmTmo ⟨3, false⟩ swapP).2
      = (permuteLoop swapP ⟨3, false⟩ (prmTmo.reorderPlan.length + 1)
          prmTmo).2.1 :=
  ⟨(timeout_callback_notification.1 srcM dstTmo ⟨3, false⟩
      (Cudd_bddTransfer srcM dstTmo ⟨3, false⟩).1
      (Cudd_bddTransfer srcM dstTmo ⟨3, false⟩).2.1
      (Cudd_bddTransfer srcM dstTmo ⟨3, false⟩).2.2 rfl).1,
   (timeout_callback_notification.2 prmTmo ⟨3, false⟩ swapP
      (permuteLoop swapP ⟨3, false⟩ (prmTmo.reorderPlan.length + 1) prmTmo).1
      (permuteLoop swapP ⟨3, false⟩ (prmTmo.reorderPlan.length + 1)
        prmTmo).2.1
      (by rfl)).1⟩

/-- C8 (amended): when the permutation map is the identity on the
manager's variables, `Cudd_bddPermute` returns the input node itself.
The spec's converse ("only when the permutation is the identity") is
refuted by `nonidentity_returns_same_node_cex`: a constant node is
returned unchanged under a non-identity permutation. -/
theorem identity_permutation_returns_same_node :
    ∀ (m : Mgr) (node : Edge) (permut : Nat → Nat) (m' : Mgr) (e : Edge),
      Cudd_bddPermute m node permut = (m', some e) →
      wfM m → varsOk m → permutOk m permut → inMgr m node →
      (∀ i < m.size, permut i = i) →
      e = node := by
  intro m node permut m' e h hw hva hpo hin hid
  unfold Cudd_bddPermute at h
  rcases hL : permuteLoop permut node (m.reorderPlan.length + 1) m
    with ⟨ml, rl, el⟩
  rw [hL] at h
  cases rl with
  | none =>
    cases el with
    | true =>
      dsimp only at h
      simp only [Prod.mk.injEq] at h
      exact absurd h.2 (by simp)
    | false =>
      dsimp only at h
      simp only [Prod.mk.injEq] at h
      exact absurd h.2 (by simp)
  | some e0 =>
    cases el with
    | true =>
      exact absurd ((permuteLoop_frame permut node _ m ml (some e0) true
        hL).2.2.2 rfl) (by simp)
    | false =>
      dsimp only at h
      simp only [Prod.mk.injEq] at h
      obtain ⟨-, he⟩ := h
      obtain rfl := Option.some.inj he
      exact permuteLoop_ident permut node _ m ml (some e0) false hL
        hw hva hpo hin hid e0 rfl

theorem identity_permutation_returns_same_node_witness :
    (⟨3, false⟩ : Edge) = ⟨3, false⟩ ∧
    (Cudd_bddPermute prmM ⟨3, false⟩ idP).2 = some ⟨3, false⟩ :=
  ⟨identity_permutation_returns_same_node prmM ⟨3, false⟩ idP
     (Cudd_bddPermute prmM ⟨3, false⟩ idP).1 ⟨3, false⟩ rfl (by decide)
     (by decide) (by decide) (by decide) (by decide),
   rfl⟩

/-- Counterexample to C8 as stated: `swapP` is not the identity on
`prmM`'s two variables, yet permuting the constant node `⟨0, false⟩`
returns a node with the same identity. -/
theorem nonidentity_returns_same_node_cex :
    (Cudd_bddPermute prmM ⟨0, false⟩ swapP).2 = some ⟨0, false⟩ ∧
    ¬ (∀ i < prmM.size, swapP i = i) := by
  exact ⟨rfl, by decide⟩

/-- C10: when the allocation of the transient computed table fails at
the start of an attempt, `Cudd_bddPermute` returns null immediately from
inside the retry loop — the manager comes back exactly as the attempt
found it (flag cleared, nothing else done), so the reordering flag is
not re-checked and the timeout callback is not invoked even when the
timeout condition is set and a handler is registered. -/
theorem permute_table_alloc_failure_early_return :
    ∀ (m : Mgr) (node : Edge) (permut : Nat → Nat),
      m.budget = 0 →
      Cudd_bddPermute m node permut
        = ({ m with reordered := false }, none) ∧
      (Cudd_bddPermute m node permut).1.timeoutCalls = m.timeoutCalls := by
  intro m node permut hb
  have honce : permuteOnce permut node m
      = ({ m with reordered := false }, none, true) := by
    unfold permuteOnce
    dsimp only
    rw [show cuddHashTableInit { m with reordered := false }
          = ({ m with reordered := false }, none) from by
      unfold cuddHashTableInit
      rw [if_pos (show ({ m with reordered := false } : Mgr).budget = 0
        from hb)]]
  have hloop : permuteLoop permut node (m.reorderPlan.length + 1) m
      = ({ m with reordered := false }, none, true) := by
    rw [permuteLoop, honce]
  have h1 : Cudd_bddPermute m node permut
      = ({ m with reordered := false }, none) := by
    unfold Cudd_bddPermute
    rw [hloop]
  exact ⟨h1, by rw [h1]⟩

theorem permute_table_alloc_failure_early_return_witness :
    Cudd_bddPermute prmNoMem ⟨3, false⟩ swapP
      = ({ prmNoMem with reordered := false }, none) ∧
    prmNoMem.errorTimeout = true ∧ prmNoMem.hasHandler = true ∧
    (Cudd_bddPermute prmNoMem ⟨3, false⟩ swapP).1.timeoutCalls
      = prmNoMem.timeoutCalls :=
  ⟨(permute_table_alloc_failure_early_return prmNoMem ⟨3, false⟩ swapP rfl).1,
   rfl, rfl,
   (permute_table_alloc_failure_early_return prmNoMem ⟨3, false⟩ swapP rfl).2⟩

/-- C5: reference-equal (canonicalized) sub-diagrams of the operand map
to reference-equal images.  Within one transfer every visited regular
node is recorded in the cache, so a second encounter of the same node —
in any polarity — is answered from the cache with the very same image
node; within one permutation a node with several referrers is inserted
into the fresh computed table, and a later encounter that finds the
entry is answered with the very same image node. -/
theorem shared_subdiagrams_share_images :
    (∀ (ddS : Mgr) (fuel1 fuel2 : Nat) (ddD : Mgr) (tbl : STTable)
        (f f2 : Edge) (d1 : Mgr) (t1 : STTable) (e1 : Edge) (d2 : Mgr)
        (t2 : STTable) (r2 : Option Edge),
      wfM ddS → wfM ddD → ddS.size ≤ ddD.size → inMgr ddS f →
      f.id < fuel1 → TSound ddS ddD tbl → f.id ≠ 0 →
      cuddBddTransferRecur ddS fuel1 ddD tbl f = (d1, t1, some e1) →
      f2.id = f.id →
      cuddBddTransferRecur ddS (fuel2 + 1) d1 t1 f2 = (d2, t2, r2) →
      d2 = d1 ∧ t2 = t1 ∧ ∃ e2, r2 = some e2 ∧ e2.id = e1.id) ∧
    (∀ (permut : Nat → Nat) (fuel1 fuel2 : Nat) (m : Mgr) (tb : Nat)
        (node node2 : Edge) (m1 : Mgr) (t1 : DdHT) (e1 : Edge)
        (evs1 : List CacheEv) (m2 : Mgr) (t2 : DdHT) (r2 : Option Edge)
        (evs2 : List CacheEv) (v : Edge) (c : Nat)
        (l : List (Nat × Edge × Nat)),
      wfM m → varsOk m → permutOk m permut → inMgr m node →
      node.id < fuel1 → node.id ≠ 0 →
      cuddBddPermuteRecur permut fuel1 m ⟨[], tb⟩ node
        = (m1, t1, some e1, evs1) →
      node2.id = node.id →
      m1.ref node.id ≠ 1 →
      htLook t1.entries node.id = some (v, c, l) →
      cuddBddPermuteRecur permut (fuel2 + 1) m1 t1 node2
        = (m2, t2, r2, evs2) →
      ∃ e2, r2 = some e2 ∧ e2.id = e1.id) := by
  constructor
  · intro ddS fuel1 fuel2 ddD tbl f f2 d1 t1 e1 d2 t2 r2 hwS hwD hsz hf hflt
      hts h0 h1 hid2 h2
    obtain ⟨-, -, -, s1⟩ := transferRecur_sound ddS hwS fuel1 ddD tbl f d1 t1
      (some e1) h1 hwD hsz hf hflt hts
    obtain ⟨-, -, hcache⟩ := s1 e1 rfl
    obtain ⟨v, hlk, hev⟩ := hcache h0
    rw [cuddBddTransferRecur] at h2
    rw [if_neg (show ¬(f2.id = 0) from by rw [hid2]; exact h0)] at h2
    rw [show st_lookup t1 f2.id = some v from by rw [hid2]; exact hlk] at h2
    dsimp only at h2
    simp only [Prod.mk.injEq] at h2
    obtain ⟨rfl, rfl, rfl⟩ := h2
    refine ⟨rfl, rfl, Cudd_NotCond v f2.neg, rfl, ?_⟩
    rw [notCond_id, hev, notCond_id]
  · intro permut fuel1 fuel2 m tb node node2 m1 t1 e1 evs1 m2 t2 r2 evs2 v c l
      hw hva hpo hin hflt h0 h1 hid2 hg hlk h2
    obtain ⟨-, mx, -, -, s1⟩ := permuteRecur_sound permut fuel1 m ⟨[], tb⟩
      node m1 t1 (some e1) evs1 h1 hw hva hpo hin hflt
      (fun p hp => absurd hp (List.not_mem_nil p))
    obtain ⟨-, -, hcoh⟩ := s1 e1 rfl
    obtain ⟨⟨cc, hcm, -⟩, -, -⟩ := htLook_some hlk
    have he1 : e1 = Cudd_NotCond v node.neg := by
      rcases hcoh (node.id, v, cc) hcm rfl with hh | hh
      · obtain ⟨q, hq, -⟩ := hh
        exact absurd hq (List.not_mem_nil q)
      · exact hh
    rw [cuddBddPermuteRecur] at h2
    rw [if_neg (show ¬(node2.id = 0) from by rw [hid2]; exact h0)] at h2
    have hsome : ∃ nd, findNode m node.id = some nd := by
      rcases hin with hz | hs
      · exact absurd hz h0
      · exact Option.isSome_iff_exists.mp hs
    obtain ⟨nd, hS⟩ := hsome
    have hS2 : findNode m1 node2.id = some nd := by
      rw [hid2]
      exact findNode_mext mx hS
    rw [hS2] at h2
    dsimp only at h2
    rw [if_pos (show m1.ref node2.id ≠ 1 from by rw [hid2]; exact hg)] at h2
    rw [show cuddHashTableLookup1 m1 t1 node2.id
          = ((if c = 0 then cuddDeref m1 v else m1), ⟨l, t1.budget⟩, some v)
        from by unfold cuddHashTableLookup1; rw [hid2, hlk]] at h2
    dsimp only at h2
    simp only [Prod.mk.injEq] at h2
    obtain ⟨-, -, hr2, -⟩ := h2
    refine ⟨Cudd_NotCond v node2.neg, hr2.symm, ?_⟩
    rw [notCond_id, he1, notCond_id]

theorem shared_subdiagrams_share_images_witness :
    (∃ e2, (cuddBddTransferRecur srcM (0 + 1)
        (cuddBddTransferRecur srcM 2 dstM ⟨[], 20⟩ ⟨1, false⟩).1
        (cuddBddTransferRecur srcM 2 dstM ⟨[], 20⟩ ⟨1, false⟩).2.1
        ⟨1, true⟩).2.2 = some e2 ∧
      e2.id = (⟨1, false⟩ : Edge).id) ∧
    (∃ e2, (cuddBddPermuteRecur swapP (0 + 1)
        (cuddBddPermuteRecur swapP 3 shrM ⟨[], 20⟩ ⟨2, false⟩).1
        (cuddBddPermuteRecur swapP 3 shrM ⟨[], 20⟩ ⟨2, false⟩).2.1
        ⟨2, true⟩).2.2.1 = some e2 ∧
      e2.id = (⟨1, false⟩ : Edge).id) :=
  ⟨(shared_subdiagrams_share_images.1 srcM 2 0 dstM ⟨[], 20⟩ ⟨1, false⟩
      ⟨1, true⟩
      (cuddBddTransferRecur srcM 2 dstM ⟨[], 20⟩ ⟨1, false⟩).1
      (cuddBddTransferRecur srcM 2 dstM ⟨[], 20⟩ ⟨1, false⟩).2.1 ⟨1, false⟩
      (cuddBddTransferRecur srcM (0 + 1)
        (cuddBddTransferRecur srcM 2 dstM ⟨[], 20⟩ ⟨1, false⟩).1
        (cuddBddTransferRecur srcM 2 dstM ⟨[], 20⟩ ⟨1, false⟩).2.1
        ⟨1, true⟩).1
      (cuddBddTransferRecur srcM (0 + 1)
        (cuddBddTransferRecur srcM 2 dstM ⟨[], 20⟩ ⟨1, false⟩).1
        (cuddBddTransferRecur srcM 2 dstM ⟨[], 20⟩ ⟨1, false⟩).2.1
        ⟨1, true⟩).2.1
      (cuddBddTransferRecur srcM (0 + 1)
        (cuddBddTransferRecur srcM 2 dstM ⟨[], 20⟩ ⟨1, false⟩).1
        (cuddBddTransferRecur srcM 2 dstM ⟨[], 20⟩ ⟨1, false⟩).2.1
        ⟨1, true⟩).2.2
      (by decide) (by decide) (by decide) (by decide) (by decide)
      (fun p hp => absurd hp (List.not_mem_nil p)) (by decide) rfl rfl
      rfl).2.2,
   shared_subdiagrams_share_images.2 swapP 3 0 shrM 20 ⟨2, false⟩ ⟨2, true⟩
     (cuddBddPermuteRecur swapP 3 shrM ⟨[], 20⟩ ⟨2, false⟩).1
     (cuddBddPermuteRecur swapP 3 shrM ⟨[], 20⟩ ⟨2, false⟩).2.1 ⟨1, false⟩
     (cuddBddPermuteRecur swapP 3 shrM ⟨[], 20⟩ ⟨2, false⟩).2.2.2
     (cuddBddPermuteRecur swapP (0 + 1)
       (cuddBddPermuteRecur swapP 3 shrM ⟨[], 20⟩ ⟨2, false⟩).1
       (cuddBddPermuteRecur swapP 3 shrM ⟨[], 20⟩ ⟨2, false⟩).2.1
       ⟨2, true⟩).1
     (cuddBddPermuteRecur swapP (0 + 1)
       (cuddBddPermuteRecur swapP 3 shrM ⟨[], 20⟩ ⟨2, false⟩).1
       (cuddBddPermuteRecur swapP 3 shrM ⟨[], 20⟩ ⟨2, false⟩).2.1
       ⟨2, true⟩).2.1
     (cuddBddPermuteRecur swapP (0 + 1)
       (cuddBddPermuteRecur swapP 3 shrM ⟨[], 20⟩ ⟨2, false⟩).1
       (cuddBddPermuteRecur swapP 3 shrM ⟨[], 20⟩ ⟨2, false⟩).2.1
       ⟨2, true⟩).2.2.1
     (cuddBddPermuteRecur swapP (0 + 1)
       (cuddBddPermuteRecur swapP 3 shrM ⟨[], 20⟩ ⟨2, false⟩).1
       (cuddBddPermuteRecur swapP 3 shrM ⟨[], 20⟩ ⟨2, false⟩).2.1
       ⟨2, true⟩).2.2.2
     ⟨1, false⟩ 0 []
     (by decide) (by decide) (by decide) (by decide) (by decide) (by decide)
     rfl rfl (by decide) rfl rfl⟩

/-- C9: a failed cache insert is a third failure source beyond child
recursion and node construction: in the transfer recursion, when the
children, the projection node and the composition all succeeded but
`st_add_direct` reports out of memory, the frame releases the child
results and the freshly built result node and propagates null; in the
permutation recursion, when the re-read referrer count directed an
insert and `cuddHashTableInsert1` fails, the frame likewise releases the
freshly built result node and propagates null. -/
theorem cache_insert_failure_releases_result :
    (∀ (ddS : Mgr) (fuel : Nat) (ddD : Mgr) (tbl : STTable) (f : Edge)
        (nd : NodeData) (d1 : Mgr) (t1 : STTable) (t : Edge) (d2 : Mgr)
        (t2 : STTable) (e' : Edge) (d3 : Mgr) (var : Edge) (d4 : Mgr)
        (res : Edge),
      f.id ≠ 0 →
      st_lookup tbl f.id = none →
      findNode ddS f.id = some nd →
      cuddBddTransferRecur ddS fuel ddD tbl nd.t = (d1, t1, some t) →
      cuddBddTransferRecur ddS fuel (cuddRef d1 t) t1 nd.e
        = (d2, t2, some e') →
      cuddUniqueInter (cuddRef d2 e') nd.var oneE zeroE = (d3, some var) →
      cuddBddIteRecur d3 var t e' = (d4, some res) →
      t2.budget = 0 →
      cuddBddTransferRecur ddS (fuel + 1) ddD tbl f
        = (cuddDeref (cuddDeref (cuddDeref (cuddRef d4 res) t) e') res,
           t2, none)) ∧
    (∀ (permut : Nat → Nat) (fuel : Nat) (nd : NodeData) (node : Edge)
        (m : Mgr) (tbl : DdHT) (evs0 : List CacheEv) (m1 : Mgr) (t1 : DdHT)
        (T : Edge) (evsT : List CacheEv) (m2 : Mgr) (t2 : DdHT) (E : Edge)
        (evsE : List CacheEv) (m4 : Mgr) (res : Edge),
      cuddBddPermuteRecur permut fuel m tbl nd.t = (m1, t1, some T, evsT) →
      cuddBddPermuteRecur permut fuel (cuddRef m1 T) t1 nd.e
        = (m2, t2, some E, evsE) →
      cuddBddIteRecur (cuddRef m2 E)
        ⟨(cuddRef m2 E).vars (permut nd.var), false⟩ T E = (m4, some res) →
      (cuddDeref (cuddDeref (cuddRef m4 res) T) E).ref node.id ≠ 1 →
      t2.budget = 0 →
      permuteKids permut (cuddBddPermuteRecur permut fuel) nd node m tbl evs0
        = (cuddDeref (cuddDeref (cuddDeref (cuddRef m4 res) T) E) res, t2,
           none,
           (evs0 ++ evsT ++ evsE)
             ++ [CacheEv.insert node.id
                  ((cuddDeref (cuddDeref (cuddRef m4 res) T) E).ref node.id)
                  ((cuddDeref (cuddDeref (cuddRef m4 res) T) E).ref node.id
                    - 1)])) := by
  constructor
  · intro ddS fuel ddD tbl f nd d1 t1 t d2 t2 e' d3 var d4 res h0 hlk hS hT hE
      hU hI hb
    rw [cuddBddTransferRecur]
    rw [if_neg h0, hlk]
    dsimp only
    rw [hS]
    dsimp only
    rw [hT]
    dsimp only
    rw [hE]
    dsimp only
    rw [hU]
    dsimp only
    rw [hI]
    dsimp only
    rw [show st_add_direct t2 f.id res = none from by
      unfold st_add_direct
      rw [if_pos hb]]
  · intro permut fuel nd node m tbl evs0 m1 t1 T evsT m2 t2 E evsE m4 res
      hT hE hI hg hb
    unfold permuteKids
    rw [hT]
    dsimp only
    rw [hE]
    dsimp only
    rw [hI]
    dsimp only
    rw [if_pos hg]
    rw [show cuddHashTableInsert1
          (cuddDeref (cuddDeref (cuddRef m4 res) T) E) t2 node.id res
          ((cuddDeref (cuddDeref (cuddRef m4 res) T) E).ref node.id - 1)
        = ((cuddDeref (cuddDeref (cuddRef m4 res) T) E), none) from by
      unfold cuddHashTableInsert1
      rw [if_pos hb]]

theorem cache_insert_failure_releases_result_witness :
    (cuddBddTransferRecur srcM (1 + 1) dstNoCache ⟨[], 0⟩ ⟨1, false⟩).2.2
      = none ∧
    (permuteKids swapP (cuddBddPermuteRecur swapP 3) ⟨0, oneE, ⟨2, false⟩⟩
      ⟨3, false⟩ c9M ⟨[], 0⟩ []).2.2.1 = none := by
  constructor
  · rw [cache_insert_failure_releases_result.1 srcM 1 dstNoCache ⟨[], 0⟩
      ⟨1, false⟩ ⟨2, oneE, zeroE⟩
      (cuddBddTransferRecur srcM 1 dstNoCache ⟨[], 0⟩
        (⟨2, oneE, zeroE⟩ : NodeData).t).1
      (cuddBddTransferRecur srcM 1 dstNoCache ⟨[], 0⟩
        (⟨2, oneE, zeroE⟩ : NodeData).t).2.1
      oneE
      (cuddBddTransferRecur srcM 1
        (cuddRef (cuddBddTransferRecur srcM 1 dstNoCache ⟨[], 0⟩
          (⟨2, oneE, zeroE⟩ : NodeData).t).1 oneE)
        (cuddBddTransferRecur srcM 1 dstNoCache ⟨[], 0⟩
          (⟨2, oneE, zeroE⟩ : NodeData).t).2.1
        (⟨2, oneE, zeroE⟩ : NodeData).e).1
      (cuddBddTransferRecur srcM 1
        (cuddRef (cuddBddTransferRecur srcM 1 dstNoCache ⟨[], 0⟩
          (⟨2, oneE, zeroE⟩ : NodeData).t).1 oneE)
        (cuddBddTransferRecur srcM 1 dstNoCache ⟨[], 0⟩
          (⟨2, oneE, zeroE⟩ : NodeData).t).2.1
        (⟨2, oneE, zeroE⟩ : NodeData).e).2.1
      zeroE
      (cuddUniqueInter (cuddRef (cuddBddTransferRecur srcM 1
          (cuddRef (cuddBddTransferRecur srcM 1 dstNoCache ⟨[], 0⟩
            (⟨2, oneE, zeroE⟩ : NodeData).t).1 oneE)
          (cuddBddTransferRecur srcM 1 dstNoCache ⟨[], 0⟩
            (⟨2, oneE, zeroE⟩ : NodeData).t).2.1
          (⟨2, oneE, zeroE⟩ : NodeData).e).1 zeroE) 2 oneE zeroE).1
      ⟨1, false⟩
      (cuddBddIteRecur (cuddUniqueInter (cuddRef (cuddBddTransferRecur srcM 1
          (cuddRef (cuddBddTransferRecur srcM 1 dstNoCache ⟨[], 0⟩
            (⟨2, oneE, zeroE⟩ : NodeData).t).1 oneE)
          (cuddBddTransferRecur srcM 1 dstNoCache ⟨[], 0⟩
            (⟨2, oneE, zeroE⟩ : NodeData).t).2.1
          (⟨2, oneE, zeroE⟩ : NodeData).e).1 zeroE) 2 oneE zeroE).1
        ⟨1, false⟩ oneE zeroE).1
      ⟨1, false⟩
      (by decide) rfl rfl rfl rfl rfl rfl rfl]
  · rw [cache_insert_failure_releases_result.2 swapP 3 ⟨0, oneE, ⟨2, false⟩⟩
      ⟨3, false⟩ c9M ⟨[], 0⟩ []
      (cuddBddPermuteRecur swapP 3 c9M ⟨[], 0⟩
        (⟨0, oneE, ⟨2, false⟩⟩ : NodeData).t).1
      (cuddBddPermuteRecur swapP 3 c9M ⟨[], 0⟩
        (⟨0, oneE, ⟨2, false⟩⟩ : NodeData).t).2.1
      oneE []
      (cuddBddPermuteRecur swapP 3
        (cuddRef (cuddBddPermuteRecur swapP 3 c9M ⟨[], 0⟩
          (⟨0, oneE, ⟨2, false⟩⟩ : NodeData).t).1 oneE)
        (cuddBddPermuteRecur swapP 3 c9M ⟨[], 0⟩
          (⟨0, oneE, ⟨2, false⟩⟩ : NodeData).t).2.1
        (⟨0, oneE, ⟨2, false⟩⟩ : NodeData).e).1
      (cuddBddPermuteRecur swapP 3
        (cuddRef (cuddBddPermuteRecur swapP 3 c9M ⟨[], 0⟩
          (⟨0, oneE, ⟨2, false⟩⟩ : NodeData).t).1 oneE)
        (cuddBddPermuteRecur swapP 3 c9M ⟨[], 0⟩
          (⟨0, oneE, ⟨2, false⟩⟩ : NodeData).t).2.1
        (⟨0, oneE, ⟨2, false⟩⟩ : NodeData).e).2.1
      ⟨1, false⟩ []
      (cuddBddIteRecur (cuddRef (cuddBddPermuteRecur swapP 3
          (cuddRef (cuddBddPermuteRecur swapP 3 c9M ⟨[], 0⟩
            (⟨0, oneE, ⟨2, false⟩⟩ : NodeData).t).1 oneE)
          (cuddBddPermuteRecur swapP 3 c9M ⟨[], 0⟩
            (⟨0, oneE, ⟨2, false⟩⟩ : NodeData).t).2.1
          (⟨0, oneE, ⟨2, false⟩⟩ : NodeData).e).1 ⟨1, false⟩)
        ⟨(cuddRef (cuddBddPermuteRecur swapP 3
          (cuddRef (cuddBddPermuteRecur swapP 3 c9M ⟨[], 0⟩
            (⟨0, oneE, ⟨2, false⟩⟩ : NodeData).t).1 oneE)
          (cuddBddPermuteRecur swapP 3 c9M ⟨[], 0⟩
            (⟨0, oneE, ⟨2, false⟩⟩ : NodeData).t).2.1
          (⟨0, oneE, ⟨2, false⟩⟩ : NodeData).e).1 ⟨1, false⟩).vars (swapP 0),
         false⟩ oneE ⟨1, false⟩).1
      ⟨4, false⟩
      rfl rfl rfl (by decide) rfl]

end CuddAddendum
